import Mathlib

/-!
# Micheline parser and JSON printer of visualtez-testing

A shallow embedding of `internal/business/michelson/micheline/parser.go` and
`internal/business/michelson/json/printer.go`, followed by theorems about them.

Conventions of the embedding:

* Go strings are Lean strings; `len(s)` is the UTF-8 byte length.
* Go `int` offsets are mathematical integers (offsets into one text buffer,
  far from the machine bounds).
* `scanner.errorf` aborts the parse; an aborted parse is the outcome `fail`.
* The two parser loops and the mutual recursion of `parsePrim` and
  `parseSequence` are driven by a fuel counter; the outcome `timeout` is
  returned only when the counter runs out.
-/

namespace Micheline

/-- Go's `string` type. -/
abbrev GoString := String

/-- Go's builtin `len` on a string: the number of bytes. -/
def len (s : GoString) : Int := (s.utf8ByteSize : Int)

/-! ## Tokens and scanner -/

/-- Modelled from the spec: the token kinds of package `token`, which is not
among the sources: "identifier, integer, string, byte-literal, annotation,
open/close-sequence delimiter, element separator, end-of-input". -/
inductive Kind where
  | EOF
  | Identifier
  | Int
  | String
  | Bytes
  | Annot
  | Open_brace
  | Close_brace
  | Semi
  deriving DecidableEq, Repr

/-- A token as returned by `Scanner.Scan`: `(position, kind, text)`. -/
structure Token where
  position : Int
  kind : Kind
  text : GoString
  deriving DecidableEq, Repr

/-- Modelled from the spec: the Scanner, which is not among the sources, is the
list of tokens it has yet to return ("converts raw notation text into a
sequence of (position, kind, text) tokens on demand"). -/
abbrev Scanner := List Token

/-- Modelled from the spec: `Scanner.Scan` returns the next token and advances;
once the tokens are exhausted it answers with the end-of-input kind. -/
def Scanner.Scan : Scanner → Token × Scanner
  | [] => ({ position := 0, kind := Kind.EOF, text := "" }, [])
  | t :: rest => (t, rest)

/-! ## AST -/

/-- The span `ast.Position`. -/
structure Position where
  Pos : Int
  End : Int
  deriving DecidableEq, Repr

/-- The three annotation kinds of `ast.AnnotationKind`. -/
inductive AnnotationKind where
  | TypeAnnotation
  | VariableAnnotation
  | FieldAnnotation
  deriving DecidableEq, Repr

open AnnotationKind

/-- The record `ast.Annotation`. -/
structure Annotation where
  Position : Position
  Kind : AnnotationKind
  Value : GoString
  deriving DecidableEq, Repr

/-- The five node variants of `ast.Node`. The `Int` value is the `int64`
returned by `strconv.ParseInt`, kept as an integer. -/
inductive Node where
  | Bytes (Position : Position) (Value : GoString)
  | Int (Position : Position) (Value : ℤ)
  | String (Position : Position) (Value : GoString)
  | Prim (Position : Position) (Prim : GoString) (Annotations : List Annotation)
      (Arguments : List Node)
  | Sequence (Position : Position) (Elements : List Node)

/-! ## Parser state and outcomes -/

/-- The fields of `Parser` (the `trace` flag only prints and is left out). -/
structure Parser where
  token_position : Int
  token_kind : Kind
  token_text : GoString
  scanner : Scanner
  deriving DecidableEq, Repr

/-- The messages passed to `scanner.errorf`, plus Go's index panic. -/
inductive ParseError where
  /-- "Unexpected token (%s) as sequence child." -/
  | unexpectedToken (kind : Kind)
  /-- "Expected token kind (%s), but received (%s)." -/
  | expected (want got : Kind)
  /-- "Invalid bytes: %s. %v" -/
  | invalidBytes (text : GoString) (position : Int)
  /-- "Invalid number: %s. %v" -/
  | invalidNumber (text : GoString) (position : Int)
  /-- "Unexpected annotation: (%s)" -/
  | unexpectedAnnot (text : GoString)
  /-- The runtime panic of `p.token_text[0]` on an empty text. -/
  | indexOutOfRange
  deriving DecidableEq, Repr

/-- Modelled from the spec: `scanner.errorf`, which is not among the sources, aborts
the parse ("any grammar violation is immediately fatal for that parse call (no partial
AST is returned)"). So a parsing function has one of three outcomes: it returns a value
and leaves the parser in a state (`done`), it aborts through `errorf` or a runtime
panic (`fail`), or the fuel of the embedding runs out (`timeout`). -/
inductive Outcome (α : Type) where
  | done (value : α) (p : Parser)
  | fail (e : ParseError)
  | timeout

/-- `Parser.Init`: store the scanner; the other fields have their zero value
(the zero value of `token.Kind` is never read: `Parse` scans first). -/
def Parser.Init (scanner : Scanner) : Parser :=
  { token_position := 0, token_kind := Kind.EOF, token_text := "", scanner := scanner }

/-- `Parser.next`: load the next token of the scanner. -/
def Parser.next (p : Parser) : Parser :=
  let r := Scanner.Scan p.scanner
  { token_position := r.1.position, token_kind := r.1.kind, token_text := r.1.text,
    scanner := r.2 }

/-- `Parser.expect`: the current position when the current kind is `kind`,
otherwise an abort. -/
def Parser.expect (p : Parser) (kind : Kind) : Except ParseError Int :=
  if p.token_kind = kind then .ok p.token_position
  else .error (.expected kind p.token_kind)

/-! ## Literals -/

/-- One character of the class `[0-9a-fA-F]`. -/
def isHexDigit (c : Char) : Bool :=
  ('0' ≤ c && c ≤ '9') || ('a' ≤ c && c ≤ 'f') || ('A' ≤ c && c ≤ 'F')

/-- One character of the class `[0-9]`. -/
def isDecDigit (c : Char) : Bool := '0' ≤ c && c ≤ '9'

/-- `isHex`: the text matches `^0x[0-9a-fA-F]+$`. -/
def isHex (text : GoString) : Bool :=
  match text.data with
  | '0' :: 'x' :: d :: ds => isHexDigit d && ds.all isHexDigit
  | _ => false

/-- `isNumber`: the text matches `^-?[0-9]+$`. -/
def isNumber (text : GoString) : Bool :=
  match text.data with
  | '-' :: d :: ds => isDecDigit d && ds.all isDecDigit
  | d :: ds => isDecDigit d && ds.all isDecDigit
  | [] => false

/-- The value of a decimal digit character. -/
def digitVal (c : Char) : Nat := c.toNat - '0'.toNat

/-- The loop of `strconv.ParseUint` in base 10 without its overflow cut-off:
accumulate the digits from the left. -/
def accDigits (ds : List Char) : Nat := ds.foldl (fun n c => n * 10 + digitVal c) 0

/-- The unsigned part of `strconv.ParseInt`: a non-empty run of decimal digits. -/
def parseMagnitude (ds : List Char) : Option Nat :=
  if ds ≠ [] ∧ ds.all isDecDigit = true then some (accDigits ds) else none

/-- `strconv.ParseInt(text, 10, 64)`: an optional sign `+` or `-`, then decimal
digits; `none` stands for a non-nil `err` (syntax error, or a value outside
`[-2^63, 2^63 - 1]`). -/
def ParseInt (text : GoString) : Option ℤ :=
  match text.data with
  | '-' :: ds =>
    match parseMagnitude ds with
    | some n => if n ≤ 2 ^ 63 then some (-(n : ℤ)) else none
    | none => none
  | '+' :: ds =>
    match parseMagnitude ds with
    | some n => if n < 2 ^ 63 then some (n : ℤ) else none
    | none => none
  | ds =>
    match parseMagnitude ds with
    | some n => if n < 2 ^ 63 then some (n : ℤ) else none
    | none => none

/-- `Parser.parseBytes`. -/
def parseBytes (p : Parser) : Outcome Node :=
  match p.expect Kind.Bytes with
  | .error e => .fail e
  | .ok position =>
    if !isHex p.token_text || len p.token_text % 2 ≠ 0 then
      .fail (.invalidBytes p.token_text position)
    else
      .done (Node.Bytes { Pos := position, End := position + len p.token_text - 1 }
        p.token_text) p.next

/-- `Parser.parseString`. -/
def parseString (p : Parser) : Outcome Node :=
  match p.expect Kind.String with
  | .error e => .fail e
  | .ok position =>
    .done (Node.String { Pos := position, End := position + len p.token_text + 1 }
      p.token_text) p.next

/-- `Parser.parseInt`. -/
def parseInt (p : Parser) : Outcome Node :=
  match p.expect Kind.Int with
  | .error e => .fail e
  | .ok position =>
    match ParseInt p.token_text with
    | none => .fail (.invalidNumber p.token_text position)
    | some number =>
      .done (Node.Int { Pos := position, End := position + len p.token_text - 1 } number)
        p.next

/-- `Parser.parseAnnotation`; the current token is not consumed. -/
def parseAnnotation (p : Parser) : Except ParseError Annotation :=
  match p.expect Kind.Annot with
  | .error e => .error e
  | .ok position =>
    let span : Position := { Pos := position, End := position + len p.token_text - 1 }
    match p.token_text.data with
    | [] => .error .indexOutOfRange
    | c :: _ =>
      if c = ':' then
        .ok { Position := span, Kind := TypeAnnotation, Value := p.token_text }
      else if c = '@' then
        .ok { Position := span, Kind := VariableAnnotation, Value := p.token_text }
      else if c = '%' then
        .ok { Position := span, Kind := FieldAnnotation, Value := p.token_text }
      else .error (.unexpectedAnnot p.token_text)

/-- The annotation loop of `parsePrim`:
`for p.token_kind == token.Annot { append(parseAnnotation()); p.next() }`. -/
def annotationLoop : Nat → Parser → List Annotation → Outcome (List Annotation)
  | 0, _, _ => .timeout
  | fuel + 1, p, annotations =>
    if p.token_kind = Kind.Annot then
      match parseAnnotation p with
      | .error e => .fail e
      | .ok a => annotationLoop fuel p.next (annotations ++ [a])
    else .done annotations p

mutual

/-- `Parser.parseSequence`. -/
def parseSequence : Nat → Parser → Outcome Node
  | 0, _ => .timeout
  | fuel + 1, p =>
    match p.expect Kind.Open_brace with
    | .error e => .fail e
    | .ok begin =>
      match sequenceLoop fuel p.next [] with
      | .timeout => .timeout
      | .fail e => .fail e
      | .done elements p1 =>
        match p1.expect Kind.Close_brace with
        | .error e => .fail e
        | .ok close => .done (Node.Sequence { Pos := begin, End := close } elements) p1.next

/-- The loop of `parseSequence`: `for p.token_kind != token.Close_brace { ... }`. -/
def sequenceLoop : Nat → Parser → List Node → Outcome (List Node)
  | 0, _, _ => .timeout
  | fuel + 1, p, elements =>
    if p.token_kind = Kind.Close_brace then .done elements p
    else
      let child : Outcome Node :=
        match p.token_kind with
        | Kind.Bytes => parseBytes p
        | Kind.String => parseString p
        | Kind.Int => parseInt p
        | Kind.Identifier => parsePrim fuel p
        | Kind.Open_brace => parseSequence fuel p
        | k => .fail (.unexpectedToken k)
      match child with
      | .timeout => .timeout
      | .fail e => .fail e
      | .done n p1 =>
        if p1.token_kind ≠ Kind.Close_brace then
          match p1.expect Kind.Semi with
          | .error e => .fail e
          | .ok _ => sequenceLoop fuel p1.next (elements ++ [n])
        else sequenceLoop fuel p1 (elements ++ [n])

/-- `Parser.parsePrim`. -/
def parsePrim : Nat → Parser → Outcome Node
  | 0, _ => .timeout
  | fuel + 1, p =>
    match p.expect Kind.Identifier with
    | .error e => .fail e
    | .ok begin =>
      let identifier := p.token_text
      match annotationLoop fuel p.next [] with
      | .timeout => .timeout
      | .fail e => .fail e
      | .done annotations p1 =>
        match argumentLoop fuel p1 [] with
        | .timeout => .timeout
        | .fail e => .fail e
        | .done arguments p2 =>
          .done (Node.Prim { Pos := begin, End := p2.token_position } identifier
            annotations arguments) p2

/-- The argument loop of `parsePrim`: `for { switch p.token_kind { ... } break }`. -/
def argumentLoop : Nat → Parser → List Node → Outcome (List Node)
  | 0, _, _ => .timeout
  | fuel + 1, p, arguments =>
    match p.token_kind with
    | Kind.Bytes =>
      match parseBytes p with
      | .timeout => .timeout
      | .fail e => .fail e
      | .done n p1 => argumentLoop fuel p1 (arguments ++ [n])
    | Kind.String =>
      match parseString p with
      | .timeout => .timeout
      | .fail e => .fail e
      | .done n p1 => argumentLoop fuel p1 (arguments ++ [n])
    | Kind.Int =>
      match parseInt p with
      | .timeout => .timeout
      | .fail e => .fail e
      | .done n p1 => argumentLoop fuel p1 (arguments ++ [n])
    | Kind.Identifier =>
      match parsePrim fuel p with
      | .timeout => .timeout
      | .fail e => .fail e
      | .done n p1 => argumentLoop fuel p1 (arguments ++ [n])
    | Kind.Open_brace =>
      match parseSequence fuel p with
      | .timeout => .timeout
      | .fail e => .fail e
      | .done n p1 => argumentLoop fuel p1 (arguments ++ [n])
    | _ => .done arguments p

end

/-- `Parser.Parse`. -/
def Parse (fuel : Nat) (p : Parser) : Outcome Node :=
  let p := p.next
  match p.token_kind with
  | Kind.Bytes => parseBytes p
  | Kind.String => parseString p
  | Kind.Int => parseInt p
  | Kind.Identifier => parsePrim fuel p
  | Kind.Open_brace => parseSequence fuel p
  | k => .fail (.unexpectedToken k)

/-! ## Vocabulary of the statements -/

/-- The parser about to read the tokens `ts`: its current token is the first of
them and its scanner holds the others (the state after `Init` and one `next`). -/
def Parser.reading (ts : List Token) : Parser := (Parser.Init ts).next

/-- The kinds that start a node: bytes, string, int, identifier, `{`. -/
def startsNode : Kind → Bool
  | Kind.Bytes | Kind.String | Kind.Int | Kind.Identifier | Kind.Open_brace => true
  | _ => false

/-- A literal token the parser accepts: a bytes token with a valid text, any
string token, an int token whose text `strconv.ParseInt` accepts. -/
def validLiteral (t : Token) : Bool :=
  match t.kind with
  | Kind.Bytes => isHex t.text && len t.text % 2 == 0
  | Kind.String => true
  | Kind.Int => (ParseInt t.text).isSome
  | _ => false

/-- The node a literal token stands for. -/
def literalNode (t : Token) : Node :=
  match t.kind with
  | Kind.Bytes => Node.Bytes { Pos := t.position, End := t.position + len t.text - 1 } t.text
  | Kind.String => Node.String { Pos := t.position, End := t.position + len t.text + 1 } t.text
  | _ => Node.Int { Pos := t.position, End := t.position + len t.text - 1 }
      ((ParseInt t.text).getD 0)

/-- One outcome refines another: it ran out of fuel, or it is the same outcome. -/
def Outcome.le {α : Type} (a b : Outcome α) : Prop := a = .timeout ∨ a = b

/-- The tokens `e1 ; e2 ; ... ; en` of a sequence body: the elements `es` with the
separators `ss` put between them. -/
def interleave : List Token → List Token → List Token
  | [], _ => []
  | [e], _ => [e]
  | e :: es, [] => e :: es
  | e :: es, s :: ss => e :: s :: interleave es ss

/-! ## JSON printer -/

/-- A Go slice value: `nil`, or a list of items (possibly none). -/
inductive Slice (α : Type) where
  | nil
  | items (xs : List α)

/-- Go's `append(s, x)`: appending to `nil` allocates. -/
def Slice.append {α : Type} : Slice α → α → Slice α
  | .nil, x => .items [x]
  | .items xs, x => .items (xs ++ [x])

/-- Modelled from the spec: the struct `MichelsonJSON`, whose declaration is not among
the sources; its fields are the six keys of the canonical JSON (`prim`, `annots`,
`args`, `int`, `string`, `bytes`), each at its zero value unless `translateAST` sets
it. The keys an object carries are the fields `translateAST` sets; a `nil` slice is an
absent `annots` or `args`. -/
structure MichelsonJSON (α : Type) where
  Prim : GoString := ""
  Annots : Slice GoString := .nil
  Args : Slice α := .nil
  Int : GoString := ""
  String : GoString := ""
  Bytes : GoString := ""

/-- The `interface{}` values `translateAST` returns: a `MichelsonJSON` struct or a
`[]interface{}` slice. -/
inductive JSON where
  | object (m : MichelsonJSON JSON)
  | array (elems : Slice JSON)

/-- The decimal digits of `n`, most significant first (`fuel` bounds their number). -/
def decimalDigits : Nat → Nat → List Char
  | 0, _ => []
  | fuel + 1, n =>
    if n < 10 then [Nat.digitChar n]
    else decimalDigits fuel (n / 10) ++ [Nat.digitChar (n % 10)]

/-- `fmt.Sprint` on an `int64`: the decimal form, with `-` for a negative value. -/
def Sprint (v : ℤ) : GoString :=
  if v < 0 then String.mk ('-' :: decimalDigits (v.natAbs + 1) v.natAbs)
  else String.mk (decimalDigits (v.natAbs + 1) v.natAbs)

/-- Go's `s[2:]`, the string without its first two bytes. `none` when the expression
panics (fewer than two bytes) or would cut a multi-byte character in two, which
leaves no well-formed string. -/
def sliceFrom2 (s : GoString) : Option GoString :=
  match s.data with
  | [] => none
  | c1 :: rest =>
    if c1.utf8Size = 2 then some (String.mk rest)
    else if c1.utf8Size = 1 then
      match rest with
      | [] => none
      | c2 :: rest2 => if c2.utf8Size = 1 then some (String.mk rest2) else none
    else none

/-- The loop `for _, el := range node.Annotations { prim.Annots = append(...) }`. -/
def appendAnnots : Slice GoString → List Annotation → Slice GoString
  | acc, [] => acc
  | acc, el :: rest => appendAnnots (acc.append el.Value) rest

mutual

/-- `translateAST`; `none` when it panics (on a Bytes value shorter than two bytes). -/
def translateAST : Node → Option JSON
  | Node.Bytes _ v =>
    match sliceFrom2 v with
    | none => none
    | some s => some (JSON.object { Bytes := s })
  | Node.Int _ v => some (JSON.object { Int := Sprint v })
  | Node.String _ v => some (JSON.object { String := v })
  | Node.Prim _ name annotations arguments =>
    match appendTranslated Slice.nil arguments with
    | none => none
    | some args =>
      let annots := appendAnnots Slice.nil annotations
      some (JSON.object { Prim := name, Annots := annots, Args := args })
  | Node.Sequence _ elements =>
    match appendTranslated (Slice.items []) elements with
    | none => none
    | some sequence => some (JSON.array sequence)

/-- The loops `for _, el := range ... { s = append(s, translateAST(el)) }`. -/
def appendTranslated : Slice JSON → List Node → Option (Slice JSON)
  | acc, [] => some acc
  | acc, el :: rest =>
    match translateAST el with
    | none => none
    | some v => appendTranslated (acc.append v) rest

end

/-- The byte literals of the claims: `0x`, then one or more hex digits, an even
number of them. -/
def evenHexLiteral (t : GoString) : Prop :=
  ∃ ds : List Char, t = String.mk ('0' :: 'x' :: ds) ∧ ds ≠ [] ∧
    (∀ c ∈ ds, isHexDigit c = true) ∧ ds.length % 2 = 0

/-- The integer a decimal text denotes: its digits read in base ten, negated
after a leading `-`. -/
def decimalValue (text : GoString) : ℤ :=
  match text.data with
  | '-' :: ds => -((Nat.ofDigits 10 (ds.map digitVal).reverse : ℕ) : ℤ)
  | ds => ((Nat.ofDigits 10 (ds.map digitVal).reverse : ℕ) : ℤ)

/-- The canonical decimal texts: `0`, or an optional `-` and then digits that do not
begin with `0`. -/
def isCanonicalDecimal (text : GoString) : Bool :=
  match text.data with
  | ['0'] => true
  | '-' :: d :: ds => isDecDigit d && d != '0' && ds.all isDecDigit
  | d :: ds => isDecDigit d && d != '0' && ds.all isDecDigit
  | [] => false

/-! ## Data-model invariants and equality up to positions -/

/-- The annotation kind fixed by the first character of an annotation value. -/
def kindOfValue (value : GoString) : Option AnnotationKind :=
  match value.data with
  | ':' :: _ => some TypeAnnotation
  | '@' :: _ => some VariableAnnotation
  | '%' :: _ => some FieldAnnotation
  | _ => none

mutual

/-- The data-model invariants of a tree: a Bytes value matches `^0x[0-9a-fA-F]+$`, a
Prim name is not empty, the kind of an annotation is the one fixed by the first
character of its value; in every node of the tree. -/
def wellFormed : Node → Bool
  | Node.Bytes _ v => isHex v
  | Node.Int _ _ => true
  | Node.String _ _ => true
  | Node.Prim _ name annotations arguments =>
    name != "" && annotations.all (fun a => kindOfValue a.Value == some a.Kind) &&
      wellFormedAll arguments
  | Node.Sequence _ elements => wellFormedAll elements

/-- The invariants hold of every tree of a list. -/
def wellFormedAll : List Node → Bool
  | [] => true
  | x :: xs => wellFormed x && wellFormedAll xs

end

/-- An annotation with its position forgotten. -/
def eraseAnnot (a : Annotation) : Annotation := { a with Position := ⟨0, 0⟩ }

mutual

/-- A tree with every position forgotten: two trees are structurally equal ignoring
positions when their images are equal. -/
def erasePositions : Node → Node
  | Node.Bytes _ v => Node.Bytes ⟨0, 0⟩ v
  | Node.Int _ v => Node.Int ⟨0, 0⟩ v
  | Node.String _ v => Node.String ⟨0, 0⟩ v
  | Node.Prim _ name annotations arguments =>
    Node.Prim ⟨0, 0⟩ name (annotations.map eraseAnnot) (erasePositionsAll arguments)
  | Node.Sequence _ elements => Node.Sequence ⟨0, 0⟩ (erasePositionsAll elements)

/-- The trees of a list with every position forgotten. -/
def erasePositionsAll : List Node → List Node
  | [] => []
  | x :: xs => erasePositions x :: erasePositionsAll xs

end

/-- The tokens a scanner may return: an identifier token has a non-empty text. -/
def namedIdentifiers (ts : List Token) : Prop :=
  ∀ t ∈ ts, t.kind = Kind.Identifier → t.text ≠ ""

/-- The trees produced by the Parser: returned by `Parse`, with some fuel, on some
token stream whose identifier tokens are not empty. -/
def ParserProduced (n : Node) : Prop :=
  ∃ (fuel : Nat) (ts : List Token) (q : Parser),
    namedIdentifiers ts ∧ Parse fuel (Parser.Init ts) = .done n q

/-- The parser holds only named identifiers: in its current token and in the tokens
its scanner has yet to return. -/
def Parser.named (p : Parser) : Prop :=
  (p.token_kind = Kind.Identifier → p.token_text ≠ "") ∧ namedIdentifiers p.scanner

/-! ## Vocabulary of the statements about whole parses -/

/-- The `switch p.token_kind` that `Parse`, the sequence loop and the argument loop
share: call the parsing function of the node the current token starts. -/
def parseNode (fuel : Nat) (p : Parser) : Outcome Node :=
  match p.token_kind with
  | Kind.Bytes => parseBytes p
  | Kind.String => parseString p
  | Kind.Int => parseInt p
  | Kind.Identifier => parsePrim fuel p
  | Kind.Open_brace => parseSequence fuel p
  | k => .fail (.unexpectedToken k)

/-- The current token of a parser. -/
def Parser.current (p : Parser) : Token :=
  { position := p.token_position, kind := p.token_kind, text := p.token_text }

/-- No token of the list is the end-of-input sentinel. -/
def noEOF (ts : List Token) : Prop := ∀ t ∈ ts, t.kind ≠ Kind.EOF

/-- The number of tokens that come before the first end-of-input token (all of them
when there is none: the scanner then answers end-of-input itself). -/
def eofIndex : List Token → Nat
  | [] => 0
  | t :: ts => if t.kind = Kind.EOF then 0 else eofIndex ts + 1

/-- The nesting depth a run of tokens adds: `+1` for each `{`, `-1` for each `}`. -/
def balance : List Token → Int
  | [] => 0
  | t :: ts =>
    (if t.kind = Kind.Open_brace then 1 else if t.kind = Kind.Close_brace then -1 else 0) +
      balance ts

/-- Two streams present the same next token to the parser. -/
def sameHead (s s2 : List Token) : Prop :=
  (Parser.reading s).current = (Parser.reading s2).current

/-- A finished call `F p = done v q` read against the token stream: from any stream `s`
that `p` is reading, the call consumed a run `c` of tokens (not empty when `strict`),
none of them end-of-input, with balanced braces, and left the parser reading the rest
`s'`; and it does the same on every stream that keeps `c` and the next token. -/
def Framed {α : Type} (F : Parser → Outcome α) (strict : Bool) (p : Parser) (v : α)
    (q : Parser) : Prop :=
  ∀ s, p = Parser.reading s →
    ∃ c s', s = c ++ s' ∧ (strict = true → c ≠ []) ∧ noEOF c ∧ balance c = 0 ∧
      q = Parser.reading s' ∧
      ∀ s2, sameHead s' s2 → F (Parser.reading (c ++ s2)) = .done v (Parser.reading s2)

/-- An annotation token the parser accepts: its text begins with `:`, `@` or `%`. -/
def validAnnot (t : Token) : Bool :=
  t.kind == Kind.Annot && (kindOfValue t.text).isSome

/-- The annotation an annotation token stands for: its kind is fixed by the first
character of the text, its value is the whole text, prefix included. -/
def annotationOf (t : Token) : Annotation :=
  { Position := ⟨t.position, t.position + len t.text - 1⟩
    Kind := (kindOfValue t.text).getD TypeAnnotation
    Value := t.text }

/-- The sequence opened by the first token of `s` reaches end-of-input before its
matching `}`: up to the first end-of-input token the nesting depth never returns
to zero. -/
def unclosed (s : List Token) : Bool :=
  (List.range (eofIndex s)).all (fun k => decide (0 < balance (s.take (k + 1))))

/-- The nodes `args` are what `parseNode` returns when called again and again from the
stream `s`, each call consuming a non-empty run of tokens with no end-of-input among
them and starting where the call before it stopped; `r` is the stream left after the
last call. -/
def argumentsFrom (g : Nat) : List Node → List Token → List Token → Prop
  | [], s, r => s = r
  | n :: ns, s, r =>
    ∃ c s1, c ≠ [] ∧ noEOF c ∧ s = c ++ s1 ∧
      parseNode g (Parser.reading s) = .done n (Parser.reading s1) ∧ argumentsFrom g ns s1 r

/-- No prefix of the run closes more braces than it has opened. -/
def neverNegative (c : List Token) : Prop := ∀ k, 0 ≤ balance (c.take k)

/-- What a finished call that went from state `p` to state `q` consumed: a run of
tokens with no end-of-input among them, in which every `}` closes a `{` of the run and
every `{` is closed. -/
def Consumed (p q : Parser) : Prop :=
  ∀ s, p = Parser.reading s →
    ∃ c s', s = c ++ s' ∧ q = Parser.reading s' ∧ noEOF c ∧ balance c = 0 ∧ neverNegative c

/-- The invariant of a span: `Pos ≤ End`. -/
def spanOk (pos : Position) : Bool := decide (pos.Pos ≤ pos.End)

mutual

/-- Every node of the tree and every annotation in it satisfies `Pos ≤ End`. -/
def spansOk : Node → Bool
  | Node.Bytes pos _ => spanOk pos
  | Node.Int pos _ => spanOk pos
  | Node.String pos _ => spanOk pos
  | Node.Prim pos _ annotations arguments =>
    spanOk pos && annotations.all (fun a => spanOk a.Position) && spansOkAll arguments
  | Node.Sequence pos elements => spanOk pos && spansOkAll elements

/-- Every tree of the list satisfies `spansOk`. -/
def spansOkAll : List Node → Bool
  | [] => true
  | x :: xs => spansOk x && spansOkAll xs

end

/-- The token offsets of the stream are strictly increasing. -/
def increasing (s : List Token) : Prop := s.Pairwise (fun a b => a.position < b.position)

/-- The stream is terminated: it holds an end-of-input token. -/
def hasEOF (s : List Token) : Prop := ∃ t ∈ s, t.kind = Kind.EOF

/-- The parser with everything that follows the first end-of-input token removed from
its scanner. -/
def Parser.cut (p : Parser) : Parser :=
  { p with
    scanner := if p.token_kind = Kind.EOF then [] else p.scanner.take (eofIndex p.scanner + 1) }

/-- The same outcome with the final parser state transformed. -/
def Outcome.mapState {α : Type} (g : Parser → Parser) : Outcome α → Outcome α
  | .done v q => .done v (g q)
  | .fail e => .fail e
  | .timeout => .timeout

/-- The node is a Prim. -/
def isPrim : Node → Bool
  | Node.Prim _ _ _ _ => true
  | _ => false

mutual

/-- The nesting the greedy argument loop produces: in every Prim of the tree, only the
last argument may be a Prim. -/
def greedy : Node → Bool
  | Node.Prim _ _ _ arguments =>
    arguments.dropLast.all (fun a => !isPrim a) && greedyAll arguments
  | Node.Sequence _ elements => greedyAll elements
  | _ => true

/-- Every tree of the list satisfies `greedy`. -/
def greedyAll : List Node → Bool
  | [] => true
  | x :: xs => greedy x && greedyAll xs

end

end Micheline

/-!
# Test actions of visualtez-testing

A shallow embedding of `GetActions`, `ApplyActions` and `buildResult` of
`internal/business/action/action.go`. The concrete action types, the action kind
constants, `gjson` and the mockup are not among the sources: the embedding takes them
as parameters. The mockup and whatever else an action may change is a state `σ` that
`Run` threads through.
-/

namespace Action

open Micheline (GoString Slice)

/-- Go's `json.RawMessage`: the bytes of a JSON text. -/
abbrev RawMessage := GoString

/-- The dynamic values `Run` returns as `interface{}`: a string, a value that
implements `error` (with the text of its `Error()`), a `map[string]interface{}`, `nil`,
or a value of any other type. -/
inductive Value where
  | nil
  | str (s : GoString)
  | err (message : GoString)
  | map (entries : List (GoString × Value))
  | other (repr : GoString)

/-- The two values of `ActionStatus`. -/
inductive ActionStatus where
  | Failure
  | Success
  deriving DecidableEq, Repr

/-- The struct `ActionResult`. -/
structure ActionResult where
  Status : ActionStatus
  Action : RawMessage
  Result : Value

/-- The methods of the interface `IAction` that `ApplyActions` calls: `Run` returns its
result and `ok` and leaves a new state; `Marshal` reads the state. -/
structure IAction (σ : Type) where
  Run : σ → Value × Bool × σ
  Marshal : σ → RawMessage

/-- `fmt.Sprint` on a string or on an error: the string itself, the text of `Error()`. -/
def Sprint : Value → GoString
  | Value.str s => s
  | Value.err message => message
  | _ => ""

/-- `buildResult`; `w` is the state in which `action.Marshal()` is called. -/
def buildResult {σ : Type} (status : ActionStatus) (result : Value) (action : IAction σ)
    (w : σ) : ActionResult :=
  let result :=
    match result with
    | Value.str _ => Value.map [("details", Value.str (Sprint result))]
    | Value.err _ => Value.map [("details", Value.str (Sprint result))]
    | _ => result
  { Status := status, Action := action.Marshal w, Result := result }

/-- The loop of `ApplyActions`: the responses so far, the state, the actions left. -/
def applyLoop {σ : Type} : σ → List (IAction σ) → List ActionResult → List ActionResult × σ
  | w, [], responses => (responses, w)
  | w, action :: rest, responses =>
    match action.Run w with
    | (result, ok, w1) =>
      if ok then applyLoop w1 rest (responses ++ [buildResult ActionStatus.Success result action w1])
      else applyLoop w1 rest (responses ++ [buildResult ActionStatus.Failure result action w1])

/-- `ApplyActions`. -/
def ApplyActions {σ : Type} (mockup : σ) (actions : List (IAction σ)) : List ActionResult :=
  (applyLoop mockup actions []).1

/-- The state in which the action that follows `actions` runs. -/
def stateAfter {σ : Type} : σ → List (IAction σ) → σ
  | w, [] => w
  | w, action :: rest => stateAfter (action.Run w).2.2 rest

/-- The result entry the claim describes for an action that runs in state `w`. -/
def expectedEntry {σ : Type} (action : IAction σ) (w : σ) : ActionResult :=
  { Status := if (action.Run w).2.1 = true then ActionStatus.Success else ActionStatus.Failure
    Action := action.Marshal (action.Run w).2.2
    Result :=
      match (action.Run w).1 with
      | Value.str s => Value.map [("details", Value.str s)]
      | Value.err message => Value.map [("details", Value.str message)]
      | v => v }

/-- The result entries the claim describes for a list of actions run in order from the
state `w`. -/
def expectedEntries {σ : Type} : σ → List (IAction σ) → List ActionResult
  | _, [] => []
  | w, action :: rest => expectedEntry action w :: expectedEntries (action.Run w).2.2 rest

/-- The six action kinds `GetActions` knows. -/
inductive ActionKind where
  | AssertAccountBalance
  | AssertContractStorage
  | CallContract
  | OriginateContract
  | CreateImplicitAccount
  | ModifyChainID
  deriving DecidableEq, Repr

/-- The strings of the six `ActionKind` constants, declared outside the sources. -/
structure KindNames where
  AssertAccountBalance : GoString
  AssertContractStorage : GoString
  CallContract : GoString
  OriginateContract : GoString
  CreateImplicitAccount : GoString
  ModifyChainID : GoString

/-- A raw action with what `gjson.GetBytes(rawAction, "kind").String()` returns for it. -/
structure RawAction where
  bytes : RawMessage
  kind : GoString
  deriving DecidableEq, Repr

/-- An action as `GetActions` builds it: a value of the type of its kind holding the
raw message. -/
structure BuiltAction where
  kind : ActionKind
  raw : RawAction
  deriving DecidableEq, Repr

/-- The errors `GetActions` returns: `fmt.Errorf` with its message, or
`Error.DetailedHttpError(status, message, rawAction)`. -/
inductive GetError where
  | errorf (message : GoString)
  | detailedHttp (status : Nat) (message : GoString) (raw : RawAction)
  deriving DecidableEq, Repr

/-- The `switch kind.String()` of `GetActions`. -/
def kindOfString (names : KindNames) (kind : GoString) : Option ActionKind :=
  if kind = names.AssertAccountBalance then some ActionKind.AssertAccountBalance
  else if kind = names.AssertContractStorage then some ActionKind.AssertContractStorage
  else if kind = names.CallContract then some ActionKind.CallContract
  else if kind = names.OriginateContract then some ActionKind.OriginateContract
  else if kind = names.CreateImplicitAccount then some ActionKind.CreateImplicitAccount
  else if kind = names.ModifyChainID then some ActionKind.ModifyChainID
  else none

/-- The loop of `GetActions`; `unmarshal` is the `Unmarshal` method of the type of each
kind, returning the text of its error if any. -/
def getLoop (names : KindNames) (unmarshal : ActionKind → RawAction → Option GoString) :
    List RawAction → List BuiltAction → Slice BuiltAction × Option GetError
  | [], actions => (Slice.items actions, none)
  | rawAction :: rest, actions =>
    match kindOfString names rawAction.kind with
    | none =>
      (Slice.nil,
        some (GetError.errorf ("Unexpected action kind (" ++ rawAction.kind ++ ").")))
    | some kind =>
      match unmarshal kind rawAction with
      | some message => (Slice.nil, some (GetError.detailedHttp 400 message rawAction))
      | none => getLoop names unmarshal rest (actions ++ [{ kind := kind, raw := rawAction }])

/-- `GetActions`. -/
def GetActions (names : KindNames) (unmarshal : ActionKind → RawAction → Option GoString)
    (rawActions : List RawAction) : Slice BuiltAction × Option GetError :=
  getLoop names unmarshal rawActions []

/-- The strings of the six known kinds. -/
def knownKinds (names : KindNames) : List GoString :=
  [names.AssertAccountBalance, names.AssertContractStorage, names.CallContract,
    names.OriginateContract, names.CreateImplicitAccount, names.ModifyChainID]

/-- The actions built from raw actions of known kinds, in order. -/
def builtFrom (names : KindNames) (rawActions : List RawAction) : List BuiltAction :=
  rawActions.filterMap
    (fun r => (kindOfString names r.kind).map (fun k => { kind := k, raw := r }))

end Action

namespace Micheline

open AnnotationKind

/-! ## Stepping lemmas of the parser -/

theorem reading_cons (t : Token) (ts : List Token) :
    Parser.reading (t :: ts) =
      { token_position := t.position, token_kind := t.kind, token_text := t.text,
        scanner := ts } := rfl

theorem reading_next (t : Token) (ts : List Token) :
    (Parser.reading (t :: ts)).next = Parser.reading ts := rfl

theorem reading_kind (t : Token) (ts : List Token) :
    (Parser.reading (t :: ts)).token_kind = t.kind := rfl

theorem reading_text (t : Token) (ts : List Token) :
    (Parser.reading (t :: ts)).token_text = t.text := rfl

theorem reading_position (t : Token) (ts : List Token) :
    (Parser.reading (t :: ts)).token_position = t.position := rfl

theorem parseBytes_literal (t : Token) (ts : List Token) (hk : t.kind = Kind.Bytes)
    (ht : validLiteral t = true) :
    parseBytes (Parser.reading (t :: ts)) = .done (literalNode t) (Parser.reading ts) := by
  simp only [validLiteral, hk, Bool.and_eq_true, beq_iff_eq] at ht
  have h2 : ¬ len t.text % 2 = 1 := by omega
  simp [parseBytes, Parser.expect, reading_kind, reading_text, reading_position, hk,
    literalNode, ht.1, h2, reading_next]

theorem parseString_literal (t : Token) (ts : List Token) (hk : t.kind = Kind.String) :
    parseString (Parser.reading (t :: ts)) = .done (literalNode t) (Parser.reading ts) := by
  simp [parseString, Parser.expect, reading_kind, reading_text, reading_position, hk,
    literalNode, reading_next]

theorem parseInt_literal (t : Token) (ts : List Token) (hk : t.kind = Kind.Int)
    (ht : validLiteral t = true) :
    parseInt (Parser.reading (t :: ts)) = .done (literalNode t) (Parser.reading ts) := by
  simp only [validLiteral, hk, Option.isSome_iff_exists] at ht
  obtain ⟨v, hv⟩ := ht
  simp [parseInt, Parser.expect, reading_kind, reading_text, reading_position, hk,
    literalNode, hv, reading_next]

/-- One literal token is parsed by the leaf parser of its kind, whichever loop asks. -/
theorem argumentLoop_literal (fuel : Nat) (t : Token) (ts : List Token) (acc : List Node)
    (ht : validLiteral t = true) :
    argumentLoop (fuel + 1) (Parser.reading (t :: ts)) acc =
      argumentLoop fuel (Parser.reading ts) (acc ++ [literalNode t]) := by
  have hk : t.kind = Kind.Bytes ∨ t.kind = Kind.String ∨ t.kind = Kind.Int := by
    unfold validLiteral at ht
    cases h : t.kind <;> simp [h] at ht <;> simp
  rcases hk with hk | hk | hk
  · simp only [argumentLoop, reading_kind, hk, parseBytes_literal t ts hk ht]
  · simp only [argumentLoop, reading_kind, hk, parseString_literal t ts hk]
  · simp only [argumentLoop, reading_kind, hk, parseInt_literal t ts hk ht]

theorem argumentLoop_stop (fuel : Nat) (t : Token) (ts : List Token) (acc : List Node)
    (ht : startsNode t.kind = false) :
    argumentLoop (fuel + 1) (Parser.reading (t :: ts)) acc =
      .done acc (Parser.reading (t :: ts)) := by
  cases h : t.kind <;> simp [h, startsNode] at ht <;> simp [argumentLoop, reading_kind, h]

theorem argumentLoop_literals (lits : List Token) (hl : ∀ t ∈ lits, validLiteral t = true)
    (stop : Token) (hs : startsNode stop.kind = false) (rest : List Token) :
    ∀ (fuel : Nat) (acc : List Node), lits.length + 1 ≤ fuel →
      argumentLoop fuel (Parser.reading (lits ++ stop :: rest)) acc =
        .done (acc ++ lits.map literalNode) (Parser.reading (stop :: rest)) := by
  induction lits with
  | nil =>
    intro fuel acc hfuel
    obtain ⟨f, rfl⟩ : ∃ f, fuel = f + 1 := ⟨fuel - 1, by simp at hfuel; omega⟩
    simpa using argumentLoop_stop f stop rest acc hs
  | cons t lits ih =>
    intro fuel acc hfuel
    obtain ⟨f, rfl⟩ : ∃ f, fuel = f + 1 := ⟨fuel - 1, by simp at hfuel; omega⟩
    have ht := hl t (by simp)
    rw [List.cons_append, argumentLoop_literal f t _ acc ht,
      ih (fun u hu => hl u (by simp [hu])) f _ (by simpa using hfuel)]
    simp

/-! ## More fuel never changes a finished outcome -/


theorem Outcome.le_refl {α : Type} (a : Outcome α) : a.le a := Or.inr rfl

theorem annotationLoop_fuel_succ :
    ∀ (fuel : Nat) (p : Parser) (acc : List Annotation),
      (annotationLoop fuel p acc).le (annotationLoop (fuel + 1) p acc) := by
  intro fuel
  induction fuel with
  | zero => intro p acc; exact Or.inl rfl
  | succ fuel ih =>
    intro p acc
    rw [annotationLoop, annotationLoop]
    split
    · cases parseAnnotation p with
      | error e => exact Or.inr rfl
      | ok a => exact ih p.next (acc ++ [a])
    · exact Or.inr rfl

theorem parsers_fuel_succ (fuel : Nat) :
    (∀ p, (parseSequence fuel p).le (parseSequence (fuel + 1) p)) ∧
    (∀ p acc, (sequenceLoop fuel p acc).le (sequenceLoop (fuel + 1) p acc)) ∧
    (∀ p, (parsePrim fuel p).le (parsePrim (fuel + 1) p)) ∧
    (∀ p acc, (argumentLoop fuel p acc).le (argumentLoop (fuel + 1) p acc)) := by
  induction fuel with
  | zero => exact ⟨fun _ => Or.inl rfl, fun _ _ => Or.inl rfl, fun _ => Or.inl rfl,
      fun _ _ => Or.inl rfl⟩
  | succ fuel ih =>
    obtain ⟨ihS, ihSL, ihP, ihAL⟩ := ih
    refine ⟨?_, ?_, ?_, ?_⟩
    · intro p
      rw [parseSequence, parseSequence]
      cases p.expect Kind.Open_brace with
      | error e => exact Or.inr rfl
      | ok b =>
        rcases ihSL p.next [] with h | h
        · left; simp only [h]
        · right; simp only [h]
    · intro p acc
      rw [sequenceLoop, sequenceLoop]
      split
      · exact Or.inr rfl
      · have hchild : ∀ (c1 c2 : Outcome Node), c1.le c2 →
            Outcome.le
              (match c1 with
                | .timeout => .timeout
                | .fail e => .fail e
                | .done n p1 =>
                  if p1.token_kind ≠ Kind.Close_brace then
                    match p1.expect Kind.Semi with
                    | .error e => .fail e
                    | .ok _ => sequenceLoop fuel p1.next (acc ++ [n])
                  else sequenceLoop fuel p1 (acc ++ [n]))
              (match c2 with
                | .timeout => .timeout
                | .fail e => .fail e
                | .done n p1 =>
                  if p1.token_kind ≠ Kind.Close_brace then
                    match p1.expect Kind.Semi with
                    | .error e => .fail e
                    | .ok _ => sequenceLoop (fuel + 1) p1.next (acc ++ [n])
                  else sequenceLoop (fuel + 1) p1 (acc ++ [n])) := by
          intro c1 c2 hc
          rcases hc with h | h
          · subst h; exact Or.inl rfl
          · subst h
            cases c1 with
            | timeout => exact Or.inl rfl
            | fail e => exact Or.inr rfl
            | done n p1 =>
              simp only
              split
              · cases p1.expect Kind.Semi with
                | error e => exact Or.inr rfl
                | ok _ => exact ihSL _ _
              · exact ihSL _ _
        apply hchild
        cases p.token_kind with
        | Identifier => exact ihP p
        | Open_brace => exact ihS p
        | _ => exact Or.inr rfl
    · intro p
      rw [parsePrim, parsePrim]
      cases p.expect Kind.Identifier with
      | error e => exact Or.inr rfl
      | ok b =>
        simp only
        rcases annotationLoop_fuel_succ fuel p.next [] with h | h
        · left; simp only [h]
        · rw [h]
          cases annotationLoop (fuel + 1) p.next [] with
          | timeout => exact Or.inl rfl
          | fail e => exact Or.inr rfl
          | done annotations p1 =>
            simp only
            rcases ihAL p1 [] with h | h
            · left; simp only [h]
            · right; simp only [h]
    · intro p acc
      rw [argumentLoop, argumentLoop]
      have hstep : ∀ (c1 c2 : Outcome Node), c1.le c2 →
          Outcome.le
            (match c1 with
              | .timeout => .timeout
              | .fail e => .fail e
              | .done n p1 => argumentLoop fuel p1 (acc ++ [n]))
            (match c2 with
              | .timeout => .timeout
              | .fail e => .fail e
              | .done n p1 => argumentLoop (fuel + 1) p1 (acc ++ [n])) := by
        intro c1 c2 hc
        rcases hc with h | h
        · subst h; exact Or.inl rfl
        · subst h
          cases c1 with
          | timeout => exact Or.inl rfl
          | fail e => exact Or.inr rfl
          | done n p1 => exact ihAL _ _
      cases p.token_kind with
      | Bytes => exact hstep _ _ (Or.inr rfl)
      | String => exact hstep _ _ (Or.inr rfl)
      | Int => exact hstep _ _ (Or.inr rfl)
      | Identifier => exact hstep _ _ (ihP p)
      | Open_brace => exact hstep _ _ (ihS p)
      | _ => exact Or.inr rfl

theorem Outcome.le_add {α : Type} (F : Nat → Outcome α) (h : ∀ n, (F n).le (F (n + 1)))
    (n k : Nat) : (F n).le (F (n + k)) := by
  induction k with
  | zero => exact Or.inr rfl
  | succ k ih =>
    rcases ih with ih | ih
    · exact Or.inl ih
    · rcases h (n + k) with h1 | h1
      · exact Or.inl (ih.trans h1)
      · exact Or.inr (ih.trans h1)

/-- A finished outcome is kept by every larger fuel. -/
theorem Outcome.stable {α : Type} (F : Nat → Outcome α) (h : ∀ n, (F n).le (F (n + 1)))
    {n m : Nat} (hne : F n ≠ .timeout) (hm : n ≤ m) : F m = F n := by
  obtain ⟨k, rfl⟩ := Nat.exists_eq_add_of_le hm
  rcases Outcome.le_add F h n k with h1 | h1
  · exact absurd h1 hne
  · exact h1.symm

/-- Two finished outcomes of the same call agree, whatever the fuels. -/
theorem Outcome.unique {α : Type} (F : Nat → Outcome α) (h : ∀ n, (F n).le (F (n + 1)))
    {n m : Nat} (hn : F n ≠ .timeout) (hm : F m ≠ .timeout) : F n = F m := by
  rcases Nat.le_total n m with hle | hle
  · exact (Outcome.stable F h hn hle).symm
  · exact Outcome.stable F h hm hle

theorem parsePrim_fuel_succ (p : Parser) (fuel : Nat) :
    (parsePrim fuel p).le (parsePrim (fuel + 1) p) := (parsers_fuel_succ fuel).2.2.1 p

theorem parseSequence_fuel_succ (p : Parser) (fuel : Nat) :
    (parseSequence fuel p).le (parseSequence (fuel + 1) p) := (parsers_fuel_succ fuel).1 p

theorem Parse_fuel_succ (p : Parser) (fuel : Nat) :
    (Parse fuel p).le (Parse (fuel + 1) p) := by
  unfold Parse
  simp only
  cases p.next.token_kind with
  | Identifier => exact parsePrim_fuel_succ _ _
  | Open_brace => exact parseSequence_fuel_succ _ _
  | _ => exact Or.inr rfl

/-- Whatever the fuel, a call of `parsePrim` that finishes gives one outcome. -/
theorem parsePrim_settled (p : Parser) {n m : Nat} {r : Outcome Node}
    (h : parsePrim n p = r) (hr : r ≠ .timeout) (hm : parsePrim m p ≠ .timeout) :
    parsePrim m p = r := by
  rw [← h]
  exact Outcome.unique (fun k => parsePrim k p) (parsePrim_fuel_succ p) hm (by beta_reduce; rw [h]; exact hr)

/-- Whatever the fuel, a call of `parseSequence` that finishes gives one outcome. -/
theorem parseSequence_settled (p : Parser) {n m : Nat} {r : Outcome Node}
    (h : parseSequence n p = r) (hr : r ≠ .timeout) (hm : parseSequence m p ≠ .timeout) :
    parseSequence m p = r := by
  rw [← h]
  exact Outcome.unique (fun k => parseSequence k p) (parseSequence_fuel_succ p) hm
    (by beta_reduce; rw [h]; exact hr)

/-- Whatever the fuel, a call of `Parse` that finishes gives one outcome. -/
theorem Parse_settled (p : Parser) {n m : Nat} {r : Outcome Node}
    (h : Parse n p = r) (hr : r ≠ .timeout) (hm : Parse m p ≠ .timeout) :
    Parse m p = r := by
  rw [← h]
  exact Outcome.unique (fun k => Parse k p) (Parse_fuel_succ p) hm (by beta_reduce; rw [h]; exact hr)

theorem annotationLoop_stop (fuel : Nat) (t : Token) (ts : List Token) (acc : List Annotation)
    (ht : t.kind ≠ Kind.Annot) :
    annotationLoop (fuel + 1) (Parser.reading (t :: ts)) acc =
      .done acc (Parser.reading (t :: ts)) := by
  simp [annotationLoop, reading_kind, ht]

theorem validLiteral_kind (t : Token) (ht : validLiteral t = true) :
    t.kind = Kind.Bytes ∨ t.kind = Kind.String ∨ t.kind = Kind.Int := by
  unfold validLiteral at ht
  cases h : t.kind <;> simp [h] at ht <;> simp

/-- The Prim built from an identifier `f`, literal arguments and a following token that
starts no node and is not read as an annotation of `f`. -/
theorem parsePrim_literals (f : Token) (lits : List Token) (stop : Token)
    (rest : List Token) (hf : f.kind = Kind.Identifier)
    (hl : ∀ t ∈ lits, validLiteral t = true) (hs : startsNode stop.kind = false)
    (ha : lits = [] → stop.kind ≠ Kind.Annot) (fuel : Nat) (hfuel : lits.length + 2 ≤ fuel) :
    parsePrim fuel (Parser.reading (f :: (lits ++ stop :: rest))) =
      .done (Node.Prim { Pos := f.position, End := stop.position } f.text []
        (lits.map literalNode)) (Parser.reading (stop :: rest)) := by
  obtain ⟨g, rfl⟩ : ∃ g, fuel = g + 2 := ⟨fuel - 2, by omega⟩
  have hhead : ∃ t ts, lits ++ stop :: rest = t :: ts ∧ t.kind ≠ Kind.Annot := by
    cases lits with
    | nil => exact ⟨stop, rest, rfl, ha rfl⟩
    | cons t ts =>
      refine ⟨t, ts ++ stop :: rest, rfl, ?_⟩
      rcases validLiteral_kind t (hl t (by simp)) with h | h | h <;> simp [h]
  obtain ⟨t, ts, hts, htk⟩ := hhead
  have hann : annotationLoop (g + 1) (Parser.reading (lits ++ stop :: rest)) [] =
      .done [] (Parser.reading (lits ++ stop :: rest)) := by
    rw [hts]; exact annotationLoop_stop g t ts [] htk
  have harg := argumentLoop_literals lits hl stop hs rest (g + 1) [] (by omega)
  simp only [parsePrim, Parser.expect, reading_kind, hf, reading_next, hann, harg, if_true,
    reading_text, reading_position, List.nil_append]

/-! ## C1: self-terminating arguments -/

/-- C1 (as amended): from an identifier `f` followed by `n ≥ 0` valid literal tokens and
then a token that starts no node, which is not an annotation when `n = 0`,
`parsePrim` returns, for every fuel of at least `n + 2`, the Prim named `f` without
annotations whose arguments are exactly those literals in order, spanning from `f`
to the following token, and leaves that following token as the current one. -/
theorem parsePrim_self_terminating (f : Token) (lits : List Token) (stop : Token)
    (rest : List Token) (hf : f.kind = Kind.Identifier)
    (hl : ∀ t ∈ lits, validLiteral t = true) (hs : startsNode stop.kind = false)
    (ha : lits = [] → stop.kind ≠ Kind.Annot) (fuel : Nat) (hfuel : lits.length + 2 ≤ fuel) :
    parsePrim fuel (Parser.reading (f :: (lits ++ stop :: rest))) =
      .done (Node.Prim { Pos := f.position, End := stop.position } f.text []
        (lits.map literalNode)) (Parser.reading (stop :: rest)) :=
  parsePrim_literals f lits stop rest hf hl hs ha fuel hfuel

/-- C1, witness: the tokens of `foo 1 2`. -/
theorem parsePrim_self_terminating_witness :
    parsePrim 4 (Parser.reading
        [⟨0, Kind.Identifier, "foo"⟩, ⟨4, Kind.Int, "1"⟩, ⟨6, Kind.Int, "2"⟩, ⟨7, Kind.EOF, ""⟩]) =
      .done (Node.Prim ⟨0, 7⟩ "foo" [] [Node.Int ⟨4, 4⟩ 1, Node.Int ⟨6, 6⟩ 2])
        (Parser.reading [⟨7, Kind.EOF, ""⟩]) :=
  parsePrim_self_terminating ⟨0, Kind.Identifier, "foo"⟩
    [⟨4, Kind.Int, "1"⟩, ⟨6, Kind.Int, "2"⟩] ⟨7, Kind.EOF, ""⟩ [] rfl (by decide) rfl
    (by simp) 4 (by decide)

/-- C1, counterexample to the claim as first stated: on the tokens of `foo %a ;` (no
literal, then an annotation) `parsePrim` consumes the annotation into the Prim and
stops at `;`; with no fuel does it return leaving `%a` as the current token. -/
theorem parsePrim_consumes_annotation :
    parsePrim 3 (Parser.reading
        [⟨0, Kind.Identifier, "foo"⟩, ⟨4, Kind.Annot, "%a"⟩, ⟨7, Kind.Semi, ";"⟩]) =
      .done (Node.Prim ⟨0, 7⟩ "foo" [⟨⟨4, 5⟩, FieldAnnotation, "%a"⟩] [])
        (Parser.reading [⟨7, Kind.Semi, ";"⟩]) ∧
    ¬ ∃ fuel n, parsePrim fuel (Parser.reading
        [⟨0, Kind.Identifier, "foo"⟩, ⟨4, Kind.Annot, "%a"⟩, ⟨7, Kind.Semi, ";"⟩]) =
      .done n (Parser.reading [⟨4, Kind.Annot, "%a"⟩, ⟨7, Kind.Semi, ";"⟩]) := by
  have h3 : parsePrim 3 (Parser.reading
        [⟨0, Kind.Identifier, "foo"⟩, ⟨4, Kind.Annot, "%a"⟩, ⟨7, Kind.Semi, ";"⟩]) =
      .done (Node.Prim ⟨0, 7⟩ "foo" [⟨⟨4, 5⟩, FieldAnnotation, "%a"⟩] [])
        (Parser.reading [⟨7, Kind.Semi, ";"⟩]) := rfl
  refine ⟨h3, ?_⟩
  rintro ⟨fuel, n, hfuel⟩
  have h := parsePrim_settled (m := fuel) _ h3 (by simp) (by simp [hfuel])
  rw [hfuel] at h
  injection h with h1 h2
  exact absurd h2 (by decide)

/-! ## Stepping lemmas of the sequence loop -/

theorem leaf_literal (fuel : Nat) (t : Token) (ts : List Token) (ht : validLiteral t = true) :
    (match t.kind with
      | Kind.Bytes => parseBytes (Parser.reading (t :: ts))
      | Kind.String => parseString (Parser.reading (t :: ts))
      | Kind.Int => parseInt (Parser.reading (t :: ts))
      | Kind.Identifier => parsePrim fuel (Parser.reading (t :: ts))
      | Kind.Open_brace => parseSequence fuel (Parser.reading (t :: ts))
      | k => .fail (.unexpectedToken k)) = .done (literalNode t) (Parser.reading ts) := by
  rcases validLiteral_kind t ht with hk | hk | hk
  · simp only [hk, parseBytes_literal t ts hk ht]
  · simp only [hk, parseString_literal t ts hk]
  · simp only [hk, parseInt_literal t ts hk ht]

theorem validLiteral_not_close (t : Token) (ht : validLiteral t = true) :
    t.kind ≠ Kind.Close_brace := by
  rcases validLiteral_kind t ht with hk | hk | hk <;> simp [hk]

/-- A literal element followed by any token `t`: the loop goes on after a `;`, goes on
at a `}`, and aborts on anything else. -/
theorem sequenceLoop_literal (fuel : Nat) (e t : Token) (ts : List Token) (acc : List Node)
    (he : validLiteral e = true) :
    sequenceLoop (fuel + 1) (Parser.reading (e :: t :: ts)) acc =
      if t.kind = Kind.Close_brace then
        sequenceLoop fuel (Parser.reading (t :: ts)) (acc ++ [literalNode e])
      else if t.kind = Kind.Semi then
        sequenceLoop fuel (Parser.reading ts) (acc ++ [literalNode e])
      else .fail (.expected Kind.Semi t.kind) := by
  rw [sequenceLoop]
  simp only [reading_kind, validLiteral_not_close e he, if_false, leaf_literal fuel e _ he]
  by_cases hc : t.kind = Kind.Close_brace
  · simp [hc]
  · by_cases hsemi : t.kind = Kind.Semi
    · simp [hsemi, Parser.expect, reading_kind, reading_next]
    · simp [hc, hsemi, Parser.expect, reading_kind]

theorem sequenceLoop_close (fuel : Nat) (t : Token) (ts : List Token) (acc : List Node)
    (ht : t.kind = Kind.Close_brace) :
    sequenceLoop (fuel + 1) (Parser.reading (t :: ts)) acc =
      .done acc (Parser.reading (t :: ts)) := by
  simp [sequenceLoop, reading_kind, ht]

theorem sequenceLoop_semi (fuel : Nat) (t : Token) (ts : List Token) (acc : List Node)
    (ht : t.kind = Kind.Semi) :
    sequenceLoop (fuel + 1) (Parser.reading (t :: ts)) acc =
      .fail (.unexpectedToken Kind.Semi) := by
  simp [sequenceLoop, reading_kind, ht]

/-- The loop over a non-empty body `e1 ; ... ; en` followed by any token `t`. -/
theorem sequenceLoop_body (lits : List Token) :
    ∀ (seps : List Token), lits ≠ [] → seps.length + 1 = lits.length →
      (∀ e ∈ lits, validLiteral e = true) → (∀ s ∈ seps, s.kind = Kind.Semi) →
      ∀ (fuel : Nat) (acc : List Node) (t : Token) (ts : List Token),
        sequenceLoop (fuel + lits.length) (Parser.reading (interleave lits seps ++ t :: ts)) acc =
          if t.kind = Kind.Close_brace then
            sequenceLoop fuel (Parser.reading (t :: ts)) (acc ++ lits.map literalNode)
          else if t.kind = Kind.Semi then
            sequenceLoop fuel (Parser.reading ts) (acc ++ lits.map literalNode)
          else .fail (.expected Kind.Semi t.kind) := by
  induction lits with
  | nil => intro seps h; exact absurd rfl h
  | cons e es ih =>
    intro seps _ hlen hl hs fuel acc t ts
    cases es with
    | nil =>
      simpa [interleave] using sequenceLoop_literal fuel e t ts acc (hl e (by simp))
    | cons e2 es =>
      cases seps with
      | nil => simp at hlen
      | cons s ss =>
        have hsk : s.kind = Kind.Semi := hs s (by simp)
        have hstep := sequenceLoop_literal (fuel + (e2 :: es).length) e s
          (interleave (e2 :: es) ss ++ t :: ts) acc (hl e (by simp))
        simp only [hsk, if_true, show Kind.Semi ≠ Kind.Close_brace by decide, if_false] at hstep
        have hrec := ih ss (by simp) (by simpa using hlen)
          (fun u hu => hl u (List.mem_cons_of_mem _ hu))
          (fun u hu => hs u (List.mem_cons_of_mem _ hu)) fuel (acc ++ [literalNode e]) t ts
        simp only [interleave, List.cons_append, List.length_cons, List.map_cons] at hstep hrec ⊢
        rw [show fuel + (es.length + 1 + 1) = fuel + (es.length + 1) + 1 by omega, hstep, hrec]
        simp

theorem Parse_open (fuel : Nat) (t : Token) (ts : List Token) (ht : t.kind = Kind.Open_brace) :
    Parse fuel (Parser.Init (t :: ts)) = parseSequence fuel (Parser.reading (t :: ts)) := by
  have h : (Parser.Init (t :: ts)).next.token_kind = Kind.Open_brace := ht
  simp only [Parse, h]
  rfl

theorem Parse_identifier (fuel : Nat) (t : Token) (ts : List Token)
    (ht : t.kind = Kind.Identifier) :
    Parse fuel (Parser.Init (t :: ts)) = parsePrim fuel (Parser.reading (t :: ts)) := by
  have h : (Parser.Init (t :: ts)).next.token_kind = Kind.Identifier := ht
  simp only [Parse, h]
  rfl

/-- What `parseSequence` does once its loop is known to finish at a `}`. -/
theorem parseSequence_of_loop (fuel : Nat) (opn cls : Token) (body rest : List Token)
    (elements : List Node) (ho : opn.kind = Kind.Open_brace) (hc : cls.kind = Kind.Close_brace)
    (hloop : sequenceLoop fuel (Parser.reading body) [] =
      .done elements (Parser.reading (cls :: rest))) :
    parseSequence (fuel + 1) (Parser.reading (opn :: body)) =
      .done (Node.Sequence { Pos := opn.position, End := cls.position } elements)
        (Parser.reading rest) := by
  simp only [parseSequence, Parser.expect, reading_kind, ho, if_true, reading_next, hloop, hc,
    reading_position]

/-- What `parseSequence` does once its loop is known to abort. -/
theorem parseSequence_of_loop_fail (fuel : Nat) (opn : Token) (body : List Token)
    (e : ParseError) (ho : opn.kind = Kind.Open_brace)
    (hloop : sequenceLoop fuel (Parser.reading body) [] = .fail e) :
    parseSequence (fuel + 1) (Parser.reading (opn :: body)) = .fail e := by
  simp only [parseSequence, Parser.expect, reading_kind, ho, if_true, reading_next, hloop]

/-- The loop over a whole body `e1 ; ... ; en` (possibly empty) up to its `}`. -/
theorem sequenceLoop_literals (lits seps : List Token) (cls : Token) (rest : List Token)
    (hlen : seps.length = lits.length - 1) (hl : ∀ e ∈ lits, validLiteral e = true)
    (hs : ∀ s ∈ seps, s.kind = Kind.Semi) (hc : cls.kind = Kind.Close_brace)
    (fuel : Nat) (hfuel : lits.length + 1 ≤ fuel) :
    sequenceLoop fuel (Parser.reading (interleave lits seps ++ cls :: rest)) [] =
      .done (lits.map literalNode) (Parser.reading (cls :: rest)) := by
  obtain ⟨g, rfl⟩ : ∃ g, fuel = g + 1 + lits.length := ⟨fuel - 1 - lits.length, by omega⟩
  by_cases hne : lits = []
  · subst hne
    simpa [interleave] using sequenceLoop_close g cls rest [] hc
  · have hpos : 0 < lits.length := List.length_pos.mpr hne
    rw [sequenceLoop_body lits seps hne (by omega) hl hs (g + 1) [] cls rest]
    simp only [hc, if_true, List.nil_append]
    exact sequenceLoop_close g cls rest _ hc

/-! ## C6: sequence parsing -/

/-- C6: for every list of `n ≥ 0` valid literal tokens written `{ e1 ; ... ; en }`
(`n - 1` separators between them), `Parse` returns, for every fuel of at least
`n + 2`, the Sequence whose elements are exactly those literals in source order,
spanning from `{` to `}`; with `n = 0` this is the empty Sequence. -/
theorem Parse_sequence_of_literals (opn cls : Token) (lits seps rest : List Token)
    (ho : opn.kind = Kind.Open_brace) (hc : cls.kind = Kind.Close_brace)
    (hlen : seps.length = lits.length - 1) (hl : ∀ e ∈ lits, validLiteral e = true)
    (hs : ∀ s ∈ seps, s.kind = Kind.Semi) (fuel : Nat) (hfuel : lits.length + 2 ≤ fuel) :
    Parse fuel (Parser.Init (opn :: (interleave lits seps ++ cls :: rest))) =
      .done (Node.Sequence { Pos := opn.position, End := cls.position }
        (lits.map literalNode)) (Parser.reading rest) := by
  obtain ⟨g, rfl⟩ : ∃ g, fuel = g + 1 := ⟨fuel - 1, by omega⟩
  rw [Parse_open _ _ _ ho]
  exact parseSequence_of_loop g opn cls _ rest _ ho hc
    (sequenceLoop_literals lits seps cls rest hlen hl hs hc g (by omega))

/-- C6, witness: the tokens of `{ 1 ; 2 }`. -/
theorem Parse_sequence_of_literals_witness :
    Parse 4 (Parser.Init [⟨0, Kind.Open_brace, "\x7b"⟩, ⟨2, Kind.Int, "1"⟩, ⟨4, Kind.Semi, ";"⟩,
        ⟨6, Kind.Int, "2"⟩, ⟨8, Kind.Close_brace, "\x7d"⟩, ⟨9, Kind.EOF, ""⟩]) =
      .done (Node.Sequence ⟨0, 8⟩ [Node.Int ⟨2, 2⟩ 1, Node.Int ⟨6, 6⟩ 2])
        (Parser.reading [⟨9, Kind.EOF, ""⟩]) :=
  Parse_sequence_of_literals ⟨0, Kind.Open_brace, "\x7b"⟩ ⟨8, Kind.Close_brace, "\x7d"⟩
    [⟨2, Kind.Int, "1"⟩, ⟨6, Kind.Int, "2"⟩] [⟨4, Kind.Semi, ";"⟩] [⟨9, Kind.EOF, ""⟩]
    rfl rfl rfl (by decide) (by decide) 4 (by decide)

/-! ## C2: the separator after the last element -/

/-- C2 (as amended): a separator is accepted after any element, the last one
included: for `n ≥ 1` valid literals, `{ e1 ; ... ; en ; }` parses (fuel at least
`n + 2`) to the same Sequence of `e1 ... en` as without the trailing separator. A
separator that follows no element is rejected: directly after `{`, and directly after
another separator, `Parse` aborts on the unexpected `;`. -/
theorem Parse_trailing_separator (opn cls trailing extra : Token) (lits seps rest : List Token)
    (ho : opn.kind = Kind.Open_brace) (hc : cls.kind = Kind.Close_brace)
    (ht : trailing.kind = Kind.Semi) (hx : extra.kind = Kind.Semi) (hne : lits ≠ [])
    (hlen : seps.length = lits.length - 1) (hl : ∀ e ∈ lits, validLiteral e = true)
    (hs : ∀ s ∈ seps, s.kind = Kind.Semi) (fuel : Nat) (hfuel : lits.length + 2 ≤ fuel) :
    Parse fuel (Parser.Init (opn :: (interleave lits seps ++ trailing :: cls :: rest))) =
        .done (Node.Sequence { Pos := opn.position, End := cls.position }
          (lits.map literalNode)) (Parser.reading rest) ∧
      Parse fuel (Parser.Init (opn :: trailing :: rest)) =
        .fail (.unexpectedToken Kind.Semi) ∧
      Parse fuel (Parser.Init (opn :: (interleave lits seps ++ trailing :: extra :: rest))) =
        .fail (.unexpectedToken Kind.Semi) := by
  obtain ⟨g, rfl⟩ : ∃ g, fuel = g + 1 + lits.length + 1 :=
    ⟨fuel - 2 - lits.length, by omega⟩
  have hpos : 0 < lits.length := List.length_pos.mpr hne
  have hsc : Kind.Semi ≠ Kind.Close_brace := by decide
  refine ⟨?_, ?_, ?_⟩
  · rw [Parse_open _ _ _ ho]
    refine parseSequence_of_loop _ opn cls _ rest _ ho hc ?_
    rw [sequenceLoop_body lits seps hne (by omega) hl hs (g + 1) [] trailing (cls :: rest)]
    simp only [ht, hsc, if_true, if_false, List.nil_append]
    exact sequenceLoop_close g cls rest _ hc
  · rw [Parse_open _ _ _ ho]
    refine parseSequence_of_loop_fail _ opn _ _ ho ?_
    rw [show g + 1 + lits.length = g + lits.length + 1 by omega]
    exact sequenceLoop_semi _ trailing rest [] ht
  · rw [Parse_open _ _ _ ho]
    refine parseSequence_of_loop_fail _ opn _ _ ho ?_
    rw [sequenceLoop_body lits seps hne (by omega) hl hs (g + 1) [] trailing (extra :: rest)]
    simp only [ht, hsc, if_true, if_false, List.nil_append]
    exact sequenceLoop_semi g extra rest _ hx

/-- C2, witness: the tokens of `{ 1 ; 2 ; }`, of `{ ;` and of `{ 1 ; 2 ; ;`. -/
theorem Parse_trailing_separator_witness :
    Parse 4 (Parser.Init [⟨0, Kind.Open_brace, "\x7b"⟩, ⟨2, Kind.Int, "1"⟩, ⟨4, Kind.Semi, ";"⟩,
          ⟨6, Kind.Int, "2"⟩, ⟨8, Kind.Semi, ";"⟩, ⟨10, Kind.Close_brace, "\x7d"⟩,
          ⟨11, Kind.EOF, ""⟩]) =
        .done (Node.Sequence ⟨0, 10⟩ [Node.Int ⟨2, 2⟩ 1, Node.Int ⟨6, 6⟩ 2])
          (Parser.reading [⟨11, Kind.EOF, ""⟩]) ∧
      Parse 4 (Parser.Init [⟨0, Kind.Open_brace, "\x7b"⟩, ⟨8, Kind.Semi, ";"⟩, ⟨11, Kind.EOF, ""⟩]) =
        .fail (.unexpectedToken Kind.Semi) ∧
      Parse 4 (Parser.Init [⟨0, Kind.Open_brace, "\x7b"⟩, ⟨2, Kind.Int, "1"⟩, ⟨4, Kind.Semi, ";"⟩,
          ⟨6, Kind.Int, "2"⟩, ⟨8, Kind.Semi, ";"⟩, ⟨9, Kind.Semi, ";"⟩, ⟨11, Kind.EOF, ""⟩]) =
        .fail (.unexpectedToken Kind.Semi) :=
  Parse_trailing_separator ⟨0, Kind.Open_brace, "\x7b"⟩ ⟨10, Kind.Close_brace, "\x7d"⟩
    ⟨8, Kind.Semi, ";"⟩ ⟨9, Kind.Semi, ";"⟩ [⟨2, Kind.Int, "1"⟩, ⟨6, Kind.Int, "2"⟩]
    [⟨4, Kind.Semi, ";"⟩] [⟨11, Kind.EOF, ""⟩] rfl rfl rfl rfl (by simp) rfl (by decide)
    (by decide) 4 (by decide)

/-- C2, counterexample to the claim as first stated: the tokens of `{ 1 ; 2 ; }` do
not make `Parse` fail; it returns the Sequence of `1` and `2`, and no fuel turns that
into an abort. -/
theorem Parse_trailing_separator_accepted :
    Parse 4 (Parser.Init [⟨0, Kind.Open_brace, "\x7b"⟩, ⟨2, Kind.Int, "1"⟩, ⟨4, Kind.Semi, ";"⟩,
          ⟨6, Kind.Int, "2"⟩, ⟨8, Kind.Semi, ";"⟩, ⟨10, Kind.Close_brace, "\x7d"⟩,
          ⟨11, Kind.EOF, ""⟩]) =
        .done (Node.Sequence ⟨0, 10⟩ [Node.Int ⟨2, 2⟩ 1, Node.Int ⟨6, 6⟩ 2])
          (Parser.reading [⟨11, Kind.EOF, ""⟩]) ∧
    ¬ ∃ fuel e, Parse fuel (Parser.Init [⟨0, Kind.Open_brace, "\x7b"⟩, ⟨2, Kind.Int, "1"⟩,
          ⟨4, Kind.Semi, ";"⟩, ⟨6, Kind.Int, "2"⟩, ⟨8, Kind.Semi, ";"⟩,
          ⟨10, Kind.Close_brace, "\x7d"⟩, ⟨11, Kind.EOF, ""⟩]) = .fail e := by
  have h4 : Parse 4 (Parser.Init [⟨0, Kind.Open_brace, "\x7b"⟩, ⟨2, Kind.Int, "1"⟩,
          ⟨4, Kind.Semi, ";"⟩, ⟨6, Kind.Int, "2"⟩, ⟨8, Kind.Semi, ";"⟩,
          ⟨10, Kind.Close_brace, "\x7d"⟩, ⟨11, Kind.EOF, ""⟩]) =
        .done (Node.Sequence ⟨0, 10⟩ [Node.Int ⟨2, 2⟩ 1, Node.Int ⟨6, 6⟩ 2])
          (Parser.reading [⟨11, Kind.EOF, ""⟩]) := rfl
  refine ⟨h4, ?_⟩
  rintro ⟨fuel, e, hfuel⟩
  have h := Parse_settled (m := fuel) _ h4 (by simp) (by simp [hfuel])
  rw [hfuel] at h
  exact Outcome.noConfusion h

/-! ## C3: an annotation after an argument -/

/-- C3 (as amended): an annotation token that comes after `n ≥ 1` literal arguments
of a primitive is never attached to it and is no error of `parsePrim`: the argument
list ends before it. `Parse` of such a top-level application returns the Prim with
those arguments and leaves the annotation unread; only as an element of a sequence is
the application rejected, the sequence loop expecting `;` or `}` at the annotation. -/
theorem Parse_annotation_after_argument (f annot opn : Token) (lits rest : List Token)
    (hf : f.kind = Kind.Identifier) (ha : annot.kind = Kind.Annot)
    (ho : opn.kind = Kind.Open_brace) (hne : lits ≠ [])
    (hl : ∀ t ∈ lits, validLiteral t = true) (fuel : Nat) (hfuel : lits.length + 4 ≤ fuel) :
    Parse fuel (Parser.Init (f :: (lits ++ annot :: rest))) =
        .done (Node.Prim { Pos := f.position, End := annot.position } f.text []
          (lits.map literalNode)) (Parser.reading (annot :: rest)) ∧
      Parse fuel (Parser.Init (opn :: f :: (lits ++ annot :: rest))) =
        .fail (.expected Kind.Semi Kind.Annot) := by
  have hs : startsNode annot.kind = false := by rw [ha]; rfl
  constructor
  · rw [Parse_identifier _ _ _ hf]
    exact parsePrim_literals f lits annot rest hf hl hs (fun h => absurd h hne) fuel (by omega)
  · obtain ⟨g, rfl⟩ : ∃ g, fuel = g + 1 + 1 := ⟨fuel - 2, by omega⟩
    rw [Parse_open _ _ _ ho]
    refine parseSequence_of_loop_fail _ opn _ _ ho ?_
    have hprim := parsePrim_literals f lits annot rest hf hl hs (fun h => absurd h hne) g
      (by omega)
    rw [sequenceLoop]
    simp only [reading_kind, hf, hprim, ha, Parser.expect]
    simp

/-- C3, witness: the tokens of `foo 1 %a` and of `{ foo 1 %a`. -/
theorem Parse_annotation_after_argument_witness :
    Parse 5 (Parser.Init [⟨0, Kind.Identifier, "foo"⟩, ⟨4, Kind.Int, "1"⟩,
          ⟨6, Kind.Annot, "%a"⟩, ⟨8, Kind.EOF, ""⟩]) =
        .done (Node.Prim ⟨0, 6⟩ "foo" [] [Node.Int ⟨4, 4⟩ 1])
          (Parser.reading [⟨6, Kind.Annot, "%a"⟩, ⟨8, Kind.EOF, ""⟩]) ∧
      Parse 5 (Parser.Init [⟨0, Kind.Open_brace, "\x7b"⟩, ⟨0, Kind.Identifier, "foo"⟩,
          ⟨4, Kind.Int, "1"⟩, ⟨6, Kind.Annot, "%a"⟩, ⟨8, Kind.EOF, ""⟩]) =
        .fail (.expected Kind.Semi Kind.Annot) :=
  Parse_annotation_after_argument ⟨0, Kind.Identifier, "foo"⟩ ⟨6, Kind.Annot, "%a"⟩
    ⟨0, Kind.Open_brace, "\x7b"⟩ [⟨4, Kind.Int, "1"⟩] [⟨8, Kind.EOF, ""⟩] rfl rfl rfl (by simp)
    (by decide) 5 (by decide)

/-- C3, counterexample to the claim as first stated: on the tokens of `foo 1 %a`
`Parse` does not fail; it returns the Prim `foo` with the argument `1`, and no fuel
turns that into an abort. -/
theorem Parse_annotation_after_argument_accepted :
    Parse 3 (Parser.Init [⟨0, Kind.Identifier, "foo"⟩, ⟨4, Kind.Int, "1"⟩,
          ⟨6, Kind.Annot, "%a"⟩, ⟨8, Kind.EOF, ""⟩]) =
        .done (Node.Prim ⟨0, 6⟩ "foo" [] [Node.Int ⟨4, 4⟩ 1])
          (Parser.reading [⟨6, Kind.Annot, "%a"⟩, ⟨8, Kind.EOF, ""⟩]) ∧
    ¬ ∃ fuel e, Parse fuel (Parser.Init [⟨0, Kind.Identifier, "foo"⟩, ⟨4, Kind.Int, "1"⟩,
          ⟨6, Kind.Annot, "%a"⟩, ⟨8, Kind.EOF, ""⟩]) = .fail e := by
  have h3 : Parse 3 (Parser.Init [⟨0, Kind.Identifier, "foo"⟩, ⟨4, Kind.Int, "1"⟩,
          ⟨6, Kind.Annot, "%a"⟩, ⟨8, Kind.EOF, ""⟩]) =
        .done (Node.Prim ⟨0, 6⟩ "foo" [] [Node.Int ⟨4, 4⟩ 1])
          (Parser.reading [⟨6, Kind.Annot, "%a"⟩, ⟨8, Kind.EOF, ""⟩]) := rfl
  refine ⟨h3, ?_⟩
  rintro ⟨fuel, e, hfuel⟩
  have h := Parse_settled (m := fuel) _ h3 (by simp) (by simp [hfuel])
  rw [hfuel] at h
  exact Outcome.noConfusion h

/-! ## Byte literals -/

theorem char_le_iff (a b : Char) : a ≤ b ↔ a.toNat ≤ b.toNat := Iff.rfl

theorem utf8Size_of_le (c : Char) (h : c ≤ 'f') : c.utf8Size = 1 := by
  have h1 : c.val.toNat ≤ 102 := h
  have h2 : c.val ≤ 127 := by
    show c.val.toNat ≤ 127
    omega
  simp [Char.utf8Size, h2]

theorem isHexDigit_utf8Size (c : Char) (h : isHexDigit c = true) : c.utf8Size = 1 := by
  apply utf8Size_of_le
  simp only [isHexDigit, Bool.or_eq_true, Bool.and_eq_true, decide_eq_true_eq, char_le_iff] at h
  rw [char_le_iff]
  have h9 : '9'.toNat = 57 := rfl
  have hf : 'f'.toNat = 102 := rfl
  have hF : 'F'.toNat = 70 := rfl
  omega

theorem utf8ByteSize_go_ascii (cs : List Char) (h : ∀ c ∈ cs, c.utf8Size = 1) :
    String.utf8ByteSize.go cs = cs.length := by
  induction cs with
  | nil => rfl
  | cons c cs ih =>
    simp only [String.utf8ByteSize.go, List.length_cons]
    rw [ih (fun d hd => h d (List.mem_cons_of_mem _ hd)), h c (by simp)]

theorem len_mk_ascii (cs : List Char) (h : ∀ c ∈ cs, c.utf8Size = 1) :
    len (String.mk cs) = cs.length := by
  simp only [len, String.utf8ByteSize]
  exact_mod_cast utf8ByteSize_go_ascii cs h

/-- `isHex` holds exactly of `0x` followed by one or more hex digits. -/
theorem isHex_iff (t : GoString) :
    isHex t = true ↔
      ∃ ds : List Char, t = String.mk ('0' :: 'x' :: ds) ∧ ds ≠ [] ∧
        ∀ c ∈ ds, isHexDigit c = true := by
  obtain ⟨cs⟩ := t
  constructor
  · intro h
    unfold isHex at h
    split at h
    · rename_i d ds heq
      simp only [Bool.and_eq_true, List.all_eq_true] at h
      simp only at heq
      refine ⟨d :: ds, by rw [heq], by simp, ?_⟩
      intro c hc
      rcases List.mem_cons.mp hc with rfl | hc
      · exact h.1
      · exact h.2 c hc
    · exact absurd h (by simp)
  · rintro ⟨ds, hds, hne, hall⟩
    cases ds with
    | nil => exact absurd rfl hne
    | cons d ds =>
      rw [hds]
      simp only [isHex, Bool.and_eq_true, List.all_eq_true]
      exact ⟨hall d (by simp), fun c hc => hall c (List.mem_cons_of_mem _ hc)⟩

theorem len_hex (ds : List Char) (hall : ∀ c ∈ ds, isHexDigit c = true) :
    len (String.mk ('0' :: 'x' :: ds)) = (ds.length : ℤ) + 2 := by
  rw [len_mk_ascii]
  · simp only [List.length_cons]
    push_cast
    ring
  · intro c hc
    rcases List.mem_cons.mp hc with rfl | hc
    · rfl
    · rcases List.mem_cons.mp hc with rfl | hc
      · rfl
      · exact isHexDigit_utf8Size c (hall c hc)

/-! ## C5: byte literal validity -/

/-- C5: on a bytes token with text `t`, `parseBytes` succeeds if and only if `t` is
`0x` followed by one or more hex digits, an even number of them; when it succeeds the
Bytes node carries `t` unchanged, prefix included. -/
theorem parseBytes_valid_iff (p : Parser) (hk : p.token_kind = Kind.Bytes) :
    ((∃ n q, parseBytes p = .done n q) ↔ evenHexLiteral p.token_text) ∧
      ∀ n q, parseBytes p = .done n q →
        n = Node.Bytes ⟨p.token_position, p.token_position + len p.token_text - 1⟩
          p.token_text ∧ q = p.next := by
  have hbody : parseBytes p =
      if !isHex p.token_text || len p.token_text % 2 ≠ 0 then
        .fail (.invalidBytes p.token_text p.token_position)
      else .done (Node.Bytes ⟨p.token_position, p.token_position + len p.token_text - 1⟩
        p.token_text) p.next := by
    simp [parseBytes, Parser.expect, hk]
  constructor
  · constructor
    · rintro ⟨n, q, h⟩
      rw [hbody] at h
      split at h
      · exact Outcome.noConfusion h
      · rename_i hcond
        simp only [Bool.or_eq_true, Bool.not_eq_true', decide_eq_true_eq, not_or,
          Bool.not_eq_false, ne_eq, not_not] at hcond
        obtain ⟨ds, hds, hne, hall⟩ := (isHex_iff _).mp hcond.1
        refine ⟨ds, hds, hne, hall, ?_⟩
        have hlen := len_hex ds hall
        rw [← hds] at hlen
        omega
    · rintro ⟨ds, hds, hne, hall, heven⟩
      have hhex : isHex p.token_text = true := (isHex_iff _).mpr ⟨ds, hds, hne, hall⟩
      have hlen := len_hex ds hall
      rw [← hds] at hlen
      have h2 : len p.token_text % 2 = 0 := by omega
      rw [hbody]
      simp [hhex, h2]
  · intro n q h
    rw [hbody] at h
    split at h
    · exact Outcome.noConfusion h
    · injection h with h1 h2
      exact ⟨h1.symm, h2.symm⟩

/-- C5, witness: `0xAB` is accepted and kept whole, `0xA` is rejected. -/
theorem parseBytes_valid_iff_witness :
    (((∃ n q, parseBytes (Parser.reading [⟨0, Kind.Bytes, "0xAB"⟩]) = .done n q) ↔
        evenHexLiteral "0xAB") ∧
      ∀ n q, parseBytes (Parser.reading [⟨0, Kind.Bytes, "0xAB"⟩]) = .done n q →
        n = Node.Bytes ⟨0, 0 + len "0xAB" - 1⟩ "0xAB" ∧
          q = (Parser.reading [⟨0, Kind.Bytes, "0xAB"⟩]).next) ∧
    parseBytes (Parser.reading [⟨0, Kind.Bytes, "0xAB"⟩]) =
      .done (Node.Bytes ⟨0, 3⟩ "0xAB") (Parser.reading []) ∧
    parseBytes (Parser.reading [⟨0, Kind.Bytes, "0xA"⟩]) = .fail (.invalidBytes "0xA" 0) :=
  ⟨parseBytes_valid_iff (Parser.reading [⟨0, Kind.Bytes, "0xAB"⟩]) rfl, rfl, rfl⟩

/-! ## Decimal texts -/

theorem accDigits_foldl (ds : List Char) (n : Nat) :
    ds.foldl (fun n c => n * 10 + digitVal c) n =
      n * 10 ^ ds.length + Nat.ofDigits 10 (ds.map digitVal).reverse := by
  induction ds generalizing n with
  | nil => simp
  | cons d ds ih =>
    simp only [List.foldl_cons, List.map_cons, List.reverse_cons, List.length_cons]
    rw [ih, Nat.ofDigits_append, Nat.ofDigits_singleton]
    simp only [List.length_reverse, List.length_map]
    ring

/-- The digit loop computes the base-ten value of the digits. -/
theorem accDigits_eq (ds : List Char) :
    accDigits ds = Nat.ofDigits 10 (ds.map digitVal).reverse := by
  simp [accDigits, accDigits_foldl]

theorem isDecDigit_iff (c : Char) : isDecDigit c = true ↔ 48 ≤ c.toNat ∧ c.toNat ≤ 57 := by
  simp only [isDecDigit, Bool.and_eq_true, decide_eq_true_eq, char_le_iff]
  exact Iff.rfl

theorem isDecDigit_ne_minus (c : Char) (h : isDecDigit c = true) : c ≠ '-' := by
  rintro rfl
  exact absurd h (by decide)

theorem isDecDigit_ne_plus (c : Char) (h : isDecDigit c = true) : c ≠ '+' := by
  rintro rfl
  exact absurd h (by decide)

theorem parseMagnitude_digits (d : Char) (ds : List Char) (hd : isDecDigit d = true)
    (hds : ds.all isDecDigit = true) :
    parseMagnitude (d :: ds) = some (Nat.ofDigits 10 ((d :: ds).map digitVal).reverse) := by
  simp only [parseMagnitude, accDigits_eq]
  rw [if_pos]
  exact ⟨by simp, by simp [hd, hds]⟩

/-- On a text matching `^-?[0-9]+$`, `strconv.ParseInt` returns the denoted integer
when it fits in 64 bits and an error otherwise. -/
theorem ParseInt_of_isNumber (text : GoString) (h : isNumber text = true) :
    ParseInt text =
      if -(2 : ℤ) ^ 63 ≤ decimalValue text ∧ decimalValue text < (2 : ℤ) ^ 63 then
        some (decimalValue text)
      else none := by
  obtain ⟨cs⟩ := text
  unfold isNumber at h
  split at h
  · rename_i d ds heq
    simp only at heq
    subst heq
    simp only [Bool.and_eq_true] at h
    simp only [ParseInt, decimalValue, parseMagnitude_digits d ds h.1 h.2]
    by_cases hr : Nat.ofDigits 10 ((d :: ds).map digitVal).reverse ≤ 2 ^ 63
    · rw [if_pos hr, if_pos]
      constructor <;> omega
    · rw [if_neg hr, if_neg]
      omega
  · rename_i d ds hminus heq
    simp only at heq
    subst heq
    simp only [Bool.and_eq_true] at h
    have h1 : d ≠ '-' := isDecDigit_ne_minus d h.1
    have h2 : d ≠ '+' := isDecDigit_ne_plus d h.1
    have hP : ParseInt (String.mk (d :: ds)) =
        match parseMagnitude (d :: ds) with
        | some n => if n < 2 ^ 63 then some (n : ℤ) else none
        | none => none := by
      unfold ParseInt
      split
      · rename_i heq; simp only [List.cons.injEq] at heq; exact absurd heq.1 h1
      · rename_i heq; simp only [List.cons.injEq] at heq; exact absurd heq.1 h2
      · rfl
    have hV : decimalValue (String.mk (d :: ds)) =
        ((Nat.ofDigits 10 ((d :: ds).map digitVal).reverse : ℕ) : ℤ) := by
      unfold decimalValue
      split
      · rename_i heq; simp only [List.cons.injEq] at heq; exact absurd heq.1 h1
      · rfl
    rw [hP, hV, parseMagnitude_digits d ds h.1 h.2]
    dsimp only
    by_cases hr : Nat.ofDigits 10 ((d :: ds).map digitVal).reverse < 2 ^ 63
    · rw [if_pos hr, if_pos]
      constructor <;> omega
    · rw [if_neg hr, if_neg]
      omega
  · exact absurd h (by simp)

/-! ## The decimal form printed by `Sprint` -/

theorem digitVal_digitChar (d : Nat) (h : d < 10) : digitVal (Nat.digitChar d) = d := by
  interval_cases d <;> rfl

theorem isDecDigit_digitChar (d : Nat) (h : d < 10) : isDecDigit (Nat.digitChar d) = true := by
  interval_cases d <;> rfl

theorem digitChar_ne_zero (d : Nat) (h : d < 10) (h0 : d ≠ 0) : Nat.digitChar d ≠ '0' := by
  interval_cases d <;> first | exact absurd rfl h0 | decide

theorem decimalDigits_all (fuel : Nat) :
    ∀ n, ∀ c ∈ decimalDigits fuel n, isDecDigit c = true := by
  induction fuel with
  | zero => intro n c hc; simp [decimalDigits] at hc
  | succ fuel ih =>
    intro n c hc
    rw [decimalDigits] at hc
    split at hc
    · rename_i hlt
      rw [List.mem_singleton] at hc
      rw [hc]
      exact isDecDigit_digitChar n hlt
    · rcases List.mem_append.mp hc with h | h
      · exact ih _ c h
      · rw [List.mem_singleton] at h
        rw [h]
        exact isDecDigit_digitChar _ (Nat.mod_lt _ (by decide))

theorem decimalDigits_ne_nil (fuel n : Nat) : decimalDigits (fuel + 1) n ≠ [] := by
  rw [decimalDigits]
  split <;> simp

/-- With enough fuel the digits printed for `n` denote `n`. -/
theorem decimalDigits_value (fuel : Nat) :
    ∀ n, n < fuel → Nat.ofDigits 10 ((decimalDigits fuel n).map digitVal).reverse = n := by
  induction fuel with
  | zero => intro n h; omega
  | succ fuel ih =>
    intro n h
    rw [decimalDigits]
    split
    · rename_i hlt
      simp [digitVal_digitChar n hlt]
    · rename_i hge
      have hrec := ih (n / 10) (by omega)
      simp only [List.map_append, List.map_cons, List.map_nil, List.reverse_append,
        List.reverse_cons, List.reverse_nil, List.nil_append, List.singleton_append,
        Nat.ofDigits_cons, hrec, digitVal_digitChar _ (Nat.mod_lt n (by decide : 0 < 10))]
      omega

/-- With enough fuel the digits printed for a positive `n` do not begin with `0`. -/
theorem decimalDigits_head (fuel : Nat) :
    ∀ n, n < fuel → n ≠ 0 → ∃ d ds, decimalDigits fuel n = d :: ds ∧ d ≠ '0' := by
  induction fuel with
  | zero => intro n h; omega
  | succ fuel ih =>
    intro n h h0
    rw [decimalDigits]
    split
    · rename_i hlt
      exact ⟨_, [], rfl, digitChar_ne_zero n hlt h0⟩
    · obtain ⟨d, ds, hds, hd⟩ := ih (n / 10) (by omega) (by omega)
      exact ⟨d, ds ++ [Nat.digitChar (n % 10)], by rw [hds]; rfl, hd⟩

theorem decimalDigits_zero (fuel : Nat) : decimalDigits (fuel + 1) 0 = ['0'] := by
  simp only [decimalDigits]
  rfl

/-- The text printed for `v` denotes `v`. -/
theorem decimalValue_Sprint (v : ℤ) : decimalValue (Sprint v) = v := by
  have hval := decimalDigits_value (v.natAbs + 1) v.natAbs (by omega)
  unfold Sprint
  split
  · rename_i hneg
    simp only [decimalValue, hval]
    omega
  · rename_i hpos
    obtain ⟨d, ds, hds⟩ : ∃ d ds, decimalDigits (v.natAbs + 1) v.natAbs = d :: ds := by
      cases h : decimalDigits (v.natAbs + 1) v.natAbs with
      | nil => exact absurd h (decimalDigits_ne_nil _ _)
      | cons d ds => exact ⟨d, ds, rfl⟩
    have hd : d ≠ '-' := isDecDigit_ne_minus d
      (decimalDigits_all _ _ d (by rw [hds]; simp))
    have hV : decimalValue (String.mk (decimalDigits (v.natAbs + 1) v.natAbs)) =
        ((Nat.ofDigits 10 ((decimalDigits (v.natAbs + 1) v.natAbs).map digitVal).reverse
          : ℕ) : ℤ) := by
      unfold decimalValue
      split
      · rename_i heq
        simp only [hds, List.cons.injEq] at heq
        exact absurd heq.1 hd
      · rfl
    rw [hV, hval]
    omega

/-- The printed forms of distinct integers differ. -/
theorem Sprint_injective (v w : ℤ) (h : Sprint v = Sprint w) : v = w := by
  rw [← decimalValue_Sprint v, ← decimalValue_Sprint w, h]

/-- The printed form is canonical: digits only, `-` exactly for negative values, no
leading zero except for `0` itself. -/
theorem isCanonicalDecimal_Sprint (v : ℤ) : isCanonicalDecimal (Sprint v) = true := by
  have hall := decimalDigits_all (v.natAbs + 1) v.natAbs
  by_cases h0 : v = 0
  · subst h0; rfl
  · obtain ⟨d, ds, hds, hd⟩ := decimalDigits_head (v.natAbs + 1) v.natAbs (by omega)
      (by omega)
    rw [hds] at hall
    have hdd : isDecDigit d = true := hall d (by simp)
    have hdsd : ds.all isDecDigit = true := by
      rw [List.all_eq_true]; intro c hc; exact hall c (List.mem_cons_of_mem _ hc)
    unfold Sprint
    split
    · simp only [hds, isCanonicalDecimal]
      simp [hdd, hd, hdsd]
    · have hm : d ≠ '-' := isDecDigit_ne_minus d hdd
      simp only [hds]
      unfold isCanonicalDecimal
      split
      · rename_i heq; simp only [List.cons.injEq] at heq; exact absurd heq.1 hd
      · rename_i heq; simp only [List.cons.injEq] at heq; exact absurd heq.1 hm
      · rename_i heq
        simp only [List.cons.injEq] at heq
        obtain ⟨rfl, rfl⟩ := heq
        simp [hdd, hd, hdsd]
      · rename_i heq; simp at heq

/-- The printed form begins with `-` exactly for the negative integers. -/
theorem Sprint_minus_iff (v : ℤ) : (Sprint v).data.head? = some '-' ↔ v < 0 := by
  unfold Sprint
  split
  · rename_i h; simp [h]
  · rename_i h
    simp only [h, iff_false]
    cases hds : decimalDigits (v.natAbs + 1) v.natAbs with
    | nil => simp
    | cons d ds =>
      have hd : d ≠ '-' := isDecDigit_ne_minus d
        (decimalDigits_all _ _ d (by rw [hds]; simp))
      simpa using hd

/-! ## C4: integers -/

/-- C4 (as amended): on an int token whose text matches `^-?[0-9]+$`, `parseInt`
succeeds exactly when the denoted integer lies in the signed 64-bit range, and the
Int node then carries exactly that integer; outside that range it aborts with
"Invalid number". The value of a parsed node is printed by `translateAST` as a decimal
text that denotes the same integer. -/
theorem parseInt_int64 (p : Parser) (hk : p.token_kind = Kind.Int)
    (hn : isNumber p.token_text = true) :
    parseInt p =
        (if -(2 : ℤ) ^ 63 ≤ decimalValue p.token_text ∧ decimalValue p.token_text < (2 : ℤ) ^ 63
        then
          .done (Node.Int ⟨p.token_position, p.token_position + len p.token_text - 1⟩
            (decimalValue p.token_text)) p.next
        else .fail (.invalidNumber p.token_text p.token_position)) ∧
      translateAST (Node.Int ⟨p.token_position, p.token_position + len p.token_text - 1⟩
          (decimalValue p.token_text)) =
        some (JSON.object { Int := Sprint (decimalValue p.token_text) }) ∧
      decimalValue (Sprint (decimalValue p.token_text)) = decimalValue p.token_text := by
  refine ⟨?_, rfl, decimalValue_Sprint _⟩
  simp only [parseInt, Parser.expect, hk, if_true, ParseInt_of_isNumber _ hn]
  by_cases hr : -(2 : ℤ) ^ 63 ≤ decimalValue p.token_text ∧
      decimalValue p.token_text < (2 : ℤ) ^ 63
  · rw [if_pos hr, if_pos hr]
  · rw [if_neg hr, if_neg hr]

/-- C4, witness: the least 64-bit integer is parsed exactly and printed back. -/
theorem parseInt_int64_witness :
    parseInt (Parser.reading [⟨0, Kind.Int, "-9223372036854775808"⟩]) =
        .done (Node.Int ⟨0, 19⟩ (-9223372036854775808)) (Parser.reading []) ∧
      translateAST (Node.Int ⟨0, 19⟩ (-9223372036854775808)) =
        some (JSON.object { Int := "-9223372036854775808" }) ∧
      decimalValue "-9223372036854775808" = -9223372036854775808 := by
  have h := parseInt_int64 (Parser.reading [⟨0, Kind.Int, "-9223372036854775808"⟩]) rfl rfl
  have hv : decimalValue "-9223372036854775808" = -9223372036854775808 := by decide
  exact ⟨h.1.trans rfl, rfl, hv⟩

/-- C4, counterexample to the claim as first stated: the int token
`123456789012345678901234567890` matches `^-?[0-9]+$` and `parseInt` rejects it. -/
theorem parseInt_rejects_beyond_int64 :
    isNumber "123456789012345678901234567890" = true ∧
      parseInt (Parser.reading [⟨0, Kind.Int, "123456789012345678901234567890"⟩]) =
        .fail (.invalidNumber "123456789012345678901234567890" 0) :=
  ⟨rfl, rfl⟩

/-! ## The loops of the printer -/

theorem appendAnnots_items (annots : List Annotation) :
    ∀ ys, appendAnnots (Slice.items ys) annots =
      Slice.items (ys ++ annots.map (fun el => el.Value)) := by
  induction annots with
  | nil => intro ys; simp [appendAnnots]
  | cons a rest ih => intro ys; simp [appendAnnots, Slice.append, ih]

/-- The annotation loop leaves `nil` when there is no annotation and otherwise
collects the annotation values in order. -/
theorem appendAnnots_nil (annots : List Annotation) :
    appendAnnots Slice.nil annots =
      if annots.isEmpty then Slice.nil else Slice.items (annots.map (fun el => el.Value)) := by
  cases annots with
  | nil => rfl
  | cons a rest => simp [appendAnnots, Slice.append, appendAnnots_items]

theorem appendTranslated_items (xs : List Node) :
    ∀ (ys : List JSON) (s : Slice JSON),
      appendTranslated (Slice.items ys) xs = some s ↔
        ∃ vs, List.Forall₂ (fun a v => translateAST a = some v) xs vs ∧
          s = Slice.items (ys ++ vs) := by
  induction xs with
  | nil =>
    intro ys s
    simp only [appendTranslated, Option.some.injEq, List.forall₂_nil_left_iff]
    constructor
    · rintro rfl; exact ⟨[], rfl, by simp⟩
    · rintro ⟨vs, rfl, rfl⟩; simp
  | cons x xs ih =>
    intro ys s
    rw [appendTranslated]
    cases hx : translateAST x with
    | none =>
      simp only [List.forall₂_cons_left_iff, hx]
      constructor
      · intro h; exact absurd h (by simp)
      · rintro ⟨vs, ⟨v, vs2, hv, _, _⟩, _⟩; exact absurd hv (by simp)
    | some v =>
      simp only [Slice.append, ih, List.forall₂_cons_left_iff, hx, Option.some.injEq]
      constructor
      · rintro ⟨vs, hvs, rfl⟩
        exact ⟨v :: vs, ⟨v, vs, rfl, hvs, rfl⟩, by simp⟩
      · rintro ⟨vs, ⟨w, vs2, rfl, hvs, rfl⟩, rfl⟩
        exact ⟨vs2, hvs, by simp⟩

/-- The argument loop, started from `nil`, leaves `nil` when there is no element and
otherwise collects the translated elements in order. -/
theorem appendTranslated_nil (xs : List Node) (s : Slice JSON) :
    appendTranslated Slice.nil xs = some s ↔
      ∃ vs, List.Forall₂ (fun a v => translateAST a = some v) xs vs ∧
        s = if xs.isEmpty then Slice.nil else Slice.items vs := by
  cases xs with
  | nil =>
    simp only [appendTranslated, Option.some.injEq, List.forall₂_nil_left_iff, List.isEmpty_nil,
      if_true]
    constructor
    · rintro rfl; exact ⟨[], rfl, rfl⟩
    · rintro ⟨vs, _, rfl⟩; rfl
  | cons x xs =>
    rw [appendTranslated]
    cases hx : translateAST x with
    | none =>
      simp only [List.forall₂_cons_left_iff, hx]
      constructor
      · intro h; exact absurd h (by simp)
      · rintro ⟨vs, ⟨v, vs2, hv, _, _⟩, _⟩; exact absurd hv (by simp)
    | some v =>
      simp only [Slice.append, appendTranslated_items, List.forall₂_cons_left_iff, hx,
        Option.some.injEq, List.isEmpty_cons, Bool.false_eq_true, if_false]
      constructor
      · rintro ⟨vs, hvs, rfl⟩
        exact ⟨v :: vs, ⟨v, vs, rfl, hvs, rfl⟩, by simp⟩
      · rintro ⟨vs, ⟨w, vs2, rfl, hvs, rfl⟩, rfl⟩
        exact ⟨vs2, hvs, by simp⟩

/-! ## C7: the Prim object -/

/-- C7: for every Prim whose arguments translate to `vs`, `translateAST` yields the
object whose `Prim` is the name, whose `Annots` holds the annotation values in order
and is `nil` (absent) exactly when there is no annotation, whose `Args` holds the
translated arguments in order and is `nil` (absent) exactly when there is no argument,
and whose other fields are unset. -/
theorem translateAST_Prim_fields (pos : Position) (name : GoString) (annots : List Annotation)
    (args : List Node) (vs : List JSON)
    (h : List.Forall₂ (fun a v => translateAST a = some v) args vs) :
    translateAST (Node.Prim pos name annots args) =
      some (JSON.object
        { Prim := name
          Annots := if annots.isEmpty then Slice.nil
            else Slice.items (annots.map (fun el => el.Value))
          Args := if args.isEmpty then Slice.nil else Slice.items vs }) := by
  have hargs := (appendTranslated_nil args _).mpr ⟨vs, h, rfl⟩
  simp only [translateAST, hargs, appendAnnots_nil]

/-- C7, witness: `Pair 1 "x"` without annotations gives `prim` and `args` only. -/
theorem translateAST_Prim_fields_witness :
    translateAST (Node.Prim ⟨0, 9⟩ "Pair" [] [Node.Int ⟨5, 5⟩ 1, Node.String ⟨7, 9⟩ "x"]) =
      some (JSON.object
        { Prim := "Pair"
          Annots := Slice.nil
          Args := Slice.items [JSON.object { Int := "1" }, JSON.object { String := "x" }] }) :=
  translateAST_Prim_fields ⟨0, 9⟩ "Pair" [] [Node.Int ⟨5, 5⟩ 1, Node.String ⟨7, 9⟩ "x"]
    [JSON.object { Int := "1" }, JSON.object { String := "x" }]
    (List.Forall₂.cons rfl (List.Forall₂.cons rfl List.Forall₂.nil))

/-! ## C8: the leaf objects -/

/-- C8: a Bytes node whose value is `0x` followed by `rest` yields the object whose only
set field is `Bytes`, equal to `rest` (the value without its first two characters);
an Int node yields the object whose only set field is `Int`, the canonical decimal
text of the value (it denotes the value, has no leading zero, and begins with `-`
exactly for a negative value); a String node, the empty string included, yields the
object whose only set field is `String`, equal to the value unchanged. -/
theorem translateAST_leaves :
    (∀ (pos : Position) (rest : List Char),
        translateAST (Node.Bytes pos (String.mk ('0' :: 'x' :: rest))) =
          some (JSON.object { Bytes := String.mk rest })) ∧
      (∀ (pos : Position) (v : ℤ),
        translateAST (Node.Int pos v) = some (JSON.object { Int := Sprint v }) ∧
          decimalValue (Sprint v) = v ∧ isCanonicalDecimal (Sprint v) = true ∧
          ((Sprint v).data.head? = some '-' ↔ v < 0)) ∧
      (∀ (pos : Position) (v : GoString),
        translateAST (Node.String pos v) = some (JSON.object { String := v })) ∧
      translateAST (Node.String ⟨0, 1⟩ "") = some (JSON.object { String := "" }) := by
  refine ⟨?_, ?_, fun _ _ => rfl, rfl⟩
  · intro pos rest
    have h : sliceFrom2 (String.mk ('0' :: 'x' :: rest)) = some (String.mk rest) := by
      simp [sliceFrom2, show '0'.utf8Size = 1 from rfl, show 'x'.utf8Size = 1 from rfl]
    simp only [translateAST, h]
  · intro pos v
    exact ⟨rfl, decimalValue_Sprint v, isCanonicalDecimal_Sprint v, Sprint_minus_iff v⟩

/-! ## C9: the Sequence array -/

/-- C9: `translateAST` yields `j` for a Sequence exactly when `j` is a non-nil array
with one item per element, the `i`-th item being the translation of the `i`-th
element; in particular the empty Sequence yields the empty array, not `nil`. -/
theorem translateAST_Sequence_array (pos : Position) (elements : List Node) (j : JSON) :
    (translateAST (Node.Sequence pos elements) = some j ↔
        ∃ vs : List JSON, j = JSON.array (Slice.items vs) ∧ elements.length = vs.length ∧
          ∀ (i : Nat) (h1 : i < elements.length) (h2 : i < vs.length),
            translateAST (elements.get ⟨i, h1⟩) = some (vs.get ⟨i, h2⟩)) ∧
      translateAST (Node.Sequence pos []) = some (JSON.array (Slice.items [])) := by
  refine ⟨?_, rfl⟩
  rw [translateAST]
  constructor
  · intro h
    cases hs : appendTranslated (Slice.items []) elements with
    | none => rw [hs] at h; exact absurd h (by simp)
    | some s =>
      rw [hs] at h
      obtain ⟨vs, hvs, rfl⟩ := (appendTranslated_items elements [] s).mp hs
      simp only [Option.some.injEq] at h
      exact ⟨vs, by rw [← h]; simp, hvs.length_eq, fun i h1 h2 => hvs.get h1 h2⟩
  · rintro ⟨vs, rfl, hlen, hget⟩
    have hvs : List.Forall₂ (fun a v => translateAST a = some v) elements vs :=
      List.forall₂_of_length_eq_of_get hlen hget
    have hs := (appendTranslated_items elements [] _).mpr ⟨vs, hvs, rfl⟩
    simp only [hs, List.nil_append]

/-! ## Injectivity of the printer -/

theorem mk_ne_empty (d : Char) (ds : List Char) : String.mk (d :: ds) ≠ "" := by
  intro h
  have := congrArg String.data h
  simp at this

theorem Sprint_ne_empty (v : ℤ) : Sprint v ≠ "" := by
  unfold Sprint
  split
  · exact mk_ne_empty _ _
  · cases h : decimalDigits (v.natAbs + 1) v.natAbs with
    | nil => exact absurd h (decimalDigits_ne_nil _ _)
    | cons d ds => exact mk_ne_empty d ds

theorem translateAST_Bytes_0x (pos : Position) (rest : List Char) :
    translateAST (Node.Bytes pos (String.mk ('0' :: 'x' :: rest))) =
      some (JSON.object { Bytes := String.mk rest }) := by
  have h : sliceFrom2 (String.mk ('0' :: 'x' :: rest)) = some (String.mk rest) := by
    simp [sliceFrom2, show '0'.utf8Size = 1 from rfl, show 'x'.utf8Size = 1 from rfl]
  simp only [translateAST, h]

theorem translateAST_Bytes_wf (pos : Position) (v : GoString) (h : isHex v = true) :
    ∃ d ds, v = String.mk ('0' :: 'x' :: d :: ds) ∧
      translateAST (Node.Bytes pos v) = some (JSON.object { Bytes := String.mk (d :: ds) }) := by
  obtain ⟨ds, rfl, hne, _⟩ := (isHex_iff v).mp h
  cases ds with
  | nil => exact absurd rfl hne
  | cons d ds => exact ⟨d, ds, rfl, translateAST_Bytes_0x pos (d :: ds)⟩

theorem translateAST_Prim_shape (pos : Position) (name : GoString)
    (annots : List Annotation) (args : List Node) (j : JSON)
    (h : translateAST (Node.Prim pos name annots args) = some j) :
    ∃ vs, List.Forall₂ (fun a v => translateAST a = some v) args vs ∧
      j = JSON.object
        { Prim := name
          Annots := if annots.isEmpty then Slice.nil
            else Slice.items (annots.map (fun el => el.Value))
          Args := if args.isEmpty then Slice.nil else Slice.items vs } := by
  rw [translateAST] at h
  cases hs : appendTranslated Slice.nil args with
  | none => rw [hs] at h; exact absurd h (by simp)
  | some s =>
    rw [hs] at h
    obtain ⟨vs, hvs, rfl⟩ := (appendTranslated_nil args s).mp hs
    simp only [Option.some.injEq, appendAnnots_nil] at h
    exact ⟨vs, hvs, h.symm⟩

theorem translateAST_Sequence_shape (pos : Position) (elements : List Node) (j : JSON)
    (h : translateAST (Node.Sequence pos elements) = some j) :
    ∃ vs, List.Forall₂ (fun a v => translateAST a = some v) elements vs ∧
      j = JSON.array (Slice.items vs) := by
  rw [translateAST] at h
  cases hs : appendTranslated (Slice.items []) elements with
  | none => rw [hs] at h; exact absurd h (by simp)
  | some s =>
    rw [hs] at h
    obtain ⟨vs, hvs, rfl⟩ := (appendTranslated_items elements [] s).mp hs
    simp only [Option.some.injEq, List.nil_append] at h
    exact ⟨vs, hvs, h.symm⟩

/-- Annotations whose kinds are fixed by their values are determined, up to position,
by their values. -/
theorem eraseAnnot_of_values (l1 : List Annotation) :
    ∀ l2 : List Annotation,
      (∀ a ∈ l1, kindOfValue a.Value = some a.Kind) →
      (∀ a ∈ l2, kindOfValue a.Value = some a.Kind) →
      l1.map (fun el => el.Value) = l2.map (fun el => el.Value) →
      l1.map eraseAnnot = l2.map eraseAnnot := by
  induction l1 with
  | nil =>
    intro l2 _ _ h
    cases l2 with
    | nil => rfl
    | cons b l2 => simp at h
  | cons a l1 ih =>
    intro l2 h1 h2 h
    cases l2 with
    | nil => simp at h
    | cons b l2 =>
      simp only [List.map_cons, List.cons.injEq] at h ⊢
      refine ⟨?_, ih l2 (fun x hx => h1 x (List.mem_cons_of_mem _ hx))
        (fun x hx => h2 x (List.mem_cons_of_mem _ hx)) h.2⟩
      have ha := h1 a (by simp)
      have hb := h2 b (by simp)
      rw [h.1, hb] at ha
      obtain ⟨pa, ka, va⟩ := a
      obtain ⟨pb, kb, vb⟩ := b
      simp only [Option.some.injEq] at ha
      simp only at h
      simp [eraseAnnot, h.1, ha]

theorem slice_values_eq {α : Type} (l1 l2 : List α)
    (h : (if l1.isEmpty then Slice.nil else Slice.items l1) =
      (if l2.isEmpty then Slice.nil else Slice.items l2)) : l1 = l2 := by
  cases l1 with
  | nil =>
    cases l2 with
    | nil => rfl
    | cons b l2 => simp at h
  | cons a l1 =>
    cases l2 with
    | nil => simp at h
    | cons b l2 => simpa using h

theorem forall₂_isEmpty {α β : Type} {R : α → β → Prop} {xs : List α} {ys : List β}
    (h : List.Forall₂ R xs ys) : xs.isEmpty = ys.isEmpty := by
  cases h <;> rfl

theorem object_ne_array (m : MichelsonJSON JSON) (s : Slice JSON) :
    JSON.object m ≠ JSON.array s := fun h => JSON.noConfusion h

mutual

/-- Two well-formed trees with the same translation are equal up to positions. -/
theorem translateAST_inj_node :
    ∀ (a b : Node) (j : JSON), wellFormed a = true → wellFormed b = true →
      translateAST a = some j → translateAST b = some j →
      erasePositions a = erasePositions b
  | Node.Bytes pa va, b, j, ha, hb, ta, tb => by
    obtain ⟨d, ds, rfl, hj⟩ := translateAST_Bytes_wf pa va ha
    rw [hj] at ta
    cases b with
    | Bytes pb vb =>
      obtain ⟨e, es, rfl, hj2⟩ := translateAST_Bytes_wf pb vb hb
      rw [hj2, ← ta] at tb
      simp only [Option.some.injEq, JSON.object.injEq, MichelsonJSON.mk.injEq,
        true_and] at tb
      have hdata := congrArg String.data tb
      simp only [List.cons.injEq] at hdata
      simp [erasePositions, hdata.1, hdata.2]
    | Int pb vb =>
      rw [translateAST, ← ta] at tb
      simp only [Option.some.injEq, JSON.object.injEq, MichelsonJSON.mk.injEq] at tb
      exact absurd tb.2.2.2.2.2.symm (mk_ne_empty d ds)
    | String pb vb =>
      rw [translateAST, ← ta] at tb
      simp only [Option.some.injEq, JSON.object.injEq, MichelsonJSON.mk.injEq] at tb
      exact absurd tb.2.2.2.2.2.symm (mk_ne_empty d ds)
    | Prim pb nb anb arb =>
      obtain ⟨vs, _, hj2⟩ := translateAST_Prim_shape pb nb anb arb j tb
      rw [hj2] at ta
      simp only [Option.some.injEq, JSON.object.injEq, MichelsonJSON.mk.injEq] at ta
      exact absurd ta.2.2.2.2.2 (mk_ne_empty d ds)
    | Sequence pb eb =>
      obtain ⟨vs, _, hj2⟩ := translateAST_Sequence_shape pb eb j tb
      rw [hj2] at ta
      exact absurd (Option.some.inj ta) (object_ne_array _ _)
  | Node.Int pa va, b, j, ha, hb, ta, tb => by
    rw [translateAST] at ta
    cases b with
    | Bytes pb vb =>
      obtain ⟨e, es, rfl, hj2⟩ := translateAST_Bytes_wf pb vb hb
      rw [hj2, ← ta] at tb
      simp only [Option.some.injEq, JSON.object.injEq, MichelsonJSON.mk.injEq] at tb
      exact absurd tb.2.2.2.1.symm (Sprint_ne_empty va)
    | Int pb vb =>
      rw [translateAST, ← ta] at tb
      simp only [Option.some.injEq, JSON.object.injEq, MichelsonJSON.mk.injEq] at tb
      simp [erasePositions, Sprint_injective vb va tb.2.2.2.1]
    | String pb vb =>
      rw [translateAST, ← ta] at tb
      simp only [Option.some.injEq, JSON.object.injEq, MichelsonJSON.mk.injEq] at tb
      exact absurd tb.2.2.2.1.symm (Sprint_ne_empty va)
    | Prim pb nb anb arb =>
      obtain ⟨vs, _, hj2⟩ := translateAST_Prim_shape pb nb anb arb j tb
      rw [hj2] at ta
      simp only [Option.some.injEq, JSON.object.injEq, MichelsonJSON.mk.injEq] at ta
      exact absurd ta.2.2.2.1 (Sprint_ne_empty va)
    | Sequence pb eb =>
      obtain ⟨vs, _, hj2⟩ := translateAST_Sequence_shape pb eb j tb
      rw [hj2] at ta
      exact absurd (Option.some.inj ta) (object_ne_array _ _)
  | Node.String pa va, b, j, ha, hb, ta, tb => by
    rw [translateAST] at ta
    cases b with
    | Bytes pb vb =>
      obtain ⟨e, es, rfl, hj2⟩ := translateAST_Bytes_wf pb vb hb
      rw [hj2, ← ta] at tb
      simp only [Option.some.injEq, JSON.object.injEq, MichelsonJSON.mk.injEq] at tb
      exact absurd tb.2.2.2.2.2 (mk_ne_empty e es)
    | Int pb vb =>
      rw [translateAST, ← ta] at tb
      simp only [Option.some.injEq, JSON.object.injEq, MichelsonJSON.mk.injEq] at tb
      exact absurd tb.2.2.2.1 (Sprint_ne_empty vb)
    | String pb vb =>
      rw [translateAST, ← ta] at tb
      simp only [Option.some.injEq, JSON.object.injEq, MichelsonJSON.mk.injEq] at tb
      simp [erasePositions, tb.2.2.2.2.1]
    | Prim pb nb anb arb =>
      obtain ⟨vs, _, hj2⟩ := translateAST_Prim_shape pb nb anb arb j tb
      rw [hj2] at ta
      simp only [Option.some.injEq, JSON.object.injEq, MichelsonJSON.mk.injEq] at ta
      simp only [wellFormed, Bool.and_eq_true, bne_iff_ne, ne_eq] at hb
      exact absurd ta.1.symm hb.1.1
    | Sequence pb eb =>
      obtain ⟨vs, _, hj2⟩ := translateAST_Sequence_shape pb eb j tb
      rw [hj2] at ta
      exact absurd (Option.some.inj ta) (object_ne_array _ _)
  | Node.Prim pa na ana ara, b, j, ha, hb, ta, tb => by
    obtain ⟨vs, hvs, hj⟩ := translateAST_Prim_shape pa na ana ara j ta
    simp only [wellFormed, Bool.and_eq_true, bne_iff_ne, ne_eq, List.all_eq_true,
      beq_iff_eq] at ha
    cases b with
    | Bytes pb vb =>
      obtain ⟨e, es, rfl, hj2⟩ := translateAST_Bytes_wf pb vb hb
      rw [hj2, hj] at tb
      simp only [Option.some.injEq, JSON.object.injEq, MichelsonJSON.mk.injEq] at tb
      exact absurd tb.2.2.2.2.2 (mk_ne_empty e es)
    | Int pb vb =>
      rw [translateAST, hj] at tb
      simp only [Option.some.injEq, JSON.object.injEq, MichelsonJSON.mk.injEq] at tb
      exact absurd tb.2.2.2.1 (Sprint_ne_empty vb)
    | String pb vb =>
      rw [translateAST, hj] at tb
      simp only [Option.some.injEq, JSON.object.injEq, MichelsonJSON.mk.injEq] at tb
      exact absurd tb.1.symm ha.1.1
    | Prim pb nb anb arb =>
      obtain ⟨ws, hws, hj2⟩ := translateAST_Prim_shape pb nb anb arb j tb
      simp only [wellFormed, Bool.and_eq_true, bne_iff_ne, ne_eq, List.all_eq_true,
        beq_iff_eq] at hb
      rw [hj] at hj2
      simp only [JSON.object.injEq, MichelsonJSON.mk.injEq] at hj2
      obtain ⟨hname, hannots, hargs, -⟩ := hj2
      rw [forall₂_isEmpty hvs, forall₂_isEmpty hws] at hargs
      have hvw : vs = ws := slice_values_eq vs ws hargs
      subst hvw
      have hrec := translateAST_inj_list ara arb vs ha.2 hb.2 hvs hws
      have hann : ana.map eraseAnnot = anb.map eraseAnnot := by
        refine eraseAnnot_of_values ana anb ha.1.2 hb.1.2 ?_
        have h1 : (ana.map (fun el => el.Value)).isEmpty = ana.isEmpty := by
          cases ana <;> rfl
        have h2 : (anb.map (fun el => el.Value)).isEmpty = anb.isEmpty := by
          cases anb <;> rfl
        rw [← h1, ← h2] at hannots
        exact slice_values_eq _ _ hannots
      simp only [erasePositions, hname, hann, hrec]
    | Sequence pb eb =>
      obtain ⟨ws, _, hj2⟩ := translateAST_Sequence_shape pb eb j tb
      rw [hj] at hj2
      exact absurd hj2 (object_ne_array _ _)
  | Node.Sequence pa ea, b, j, ha, hb, ta, tb => by
    obtain ⟨vs, hvs, hj⟩ := translateAST_Sequence_shape pa ea j ta
    cases b with
    | Bytes pb vb =>
      obtain ⟨e, es, rfl, hj2⟩ := translateAST_Bytes_wf pb vb hb
      rw [hj2, hj] at tb
      exact absurd (Option.some.inj tb) (object_ne_array _ _)
    | Int pb vb =>
      rw [translateAST, hj] at tb
      exact absurd (Option.some.inj tb) (object_ne_array _ _)
    | String pb vb =>
      rw [translateAST, hj] at tb
      exact absurd (Option.some.inj tb) (object_ne_array _ _)
    | Prim pb nb anb arb =>
      obtain ⟨ws, _, hj2⟩ := translateAST_Prim_shape pb nb anb arb j tb
      rw [hj] at hj2
      exact absurd hj2.symm (object_ne_array _ _)
    | Sequence pb eb =>
      obtain ⟨ws, hws, hj2⟩ := translateAST_Sequence_shape pb eb j tb
      rw [hj] at hj2
      simp only [JSON.array.injEq, Slice.items.injEq] at hj2
      subst hj2
      simp only [wellFormed] at ha hb
      have hrec := translateAST_inj_list ea eb vs ha hb hvs hws
      simp only [erasePositions, hrec]

/-- Two lists of well-formed trees with the same translations are equal up to
positions. -/
theorem translateAST_inj_list :
    ∀ (xs ys : List Node) (vs : List JSON), wellFormedAll xs = true →
      wellFormedAll ys = true →
      List.Forall₂ (fun a v => translateAST a = some v) xs vs →
      List.Forall₂ (fun a v => translateAST a = some v) ys vs →
      erasePositionsAll xs = erasePositionsAll ys
  | [], ys, vs, _, _, hx, hy => by
    cases hx
    cases hy
    rfl
  | x :: xs, ys, vs, hxs, hys, hx, hy => by
    cases hx with
    | cons hv hvs =>
      cases hy with
      | cons hw hws =>
        simp only [wellFormedAll, Bool.and_eq_true] at hxs hys
        simp only [erasePositionsAll, translateAST_inj_node x _ _ hxs.1 hys.1 hv hw,
          translateAST_inj_list xs _ _ hxs.2 hys.2 hvs hws]

end

/-! ## The trees built by the parser satisfy the data-model invariants -/

mutual

/-- A well-formed tree has a translation: `translateAST` does not panic on it. -/
theorem translateAST_total_node :
    ∀ (a : Node), wellFormed a = true → ∃ j, translateAST a = some j
  | Node.Bytes pa va, ha => by
    obtain ⟨d, ds, _, hj⟩ := translateAST_Bytes_wf pa va ha
    exact ⟨_, hj⟩
  | Node.Int _ _, _ => ⟨_, rfl⟩
  | Node.String _ _, _ => ⟨_, rfl⟩
  | Node.Prim pa na ana ara, ha => by
    simp only [wellFormed, Bool.and_eq_true] at ha
    obtain ⟨vs, hvs⟩ := translateAST_total_list ara ha.2
    have hargs := (appendTranslated_nil ara _).mpr ⟨vs, hvs, rfl⟩
    rw [translateAST, hargs]
    exact ⟨_, rfl⟩
  | Node.Sequence pa ea, ha => by
    simp only [wellFormed] at ha
    obtain ⟨vs, hvs⟩ := translateAST_total_list ea ha
    have hs := (appendTranslated_items ea [] _).mpr ⟨vs, hvs, rfl⟩
    rw [translateAST, hs]
    exact ⟨_, rfl⟩

/-- Every tree of a well-formed list has a translation. -/
theorem translateAST_total_list :
    ∀ (xs : List Node), wellFormedAll xs = true →
      ∃ vs, List.Forall₂ (fun a v => translateAST a = some v) xs vs
  | [], _ => ⟨[], List.Forall₂.nil⟩
  | x :: xs, h => by
    simp only [wellFormedAll, Bool.and_eq_true] at h
    obtain ⟨j, hj⟩ := translateAST_total_node x h.1
    obtain ⟨vs, hvs⟩ := translateAST_total_list xs h.2
    exact ⟨j :: vs, List.Forall₂.cons hj hvs⟩

end

theorem wellFormedAll_append (xs : List Node) (n : Node) :
    wellFormedAll (xs ++ [n]) = (wellFormedAll xs && wellFormed n) := by
  induction xs with
  | nil => simp [wellFormedAll]
  | cons x xs ih => simp [wellFormedAll, ih, Bool.and_assoc]

theorem named_next (p : Parser) (h : p.named) : p.next.named := by
  obtain ⟨pos, kind, text, scanner⟩ := p
  cases scanner with
  | nil =>
    refine ⟨fun hk => ?_, fun t ht => ?_⟩
    · exact absurd hk (show Kind.EOF ≠ Kind.Identifier by decide)
    · exact absurd ht (List.not_mem_nil t)
  | cons t ts =>
    exact ⟨fun hk => h.2 t (by simp) hk, fun u hu => h.2 u (List.mem_cons_of_mem _ hu)⟩

theorem parseBytes_named (p : Parser) (n : Node) (q : Parser) (hp : p.named)
    (h : parseBytes p = .done n q) : wellFormed n = true ∧ q.named := by
  unfold parseBytes at h
  split at h
  · exact Outcome.noConfusion h
  · split at h
    · exact Outcome.noConfusion h
    · rename_i hcond
      simp only [Bool.or_eq_true, Bool.not_eq_true', decide_eq_true_eq, not_or,
        Bool.not_eq_false] at hcond
      injection h with h1 h2
      subst h1 h2
      exact ⟨hcond.1, named_next p hp⟩

theorem parseString_named (p : Parser) (n : Node) (q : Parser) (hp : p.named)
    (h : parseString p = .done n q) : wellFormed n = true ∧ q.named := by
  unfold parseString at h
  split at h
  · exact Outcome.noConfusion h
  · injection h with h1 h2
    subst h1 h2
    exact ⟨rfl, named_next p hp⟩

theorem parseInt_named (p : Parser) (n : Node) (q : Parser) (hp : p.named)
    (h : parseInt p = .done n q) : wellFormed n = true ∧ q.named := by
  unfold parseInt at h
  split at h
  · exact Outcome.noConfusion h
  · split at h
    · exact Outcome.noConfusion h
    · injection h with h1 h2
      subst h1 h2
      exact ⟨rfl, named_next p hp⟩

theorem parseAnnotation_kind (p : Parser) (a : Annotation) (h : parseAnnotation p = .ok a) :
    kindOfValue a.Value = some a.Kind := by
  unfold parseAnnotation at h
  split at h
  · exact Except.noConfusion h
  · split at h
    · exact Except.noConfusion h
    · rename_i c cs hdata
      split at h
      · rename_i hc
        injection h with h
        subst h hc
        simp [kindOfValue, hdata]
      · split at h
        · rename_i hc
          injection h with h
          subst h hc
          simp [kindOfValue, hdata]
        · split at h
          · rename_i hc
            injection h with h
            subst h hc
            simp [kindOfValue, hdata]
          · exact Except.noConfusion h

theorem annotationLoop_named :
    ∀ (fuel : Nat) (p : Parser) (acc r : List Annotation) (q : Parser), p.named →
      (∀ a ∈ acc, kindOfValue a.Value = some a.Kind) →
      annotationLoop fuel p acc = .done r q →
      (∀ a ∈ r, kindOfValue a.Value = some a.Kind) ∧ q.named := by
  intro fuel
  induction fuel with
  | zero => intro p acc r q _ _ h; exact Outcome.noConfusion h
  | succ fuel ih =>
    intro p acc r q hp hacc h
    rw [annotationLoop] at h
    split at h
    · cases ha : parseAnnotation p with
      | error e => rw [ha] at h; exact Outcome.noConfusion h
      | ok a =>
        rw [ha] at h
        refine ih p.next (acc ++ [a]) r q (named_next p hp) ?_ h
        intro b hb
        rcases List.mem_append.mp hb with hb | hb
        · exact hacc b hb
        · rw [List.mem_singleton] at hb
          rw [hb]
          exact parseAnnotation_kind p a ha
    · injection h with h1 h2
      subst h1 h2
      exact ⟨hacc, hp⟩

theorem parsers_named (fuel : Nat) :
    (∀ p n q, p.named → parseSequence fuel p = .done n q → wellFormed n = true ∧ q.named) ∧
    (∀ p acc r q, p.named → wellFormedAll acc = true → sequenceLoop fuel p acc = .done r q →
      wellFormedAll r = true ∧ q.named) ∧
    (∀ p n q, p.named → parsePrim fuel p = .done n q → wellFormed n = true ∧ q.named) ∧
    (∀ p acc r q, p.named → wellFormedAll acc = true → argumentLoop fuel p acc = .done r q →
      wellFormedAll r = true ∧ q.named) := by
  induction fuel with
  | zero =>
    exact ⟨fun _ _ _ _ h => Outcome.noConfusion h, fun _ _ _ _ _ _ h => Outcome.noConfusion h,
      fun _ _ _ _ h => Outcome.noConfusion h, fun _ _ _ _ _ _ h => Outcome.noConfusion h⟩
  | succ fuel ih =>
    obtain ⟨ihS, ihSL, ihP, ihAL⟩ := ih
    refine ⟨?_, ?_, ?_, ?_⟩
    · intro p n q hp h
      rw [parseSequence] at h
      cases he : p.expect Kind.Open_brace with
      | error e => simp [he] at h
      | ok b =>
        simp only [he] at h
        cases hl : sequenceLoop fuel p.next [] with
        | timeout => simp [hl] at h
        | fail e => simp [hl] at h
        | done elements p1 =>
          simp only [hl] at h
          obtain ⟨hw, hq⟩ := ihSL p.next [] elements p1 (named_next p hp) rfl hl
          cases hc : p1.expect Kind.Close_brace with
          | error e => simp [hc] at h
          | ok c =>
            simp only [hc] at h
            injection h with h1 h2
            subst h1 h2
            exact ⟨by simpa [wellFormed] using hw, named_next p1 hq⟩
    · intro p acc r q hp hacc h
      rw [sequenceLoop] at h
      split at h
      · injection h with h1 h2
        subst h1 h2
        exact ⟨hacc, hp⟩
      · have hchild : ∀ (c : Outcome Node),
            (∀ n p1, c = .done n p1 → wellFormed n = true ∧ p1.named) →
            (match c with
              | .timeout => Outcome.timeout
              | .fail e => Outcome.fail e
              | .done n p1 =>
                if p1.token_kind ≠ Kind.Close_brace then
                  match p1.expect Kind.Semi with
                  | .error e => Outcome.fail e
                  | .ok _ => sequenceLoop fuel p1.next (acc ++ [n])
                else sequenceLoop fuel p1 (acc ++ [n])) = Outcome.done r q →
            wellFormedAll r = true ∧ q.named := by
          intro c hc hres
          cases c with
          | timeout => exact Outcome.noConfusion hres
          | fail e => exact Outcome.noConfusion hres
          | done n p1 =>
            obtain ⟨hn, hp1⟩ := hc n p1 rfl
            have hacc2 : wellFormedAll (acc ++ [n]) = true := by
              rw [wellFormedAll_append, hacc, hn]; rfl
            simp only at hres
            split at hres
            · cases hs : p1.expect Kind.Semi with
              | error e => simp [hs] at hres
              | ok s =>
                simp only [hs] at hres
                exact ihSL p1.next _ r q (named_next p1 hp1) hacc2 hres
            · exact ihSL p1 _ r q hp1 hacc2 hres
        refine hchild _ ?_ h
        intro n p1 hc
        cases hk : p.token_kind <;> rw [hk] at hc <;>
          first
          | exact Outcome.noConfusion hc
          | exact parseBytes_named p n p1 hp hc
          | exact parseString_named p n p1 hp hc
          | exact parseInt_named p n p1 hp hc
          | exact ihP p n p1 hp hc
          | exact ihS p n p1 hp hc
    · intro p n q hp h
      rw [parsePrim] at h
      cases he : p.expect Kind.Identifier with
      | error e => simp [he] at h
      | ok b =>
        simp only [he] at h
        have hkind : p.token_kind = Kind.Identifier := by
          unfold Parser.expect at he
          split at he
          · assumption
          · exact Except.noConfusion he
        cases hl : annotationLoop fuel p.next [] with
        | timeout => simp [hl] at h
        | fail e => simp [hl] at h
        | done annotations p1 =>
          simp only [hl] at h
          obtain ⟨hann, hp1⟩ := annotationLoop_named fuel p.next [] annotations p1
            (named_next p hp) (fun a ha => absurd ha (List.not_mem_nil a)) hl
          cases hg : argumentLoop fuel p1 [] with
          | timeout => simp [hg] at h
          | fail e => simp [hg] at h
          | done arguments p2 =>
            simp only [hg] at h
            obtain ⟨hargs, hp2⟩ := ihAL p1 [] arguments p2 hp1 rfl hg
            injection h with h1 h2
            subst h1 h2
            refine ⟨?_, hp2⟩
            simp only [wellFormed, Bool.and_eq_true, bne_iff_ne, ne_eq, List.all_eq_true,
              beq_iff_eq]
            exact ⟨⟨hp.1 hkind, hann⟩, hargs⟩
    · intro p acc r q hp hacc h
      rw [argumentLoop] at h
      have hstep : ∀ (c : Outcome Node),
          (∀ n p1, c = .done n p1 → wellFormed n = true ∧ p1.named) →
          (match c with
            | .timeout => Outcome.timeout
            | .fail e => Outcome.fail e
            | .done n p1 => argumentLoop fuel p1 (acc ++ [n])) = Outcome.done r q →
          wellFormedAll r = true ∧ q.named := by
        intro c hc hres
        cases c with
        | timeout => exact Outcome.noConfusion hres
        | fail e => exact Outcome.noConfusion hres
        | done n p1 =>
          obtain ⟨hn, hp1⟩ := hc n p1 rfl
          have hacc2 : wellFormedAll (acc ++ [n]) = true := by
            rw [wellFormedAll_append, hacc, hn]; rfl
          exact ihAL p1 _ r q hp1 hacc2 hres
      cases hk : p.token_kind <;> rw [hk] at h <;> simp only at h
      case Bytes => exact hstep _ (fun n p1 hc => parseBytes_named p n p1 hp hc) h
      case String => exact hstep _ (fun n p1 hc => parseString_named p n p1 hp hc) h
      case Int => exact hstep _ (fun n p1 hc => parseInt_named p n p1 hp hc) h
      case Identifier => exact hstep _ (fun n p1 hc => ihP p n p1 hp hc) h
      case Open_brace => exact hstep _ (fun n p1 hc => ihS p n p1 hp hc) h
      all_goals
        injection h with h1 h2
        subst h1 h2
        exact ⟨hacc, hp⟩

/-- The tree returned by `Parse` on named identifiers satisfies the data-model
invariants. -/
theorem Parse_wellFormed (fuel : Nat) (ts : List Token) (n : Node) (q : Parser)
    (hts : namedIdentifiers ts) (h : Parse fuel (Parser.Init ts) = .done n q) :
    wellFormed n = true := by
  have hp : (Parser.Init ts).next.named := named_next _
    ⟨fun hk => absurd hk (show Kind.EOF ≠ Kind.Identifier by decide), hts⟩
  unfold Parse at h
  simp only at h
  cases hk : (Parser.Init ts).next.token_kind <;> rw [hk] at h <;> simp only at h
  case Bytes => exact (parseBytes_named _ n q hp h).1
  case String => exact (parseString_named _ n q hp h).1
  case Int => exact (parseInt_named _ n q hp h).1
  case Identifier => exact ((parsers_named fuel).2.2.1 _ n q hp h).1
  case Open_brace => exact ((parsers_named fuel).1 _ n q hp h).1
  all_goals exact Outcome.noConfusion h

/-! ## C10: the tree-to-JSON mapping is lossless -/

/-- C10: for any two trees `a` and `b`, each produced by the Parser (from tokens whose
identifiers are not empty) or satisfying the data-model invariants, if `translateAST`
maps them to the same value then they are structurally equal ignoring positions. -/
theorem translateAST_lossless (a b : Node)
    (ha : ParserProduced a ∨ wellFormed a = true)
    (hb : ParserProduced b ∨ wellFormed b = true)
    (h : translateAST a = translateAST b) : erasePositions a = erasePositions b := by
  have hwa : wellFormed a = true := by
    rcases ha with ⟨fuel, ts, q, hts, hp⟩ | ha
    · exact Parse_wellFormed fuel ts a q hts hp
    · exact ha
  have hwb : wellFormed b = true := by
    rcases hb with ⟨fuel, ts, q, hts, hp⟩ | hb
    · exact Parse_wellFormed fuel ts b q hts hp
    · exact hb
  obtain ⟨j, hj⟩ := translateAST_total_node a hwa
  exact translateAST_inj_node a b j hwa hwb hj (h ▸ hj)

/-- C10, witness: the tree parsed from `foo %a 0x0a` and the same tree placed elsewhere
in a text. -/
theorem translateAST_lossless_witness :
    erasePositions
        (Node.Prim ⟨0, 12⟩ "foo" [⟨⟨4, 5⟩, FieldAnnotation, "%a"⟩] [Node.Bytes ⟨7, 10⟩ "0x0a"]) =
      erasePositions
        (Node.Prim ⟨20, 32⟩ "foo" [⟨⟨24, 25⟩, FieldAnnotation, "%a"⟩]
          [Node.Bytes ⟨27, 30⟩ "0x0a"]) :=
  translateAST_lossless _ _
    (Or.inl ⟨3, [⟨0, Kind.Identifier, "foo"⟩, ⟨4, Kind.Annot, "%a"⟩, ⟨7, Kind.Bytes, "0x0a"⟩,
      ⟨12, Kind.EOF, ""⟩], Parser.reading [⟨12, Kind.EOF, ""⟩],
      by unfold namedIdentifiers; decide, rfl⟩)
    (Or.inr rfl) rfl

/-! ## The parser as rules: one induction for every property of finished parses -/

theorem Parse_eq_parseNode (fuel : Nat) (p : Parser) : Parse fuel p = parseNode fuel p.next :=
  rfl

theorem sequenceLoop_succ (fuel : Nat) (p : Parser) (acc : List Node) :
    sequenceLoop (fuel + 1) p acc =
      if p.token_kind = Kind.Close_brace then .done acc p
      else
        match parseNode fuel p with
        | .timeout => .timeout
        | .fail e => .fail e
        | .done n p1 =>
          if p1.token_kind ≠ Kind.Close_brace then
            match p1.expect Kind.Semi with
            | .error e => .fail e
            | .ok _ => sequenceLoop fuel p1.next (acc ++ [n])
          else sequenceLoop fuel p1 (acc ++ [n]) := by
  rw [sequenceLoop]
  rfl

theorem argumentLoop_succ (fuel : Nat) (p : Parser) (acc : List Node) :
    argumentLoop (fuel + 1) p acc =
      if startsNode p.token_kind = true then
        match parseNode fuel p with
        | .timeout => .timeout
        | .fail e => .fail e
        | .done n p1 => argumentLoop fuel p1 (acc ++ [n])
      else .done acc p := by
  rw [argumentLoop]
  cases hk : p.token_kind <;> simp [startsNode, parseNode, hk]

theorem expect_ok_iff (p : Parser) (k : Kind) (pos : Int) :
    p.expect k = .ok pos ↔ p.token_kind = k ∧ pos = p.token_position := by
  unfold Parser.expect
  split
  · rename_i h
    simp only [Except.ok.injEq, h, true_and]
    exact eq_comm
  · rename_i h
    simp [h]

theorem expect_of_kind (p : Parser) (k : Kind) (h : p.token_kind = k) :
    p.expect k = .ok p.token_position := by
  simp [Parser.expect, h]

theorem expect_of_ne (p : Parser) (k : Kind) (h : p.token_kind ≠ k) :
    p.expect k = .error (.expected k p.token_kind) := by
  simp [Parser.expect, h]

theorem parseSequence_succ (fuel : Nat) (p : Parser) :
    parseSequence (fuel + 1) p =
      if p.token_kind = Kind.Open_brace then
        match sequenceLoop fuel p.next [] with
        | .timeout => .timeout
        | .fail e => .fail e
        | .done elements p1 =>
          if p1.token_kind = Kind.Close_brace then
            .done (Node.Sequence ⟨p.token_position, p1.token_position⟩ elements) p1.next
          else .fail (.expected Kind.Close_brace p1.token_kind)
      else .fail (.expected Kind.Open_brace p.token_kind) := by
  rw [parseSequence]
  by_cases h : p.token_kind = Kind.Open_brace
  · rw [expect_of_kind p _ h, if_pos h]
    simp only
    cases sequenceLoop fuel p.next [] with
    | timeout => rfl
    | fail e => rfl
    | done elements p1 =>
      simp only
      by_cases hc : p1.token_kind = Kind.Close_brace
      · rw [expect_of_kind p1 _ hc, if_pos hc]
      · rw [expect_of_ne p1 _ hc, if_neg hc]
  · rw [expect_of_ne p _ h, if_neg h]

theorem parsePrim_succ (fuel : Nat) (p : Parser) :
    parsePrim (fuel + 1) p =
      if p.token_kind = Kind.Identifier then
        match annotationLoop fuel p.next [] with
        | .timeout => .timeout
        | .fail e => .fail e
        | .done annotations p1 =>
          match argumentLoop fuel p1 [] with
          | .timeout => .timeout
          | .fail e => .fail e
          | .done arguments p2 =>
            .done (Node.Prim ⟨p.token_position, p2.token_position⟩ p.token_text annotations
              arguments) p2
      else .fail (.expected Kind.Identifier p.token_kind) := by
  rw [parsePrim]
  by_cases h : p.token_kind = Kind.Identifier
  · rw [expect_of_kind p _ h, if_pos h]
  · rw [expect_of_ne p _ h, if_neg h]

/-- The rules by which the parsing functions finish: whatever is preserved by each rule
holds of every finished call. `C` speaks of `parseNode`, `S` of `parseSequence`, `L` of
its loop, `P` of `parsePrim`, `A` of its argument loop. -/
theorem parser_induction
    {C S P : Nat → Parser → Node → Parser → Prop}
    {L A : Nat → Parser → List Node → List Node → Parser → Prop}
    (cBytes : ∀ f p n q, p.token_kind = Kind.Bytes → parseBytes p = .done n q → C f p n q)
    (cString : ∀ f p n q, p.token_kind = Kind.String → parseString p = .done n q → C f p n q)
    (cInt : ∀ f p n q, p.token_kind = Kind.Int → parseInt p = .done n q → C f p n q)
    (cPrim : ∀ f p n q, p.token_kind = Kind.Identifier → parsePrim f p = .done n q →
      P f p n q → C f p n q)
    (cSeq : ∀ f p n q, p.token_kind = Kind.Open_brace → parseSequence f p = .done n q →
      S f p n q → C f p n q)
    (sIntro : ∀ f p els p1, p.token_kind = Kind.Open_brace →
      sequenceLoop f p.next [] = .done els p1 → L f p.next [] els p1 →
      p1.token_kind = Kind.Close_brace →
      S (f + 1) p (Node.Sequence ⟨p.token_position, p1.token_position⟩ els) p1.next)
    (slDone : ∀ f p acc, p.token_kind = Kind.Close_brace → L (f + 1) p acc acc p)
    (slSemi : ∀ f p acc n p1 r q, p.token_kind ≠ Kind.Close_brace →
      parseNode f p = .done n p1 → C f p n p1 → p1.token_kind = Kind.Semi →
      sequenceLoop f p1.next (acc ++ [n]) = .done r q → L f p1.next (acc ++ [n]) r q →
      L (f + 1) p acc r q)
    (slClose : ∀ f p acc n p1 r q, p.token_kind ≠ Kind.Close_brace →
      parseNode f p = .done n p1 → C f p n p1 → p1.token_kind = Kind.Close_brace →
      sequenceLoop f p1 (acc ++ [n]) = .done r q → L f p1 (acc ++ [n]) r q →
      L (f + 1) p acc r q)
    (pIntro : ∀ f p annots p1 args p2, p.token_kind = Kind.Identifier →
      annotationLoop f p.next [] = .done annots p1 →
      argumentLoop f p1 [] = .done args p2 → A f p1 [] args p2 →
      P (f + 1) p (Node.Prim ⟨p.token_position, p2.token_position⟩ p.token_text annots args)
        p2)
    (alDone : ∀ f p acc, startsNode p.token_kind = false → A (f + 1) p acc acc p)
    (alStep : ∀ f p acc n p1 r q, startsNode p.token_kind = true →
      parseNode f p = .done n p1 → C f p n p1 →
      argumentLoop f p1 (acc ++ [n]) = .done r q → A f p1 (acc ++ [n]) r q →
      A (f + 1) p acc r q) :
    ∀ f, (∀ p n q, parseSequence f p = .done n q → S f p n q) ∧
      (∀ p acc r q, sequenceLoop f p acc = .done r q → L f p acc r q) ∧
      (∀ p n q, parsePrim f p = .done n q → P f p n q) ∧
      (∀ p acc r q, argumentLoop f p acc = .done r q → A f p acc r q) ∧
      (∀ p n q, parseNode f p = .done n q → C f p n q) := by
  have hC : ∀ f, (∀ p n q, parseSequence f p = .done n q → S f p n q) →
      (∀ p n q, parsePrim f p = .done n q → P f p n q) →
      ∀ p n q, parseNode f p = .done n q → C f p n q := by
    intro f hS hP p n q h
    unfold parseNode at h
    cases hk : p.token_kind <;> rw [hk] at h <;> simp only at h
    case Bytes => exact cBytes f p n q hk h
    case String => exact cString f p n q hk h
    case Int => exact cInt f p n q hk h
    case Identifier => exact cPrim f p n q hk h (hP p n q h)
    case Open_brace => exact cSeq f p n q hk h (hS p n q h)
    all_goals exact Outcome.noConfusion h
  intro f
  induction f with
  | zero =>
    have h1 : ∀ p n q, parseSequence 0 p = .done n q → S 0 p n q :=
      fun _ _ _ h => Outcome.noConfusion h
    have h3 : ∀ p n q, parsePrim 0 p = .done n q → P 0 p n q :=
      fun _ _ _ h => Outcome.noConfusion h
    exact ⟨h1, fun _ _ _ _ h => Outcome.noConfusion h, h3,
      fun _ _ _ _ h => Outcome.noConfusion h, hC 0 h1 h3⟩
  | succ f ih =>
    obtain ⟨ihS, ihSL, ihP, ihAL, ihC⟩ := ih
    have h1 : ∀ p n q, parseSequence (f + 1) p = .done n q → S (f + 1) p n q := by
      intro p n q h
      rw [parseSequence_succ] at h
      split at h
      · rename_i hk
        cases hl : sequenceLoop f p.next [] with
        | timeout => simp [hl] at h
        | fail e => simp [hl] at h
        | done els p1 =>
          simp only [hl] at h
          split at h
          · rename_i hc
            injection h with hn hq
            subst hn hq
            exact sIntro f p els p1 hk hl (ihSL _ _ _ _ hl) hc
          · exact Outcome.noConfusion h
      · exact Outcome.noConfusion h
    have h2 : ∀ p acc r q, sequenceLoop (f + 1) p acc = .done r q → L (f + 1) p acc r q := by
      intro p acc r q h
      rw [sequenceLoop_succ] at h
      split at h
      · rename_i hk
        injection h with hr hq
        subst hr hq
        exact slDone f p acc hk
      · rename_i hk
        cases hc : parseNode f p with
        | timeout => simp [hc] at h
        | fail e => simp [hc] at h
        | done n p1 =>
          simp only [hc] at h
          split at h
          · rename_i hne
            by_cases hs : p1.token_kind = Kind.Semi
            · rw [expect_of_kind p1 _ hs] at h
              simp only at h
              exact slSemi f p acc n p1 r q hk hc (ihC p n p1 hc) hs h (ihSL _ _ _ _ h)
            · rw [expect_of_ne p1 _ hs] at h
              exact Outcome.noConfusion h
          · rename_i hcl
            have hcl2 : p1.token_kind = Kind.Close_brace := not_not.mp hcl
            exact slClose f p acc n p1 r q hk hc (ihC p n p1 hc) hcl2 h (ihSL _ _ _ _ h)
    have h3 : ∀ p n q, parsePrim (f + 1) p = .done n q → P (f + 1) p n q := by
      intro p n q h
      rw [parsePrim_succ] at h
      split at h
      · rename_i hk
        cases hl : annotationLoop f p.next [] with
        | timeout => simp [hl] at h
        | fail e => simp [hl] at h
        | done annots p1 =>
          simp only [hl] at h
          cases hg : argumentLoop f p1 [] with
          | timeout => simp [hg] at h
          | fail e => simp [hg] at h
          | done args p2 =>
            simp only [hg] at h
            injection h with hn hq
            subst hn hq
            exact pIntro f p annots p1 args p2 hk hl hg (ihAL _ _ _ _ hg)
      · exact Outcome.noConfusion h
    have h4 : ∀ p acc r q, argumentLoop (f + 1) p acc = .done r q → A (f + 1) p acc r q := by
      intro p acc r q h
      rw [argumentLoop_succ] at h
      split at h
      · rename_i hk
        cases hc : parseNode f p with
        | timeout => simp [hc] at h
        | fail e => simp [hc] at h
        | done n p1 =>
          simp only [hc] at h
          exact alStep f p acc n p1 r q hk hc (ihC p n p1 hc) h (ihAL _ _ _ _ h)
      · rename_i hk
        injection h with hr hq
        subst hr hq
        exact alDone f p acc (by simpa using hk)
    exact ⟨h1, h2, h3, h4, hC (f + 1) h1 h3⟩

/-! ## Token streams -/

theorem reading_nil_kind : (Parser.reading []).token_kind = Kind.EOF := rfl

theorem reading_tail (s : List Token) : (Parser.reading s).next = Parser.reading s.tail := by
  cases s <;> rfl

theorem exists_cons_of_reading (p : Parser) (s : List Token) (hp : p = Parser.reading s)
    (hk : p.token_kind ≠ Kind.EOF) :
    ∃ t ts, s = t :: ts ∧ t.kind = p.token_kind ∧ t.position = p.token_position ∧
      t.text = p.token_text ∧ p.next = Parser.reading ts := by
  subst hp
  cases s with
  | nil => exact absurd reading_nil_kind hk
  | cons t ts => exact ⟨t, ts, rfl, rfl, rfl, rfl, rfl⟩

theorem sameHead_refl (s : List Token) : sameHead s s := rfl

theorem sameHead_cons (t : Token) (a b : List Token) : sameHead (t :: a) (t :: b) := rfl

theorem sameHead_append (c a b : List Token) (h : sameHead a b) :
    sameHead (c ++ a) (c ++ b) := by
  cases c with
  | nil => exact h
  | cons t c => exact sameHead_cons t _ _

theorem sameHead_kind {a b : List Token} (h : sameHead a b) :
    (Parser.reading b).token_kind = (Parser.reading a).token_kind :=
  (congrArg Token.kind h).symm

theorem sameHead_position {a b : List Token} (h : sameHead a b) :
    (Parser.reading b).token_position = (Parser.reading a).token_position :=
  (congrArg Token.position h).symm

theorem noEOF_nil : noEOF [] := fun _ h => absurd h (List.not_mem_nil _)

theorem noEOF_singleton (t : Token) (h : t.kind ≠ Kind.EOF) : noEOF [t] := by
  intro u hu
  rw [List.mem_singleton] at hu
  rw [hu]
  exact h

theorem noEOF_append {a b : List Token} (ha : noEOF a) (hb : noEOF b) : noEOF (a ++ b) := by
  intro u hu
  rcases List.mem_append.mp hu with h | h
  · exact ha u h
  · exact hb u h

theorem balance_append (a b : List Token) : balance (a ++ b) = balance a + balance b := by
  induction a with
  | nil => simp [balance]
  | cons t a ih =>
    show _ + balance (a ++ b) = _ + balance a + balance b
    rw [ih, add_assoc]

theorem balance_singleton (t : Token) :
    balance [t] =
      if t.kind = Kind.Open_brace then 1 else if t.kind = Kind.Close_brace then -1 else 0 := by
  simp [balance]

/-! ## What a finished call consumed, and what it looked at -/

theorem parseBytes_done (p : Parser) (n : Node) (q : Parser) (h : parseBytes p = .done n q) :
    p.token_kind = Kind.Bytes ∧ q = p.next ∧
      n = Node.Bytes ⟨p.token_position, p.token_position + len p.token_text - 1⟩
        p.token_text ∧
      isHex p.token_text = true := by
  unfold parseBytes at h
  split at h
  · exact Outcome.noConfusion h
  · rename_i pos he
    obtain ⟨hk, rfl⟩ := (expect_ok_iff p _ pos).mp he
    split at h
    · exact Outcome.noConfusion h
    · rename_i hcond
      simp only [Bool.or_eq_true, Bool.not_eq_true', decide_eq_true_eq, not_or,
        Bool.not_eq_false] at hcond
      injection h with h1 h2
      exact ⟨hk, h2.symm, h1.symm, hcond.1⟩

theorem parseString_done (p : Parser) (n : Node) (q : Parser)
    (h : parseString p = .done n q) :
    p.token_kind = Kind.String ∧ q = p.next ∧
      n = Node.String ⟨p.token_position, p.token_position + len p.token_text + 1⟩
        p.token_text := by
  unfold parseString at h
  split at h
  · exact Outcome.noConfusion h
  · rename_i pos he
    obtain ⟨hk, rfl⟩ := (expect_ok_iff p _ pos).mp he
    injection h with h1 h2
    exact ⟨hk, h2.symm, h1.symm⟩

theorem parseInt_done (p : Parser) (n : Node) (q : Parser) (h : parseInt p = .done n q) :
    p.token_kind = Kind.Int ∧ q = p.next ∧
      ∃ v, ParseInt p.token_text = some v ∧
        n = Node.Int ⟨p.token_position, p.token_position + len p.token_text - 1⟩ v := by
  unfold parseInt at h
  split at h
  · exact Outcome.noConfusion h
  · rename_i pos he
    obtain ⟨hk, rfl⟩ := (expect_ok_iff p _ pos).mp he
    split at h
    · exact Outcome.noConfusion h
    · rename_i v hv
      injection h with h1 h2
      exact ⟨hk, h2.symm, v, hv, h1.symm⟩

/-- A leaf parser looks at the current token only. -/
theorem leaf_frame (F : Parser → Outcome Node) (k : Kind) (hk0 : k ≠ Kind.EOF)
    (hk1 : k ≠ Kind.Open_brace) (hk2 : k ≠ Kind.Close_brace)
    (hF : ∀ p n q, F p = .done n q → p.token_kind = k ∧ q = p.next)
    (hloc : ∀ (t : Token) (a b : List Token) (n : Node),
      F (Parser.reading (t :: a)) = .done n (Parser.reading a) →
      F (Parser.reading (t :: b)) = .done n (Parser.reading b))
    (p : Parser) (n : Node) (q : Parser) (h : F p = .done n q) : Framed F true p n q := by
  intro s hs
  obtain ⟨hk, hq⟩ := hF p n q h
  obtain ⟨t, ts, rfl, htk, -, -, hnext⟩ := exists_cons_of_reading p s hs (by rw [hk]; exact hk0)
  rw [hk] at htk
  refine ⟨[t], ts, rfl, fun _ => by simp, noEOF_singleton t (by rw [htk]; exact hk0), ?_,
    by rw [hq, hnext], ?_⟩
  · rw [balance_singleton, htk, if_neg hk1, if_neg hk2]
  · intro s2 _
    apply hloc t ts s2 n
    rw [← hs, h, hq, hnext]

theorem parseAnnotation_local (t : Token) (a b : List Token) :
    parseAnnotation (Parser.reading (t :: a)) = parseAnnotation (Parser.reading (t :: b)) := rfl

theorem annotationLoop_succ (fuel : Nat) (p : Parser) (acc : List Annotation) :
    annotationLoop (fuel + 1) p acc =
      if p.token_kind = Kind.Annot then
        match parseAnnotation p with
        | .error e => .fail e
        | .ok a => annotationLoop fuel p.next (acc ++ [a])
      else .done acc p := by
  rw [annotationLoop]

/-- The annotation loop consumes annotation tokens only, and looks one token further. -/
theorem annotationLoop_framed :
    ∀ (f : Nat) (p : Parser) (acc r : List Annotation) (q : Parser),
      annotationLoop f p acc = .done r q →
      Framed (fun p => annotationLoop f p acc) false p r q := by
  intro f
  induction f with
  | zero => intro p acc r q h; exact Outcome.noConfusion h
  | succ f ih =>
    intro p acc r q h s hs
    rw [annotationLoop_succ] at h
    split at h
    · rename_i hk
      cases ha : parseAnnotation p with
      | error e => simp [ha] at h
      | ok a =>
        simp only [ha] at h
        obtain ⟨t, ts, rfl, htk, -, -, hnext⟩ :=
          exists_cons_of_reading p _ hs (by rw [hk]; decide)
        rw [hk] at htk
        obtain ⟨c, s', hts, -, hno, hbal, hq, hframe⟩ := ih p.next _ r q h ts hnext
        refine ⟨t :: c, s', by rw [hts]; rfl, fun h => absurd h (by decide),
          noEOF_append (noEOF_singleton t (by rw [htk]; decide)) hno, ?_, hq, ?_⟩
        · have := balance_append [t] c
          rw [List.singleton_append] at this
          rw [this, balance_singleton, htk, hbal]
          simp
        · intro s2 hs2
          have hk2 : (Parser.reading (t :: c ++ s2)).token_kind = Kind.Annot := htk
          have ha2 : parseAnnotation (Parser.reading (t :: c ++ s2)) = .ok a := by
            rw [← ha, hs]
            exact parseAnnotation_local t _ _
          simp only [annotationLoop_succ, hk2, if_true, ha2]
          exact hframe s2 hs2
    · rename_i hk
      injection h with hr hq
      subst hr hq
      refine ⟨[], s, rfl, fun h => absurd h (by decide), noEOF_nil, rfl, hs, ?_⟩
      intro s2 hs2
      have hk2 : (Parser.reading ([] ++ s2)).token_kind ≠ Kind.Annot := by
        rw [List.nil_append, sameHead_kind hs2, ← hs]
        exact hk
      simp only [annotationLoop_succ, hk2, if_false]
      rfl

theorem parseBytes_local (t : Token) (a b : List Token) (n : Node)
    (h : parseBytes (Parser.reading (t :: a)) = .done n (Parser.reading a)) :
    parseBytes (Parser.reading (t :: b)) = .done n (Parser.reading b) := by
  obtain ⟨hk, -, hn, hhex⟩ := parseBytes_done _ _ _ h
  have hlen : ¬ len t.text % 2 = 1 := by
    intro hodd
    simp [parseBytes, Parser.expect, reading_kind, reading_text, show t.kind = Kind.Bytes from hk,
      hodd] at h
  rw [hn]
  simp [parseBytes, Parser.expect, reading_kind, reading_text, reading_position, reading_next,
    show t.kind = Kind.Bytes from hk, show isHex t.text = true from hhex, hlen]

theorem parseString_local (t : Token) (a b : List Token) (n : Node)
    (h : parseString (Parser.reading (t :: a)) = .done n (Parser.reading a)) :
    parseString (Parser.reading (t :: b)) = .done n (Parser.reading b) := by
  obtain ⟨hk, -, hn⟩ := parseString_done _ _ _ h
  rw [hn]
  simp [parseString, Parser.expect, reading_kind, reading_text, reading_position, reading_next,
    show t.kind = Kind.String from hk]

theorem parseInt_local (t : Token) (a b : List Token) (n : Node)
    (h : parseInt (Parser.reading (t :: a)) = .done n (Parser.reading a)) :
    parseInt (Parser.reading (t :: b)) = .done n (Parser.reading b) := by
  obtain ⟨hk, -, v, hv, hn⟩ := parseInt_done _ _ _ h
  rw [hn]
  simp [parseInt, Parser.expect, reading_kind, reading_text, reading_position, reading_next,
    show t.kind = Kind.Int from hk, show ParseInt t.text = some v from hv]

/-- A framed call of the parsing function that `parseNode` selects is a framed call of
`parseNode`. -/
theorem Framed.to_parseNode (f : Nat) (G : Parser → Outcome Node) (k : Kind)
    (hG : ∀ p, p.token_kind = k → parseNode f p = G p) {p : Parser} {n : Node} {q : Parser}
    (hk : p.token_kind = k) (h : Framed G true p n q) : Framed (parseNode f) true p n q := by
  intro s hs
  obtain ⟨c, s', hcs, hne, hno, hbal, hq, hframe⟩ := h s hs
  refine ⟨c, s', hcs, hne, hno, hbal, hq, ?_⟩
  intro s2 hs2
  rw [← hframe s2 hs2]
  apply hG
  cases c with
  | nil => exact absurd rfl (hne rfl)
  | cons t c =>
    rw [hs, hcs] at hk
    exact hk

theorem parsers_framed (f : Nat) :
    (∀ p n q, parseSequence f p = .done n q → Framed (parseSequence f) true p n q) ∧
      (∀ p acc r q, sequenceLoop f p acc = .done r q →
        Framed (fun p => sequenceLoop f p acc) false p r q) ∧
      (∀ p n q, parsePrim f p = .done n q → Framed (parsePrim f) true p n q) ∧
      (∀ p acc r q, argumentLoop f p acc = .done r q →
        Framed (fun p => argumentLoop f p acc) false p r q) ∧
      (∀ p n q, parseNode f p = .done n q → Framed (parseNode f) true p n q) := by
  refine parser_induction
    (C := fun f p n q => Framed (parseNode f) true p n q)
    (S := fun f p n q => Framed (parseSequence f) true p n q)
    (P := fun f p n q => Framed (parsePrim f) true p n q)
    (L := fun f p acc r q => Framed (fun p => sequenceLoop f p acc) false p r q)
    (A := fun f p acc r q => Framed (fun p => argumentLoop f p acc) false p r q)
    ?_ ?_ ?_ ?_ ?_ ?_ ?_ ?_ ?_ ?_ ?_ ?_ f
  · -- bytes
    intro f p n q hk h
    refine Framed.to_parseNode f parseBytes Kind.Bytes (fun p hp => by simp [parseNode, hp]) hk
      (leaf_frame parseBytes Kind.Bytes (by decide) (by decide) (by decide)
        (fun p n q h => ⟨(parseBytes_done p n q h).1, (parseBytes_done p n q h).2.1⟩)
        parseBytes_local p n q h)
  · intro f p n q hk h
    refine Framed.to_parseNode f parseString Kind.String (fun p hp => by simp [parseNode, hp])
      hk (leaf_frame parseString Kind.String (by decide) (by decide) (by decide)
        (fun p n q h => ⟨(parseString_done p n q h).1, (parseString_done p n q h).2.1⟩)
        parseString_local p n q h)
  · intro f p n q hk h
    refine Framed.to_parseNode f parseInt Kind.Int (fun p hp => by simp [parseNode, hp]) hk
      (leaf_frame parseInt Kind.Int (by decide) (by decide) (by decide)
        (fun p n q h => ⟨(parseInt_done p n q h).1, (parseInt_done p n q h).2.1⟩)
        parseInt_local p n q h)
  · intro f p n q hk _ hP
    exact Framed.to_parseNode f (parsePrim f) Kind.Identifier
      (fun p hp => by simp [parseNode, hp]) hk hP
  · intro f p n q hk _ hS
    exact Framed.to_parseNode f (parseSequence f) Kind.Open_brace
      (fun p hp => by simp [parseNode, hp]) hk hS
  · -- sIntro
    intro f p els p1 hk _ hSL hc s hs
    obtain ⟨opn, s0, rfl, hok, hop, -, hnext⟩ :=
      exists_cons_of_reading p s hs (by rw [hk]; decide)
    rw [hk] at hok
    obtain ⟨c, s1, rfl, -, hno, hbal, hp1, hframe⟩ := hSL s0 hnext
    obtain ⟨cls, s2, rfl, hck, hcp, -, hnext1⟩ :=
      exists_cons_of_reading p1 s1 hp1 (by rw [hc]; decide)
    rw [hc] at hck
    refine ⟨opn :: (c ++ [cls]), s2, by simp, fun _ => by simp, ?_, ?_, hnext1, ?_⟩
    · exact noEOF_append (noEOF_singleton opn (by rw [hok]; decide))
        (noEOF_append hno (noEOF_singleton cls (by rw [hck]; decide)))
    · have h1 := balance_append [opn] (c ++ [cls])
      rw [List.singleton_append] at h1
      rw [h1, balance_append, balance_singleton, balance_singleton, hok, hck, hbal]
      simp
    · intro s3 _
      have hl := hframe (cls :: s3) (sameHead_cons cls s2 s3)
      have hk3 : (Parser.reading (opn :: (c ++ [cls]) ++ s3)).token_kind = Kind.Open_brace :=
        hok
      have hn3 : (Parser.reading (opn :: (c ++ [cls]) ++ s3)).next =
          Parser.reading (c ++ cls :: s3) := by
        rw [List.cons_append, reading_next]; simp
      have hp3 : (Parser.reading (opn :: (c ++ [cls]) ++ s3)).token_position =
          opn.position := rfl
      simp only [parseSequence_succ, hk3, if_true, hn3, hl, reading_kind, hck, reading_next,
        reading_position, hp3, ← hop, ← hcp]
  · -- slDone
    intro f p acc hk s hs
    refine ⟨[], s, rfl, fun h => absurd h (by decide), noEOF_nil, rfl, hs, ?_⟩
    intro s2 hs2
    have hk2 : (Parser.reading ([] ++ s2)).token_kind = Kind.Close_brace := by
      rw [List.nil_append, sameHead_kind hs2, ← hs]
      exact hk
    simp only [sequenceLoop_succ, hk2, if_true]
    rfl
  · -- slSemi
    intro f p acc n p1 r q hk _ hC hsemi _ hSL s hs
    obtain ⟨c1, s1, rfl, hne1, hno1, hbal1, hp1, hframe1⟩ := hC s hs
    obtain ⟨semi, s1', rfl, hsk, -, -, hnext1⟩ :=
      exists_cons_of_reading p1 s1 hp1 (by rw [hsemi]; decide)
    rw [hsemi] at hsk
    obtain ⟨c2, s2, rfl, -, hno2, hbal2, hq, hframe2⟩ := hSL s1' hnext1
    refine ⟨c1 ++ semi :: c2, s2, by simp, fun h => absurd h (by decide), ?_, ?_, hq, ?_⟩
    · exact noEOF_append hno1
        (noEOF_append (noEOF_singleton semi (by rw [hsk]; decide)) hno2)
    · have h1 := balance_append [semi] c2
      rw [List.singleton_append] at h1
      rw [balance_append, h1, balance_singleton, hsk, hbal1, hbal2]
      simp
    · intro s3 hs3
      have hchild := hframe1 (semi :: (c2 ++ s3)) (sameHead_cons semi _ _)
      have hloop := hframe2 s3 hs3
      have hk3 : (Parser.reading (c1 ++ semi :: (c2 ++ s3))).token_kind ≠
          Kind.Close_brace := by
        cases c1 with
        | nil => exact absurd rfl (hne1 rfl)
        | cons t c1 =>
          rw [hs] at hk
          exact hk
      have heq : c1 ++ semi :: c2 ++ s3 = c1 ++ semi :: (c2 ++ s3) := by simp
      beta_reduce at hloop ⊢
      rw [heq, sequenceLoop_succ, if_neg hk3, hchild]
      simp only [reading_kind, hsk, reading_next, hloop, Parser.expect]
      simp
  · -- slClose
    intro f p acc n p1 r q hk _ hC hclose _ hSL s hs
    obtain ⟨c1, s1, rfl, hne1, hno1, hbal1, hp1, hframe1⟩ := hC s hs
    obtain ⟨c2, s2, rfl, -, hno2, hbal2, hq, hframe2⟩ := hSL s1 hp1
    refine ⟨c1 ++ c2, s2, by simp, fun h => absurd h (by decide), noEOF_append hno1 hno2,
      by rw [balance_append, hbal1, hbal2]; rfl, hq, ?_⟩
    intro s3 hs3
    have hchild := hframe1 (c2 ++ s3) (sameHead_append c2 s2 s3 hs3)
    have hloop := hframe2 s3 hs3
    have hk3 : (Parser.reading (c1 ++ (c2 ++ s3))).token_kind ≠ Kind.Close_brace := by
      cases c1 with
      | nil => exact absurd rfl (hne1 rfl)
      | cons t c1 =>
        rw [hs] at hk
        exact hk
    have hk4 : (Parser.reading (c2 ++ s3)).token_kind = Kind.Close_brace := by
      rw [sameHead_kind (sameHead_append c2 s2 s3 hs3), ← hp1]
      exact hclose
    have heq : c1 ++ c2 ++ s3 = c1 ++ (c2 ++ s3) := by simp
    beta_reduce at hloop ⊢
    rw [heq, sequenceLoop_succ, if_neg hk3, hchild]
    simp only [hk4, hloop]
    simp
  · -- pIntro
    intro f p annots p1 args p2 hk hann _ hAL s hs
    obtain ⟨ident, s0, rfl, hik, hip, hit, hnext⟩ :=
      exists_cons_of_reading p s hs (by rw [hk]; decide)
    rw [hk] at hik
    obtain ⟨ca, s1, rfl, -, hnoa, hbala, hp1, hframea⟩ :=
      annotationLoop_framed f p.next [] annots p1 hann s0 hnext
    obtain ⟨cb, s2, rfl, -, hnob, hbalb, hp2, hframeb⟩ := hAL s1 hp1
    refine ⟨ident :: (ca ++ cb), s2, by simp, fun _ => by simp, ?_, ?_, hp2, ?_⟩
    · exact noEOF_append (noEOF_singleton ident (by rw [hik]; decide))
        (noEOF_append hnoa hnob)
    · have h1 := balance_append [ident] (ca ++ cb)
      rw [List.singleton_append] at h1
      rw [h1, balance_append, balance_singleton, hik, hbala, hbalb]
      simp
    · intro s3 hs3
      have hA := hframea (cb ++ s3) (sameHead_append cb s2 s3 hs3)
      have hB := hframeb s3 hs3
      have hk3 : (Parser.reading (ident :: (ca ++ cb) ++ s3)).token_kind = Kind.Identifier :=
        hik
      have hn3 : (Parser.reading (ident :: (ca ++ cb) ++ s3)).next =
          Parser.reading (ca ++ (cb ++ s3)) := by
        rw [List.cons_append, reading_next]; simp
      have hpos : (Parser.reading s3).token_position = p2.token_position := by
        rw [sameHead_position hs3, hp2]
      beta_reduce at hA hB
      simp only [parsePrim_succ, hk3, if_true, hn3, hA, hB, hpos, ← hip, ← hit]
      rfl
  · -- alDone
    intro f p acc hk s hs
    refine ⟨[], s, rfl, fun h => absurd h (by decide), noEOF_nil, rfl, hs, ?_⟩
    intro s2 hs2
    have hk2 : startsNode (Parser.reading ([] ++ s2)).token_kind = false := by
      rw [List.nil_append, sameHead_kind hs2, ← hs]
      exact hk
    simp only [argumentLoop_succ, hk2]
    rfl
  · -- alStep
    intro f p acc n p1 r q hk _ hC _ hAL s hs
    obtain ⟨c1, s1, rfl, hne1, hno1, hbal1, hp1, hframe1⟩ := hC s hs
    obtain ⟨c2, s2, rfl, -, hno2, hbal2, hq, hframe2⟩ := hAL s1 hp1
    refine ⟨c1 ++ c2, s2, by simp, fun h => absurd h (by decide), noEOF_append hno1 hno2,
      by rw [balance_append, hbal1, hbal2]; rfl, hq, ?_⟩
    intro s3 hs3
    have hchild := hframe1 (c2 ++ s3) (sameHead_append c2 s2 s3 hs3)
    have hloop := hframe2 s3 hs3
    have hk3 : startsNode (Parser.reading (c1 ++ (c2 ++ s3))).token_kind = true := by
      cases c1 with
      | nil => exact absurd rfl (hne1 rfl)
      | cons t c1 =>
        rw [hs] at hk
        exact hk
    have heq : c1 ++ c2 ++ s3 = c1 ++ (c2 ++ s3) := by simp
    beta_reduce at hloop ⊢
    rw [heq, argumentLoop_succ, if_pos hk3, hchild]
    exact hloop

/-! ## Termination: fuel proportional to the tokens before end-of-input suffices -/

theorem eofIndex_cons (t : Token) (s : List Token) (ht : t.kind ≠ Kind.EOF) :
    eofIndex (t :: s) = eofIndex s + 1 := by
  simp [eofIndex, ht]

theorem eofIndex_append (c s : List Token) (hc : noEOF c) :
    eofIndex (c ++ s) = c.length + eofIndex s := by
  induction c with
  | nil => simp
  | cons t c ih =>
    have ht : t.kind ≠ Kind.EOF := hc t (by simp)
    have hc2 : noEOF c := fun u hu => hc u (List.mem_cons_of_mem _ hu)
    rw [List.cons_append, eofIndex_cons t _ ht, ih hc2, List.length_cons]
    omega

theorem reading_cons_of_kind (s : List Token) (hk : (Parser.reading s).token_kind ≠ Kind.EOF) :
    ∃ t ts, s = t :: ts ∧ t.kind = (Parser.reading s).token_kind := by
  obtain ⟨t, ts, h, hk2, -⟩ := exists_cons_of_reading _ s rfl hk
  exact ⟨t, ts, h, hk2⟩

theorem parseBytes_ne_timeout (p : Parser) : parseBytes p ≠ .timeout := by
  unfold parseBytes
  split
  · exact fun h => Outcome.noConfusion h
  · split <;> exact fun h => Outcome.noConfusion h

theorem parseString_ne_timeout (p : Parser) : parseString p ≠ .timeout := by
  unfold parseString
  split <;> exact fun h => Outcome.noConfusion h

theorem parseInt_ne_timeout (p : Parser) : parseInt p ≠ .timeout := by
  unfold parseInt
  split
  · exact fun h => Outcome.noConfusion h
  · split <;> exact fun h => Outcome.noConfusion h

theorem annotationLoop_terminates :
    ∀ (f : Nat) (s : List Token) (acc : List Annotation), eofIndex s + 1 ≤ f →
      annotationLoop f (Parser.reading s) acc ≠ .timeout := by
  intro f
  induction f with
  | zero => intro s acc h; omega
  | succ f ih =>
    intro s acc h
    rw [annotationLoop_succ]
    split
    · rename_i hk
      obtain ⟨t, ts, rfl, htk⟩ := reading_cons_of_kind s (by rw [hk]; decide)
      rw [hk] at htk
      rw [eofIndex_cons t ts (by rw [htk]; decide)] at h
      cases parseAnnotation (Parser.reading (t :: ts)) with
      | error e => exact fun h => Outcome.noConfusion h
      | ok a =>
        simp only [reading_next]
        exact ih ts _ (by omega)
    · exact fun h => Outcome.noConfusion h

theorem parsers_terminate (f : Nat) :
    ∀ s : List Token,
      (2 * eofIndex s + 1 ≤ f → parseSequence f (Parser.reading s) ≠ .timeout) ∧
      (2 * eofIndex s + 2 ≤ f → ∀ acc, sequenceLoop f (Parser.reading s) acc ≠ .timeout) ∧
      (2 * eofIndex s + 1 ≤ f → parsePrim f (Parser.reading s) ≠ .timeout) ∧
      (2 * eofIndex s + 2 ≤ f → ∀ acc, argumentLoop f (Parser.reading s) acc ≠ .timeout) ∧
      (2 * eofIndex s + 1 ≤ f → parseNode f (Parser.reading s) ≠ .timeout) := by
  have hN : ∀ f s, (2 * eofIndex s + 1 ≤ f → parseSequence f (Parser.reading s) ≠ .timeout) →
      (2 * eofIndex s + 1 ≤ f → parsePrim f (Parser.reading s) ≠ .timeout) →
      2 * eofIndex s + 1 ≤ f → parseNode f (Parser.reading s) ≠ .timeout := by
    intro f s hS hP hf
    unfold parseNode
    cases hk : (Parser.reading s).token_kind <;> simp only
    case Bytes => exact parseBytes_ne_timeout _
    case String => exact parseString_ne_timeout _
    case Int => exact parseInt_ne_timeout _
    case Identifier => exact hP hf
    case Open_brace => exact hS hf
    all_goals exact fun h => Outcome.noConfusion h
  induction f with
  | zero =>
    intro s
    refine ⟨fun h => ?_, fun h => ?_, fun h => ?_, fun h => ?_, fun h => ?_⟩ <;> omega
  | succ f ih =>
    intro s
    have h1 : 2 * eofIndex s + 1 ≤ f + 1 → parseSequence (f + 1) (Parser.reading s) ≠ .timeout := by
      intro hf
      rw [parseSequence_succ]
      split
      · rename_i hk
        obtain ⟨t, ts, rfl, htk⟩ := reading_cons_of_kind s (by rw [hk]; decide)
        rw [hk] at htk
        rw [eofIndex_cons t ts (by rw [htk]; decide)] at hf
        rw [reading_next]
        have hl := (ih ts).2.1 (by omega) []
        cases hr : sequenceLoop f (Parser.reading ts) [] with
        | timeout => exact absurd hr hl
        | fail e => exact fun h => Outcome.noConfusion h
        | done els p1 =>
          simp only
          split <;> exact fun h => Outcome.noConfusion h
      · exact fun h => Outcome.noConfusion h
    have h3 : 2 * eofIndex s + 1 ≤ f + 1 → parsePrim (f + 1) (Parser.reading s) ≠ .timeout := by
      intro hf
      rw [parsePrim_succ]
      split
      · rename_i hk
        obtain ⟨t, ts, rfl, htk⟩ := reading_cons_of_kind s (by rw [hk]; decide)
        rw [hk] at htk
        rw [eofIndex_cons t ts (by rw [htk]; decide)] at hf
        rw [reading_next]
        have hl := annotationLoop_terminates f ts [] (by omega)
        cases hr : annotationLoop f (Parser.reading ts) [] with
        | timeout => exact absurd hr hl
        | fail e => exact fun h => Outcome.noConfusion h
        | done annots p1 =>
          simp only
          obtain ⟨c, s1, rfl, -, hno, -, hp1, -⟩ :=
            annotationLoop_framed f _ [] annots p1 hr ts rfl
          rw [eofIndex_append c s1 hno] at hf
          rw [hp1]
          have hg := (ih s1).2.2.2.1 (by omega) []
          cases hr2 : argumentLoop f (Parser.reading s1) [] with
          | timeout => exact absurd hr2 hg
          | fail e => exact fun h => Outcome.noConfusion h
          | done args p2 => exact fun h => Outcome.noConfusion h
      · exact fun h => Outcome.noConfusion h
    have h2 : 2 * eofIndex s + 2 ≤ f + 1 →
        ∀ acc, sequenceLoop (f + 1) (Parser.reading s) acc ≠ .timeout := by
      intro hf acc
      rw [sequenceLoop_succ]
      split
      · exact fun h => Outcome.noConfusion h
      · have hc := hN f s (ih s).1 (ih s).2.2.1 (by omega)
        cases hr : parseNode f (Parser.reading s) with
        | timeout => exact absurd hr hc
        | fail e => exact fun h => Outcome.noConfusion h
        | done n p1 =>
          simp only
          obtain ⟨c, s1, rfl, hne, hno, -, hp1, -⟩ :=
            (parsers_framed f).2.2.2.2 _ n p1 hr s rfl
          have hlen : 1 ≤ c.length := List.length_pos.mpr (hne rfl)
          rw [eofIndex_append c s1 hno] at hf
          rw [hp1]
          split
          · by_cases hs : (Parser.reading s1).token_kind = Kind.Semi
            · rw [expect_of_kind _ _ hs]
              simp only
              rw [reading_tail]
              obtain ⟨t, ts, rfl, htk⟩ := reading_cons_of_kind s1 (by rw [hs]; decide)
              rw [hs] at htk
              rw [eofIndex_cons t ts (by rw [htk]; decide)] at hf
              exact (ih ts).2.1 (by omega) _
            · rw [expect_of_ne _ _ hs]
              exact fun h => Outcome.noConfusion h
          · exact (ih s1).2.1 (by omega) _
    have h4 : 2 * eofIndex s + 2 ≤ f + 1 →
        ∀ acc, argumentLoop (f + 1) (Parser.reading s) acc ≠ .timeout := by
      intro hf acc
      rw [argumentLoop_succ]
      split
      · have hc := hN f s (ih s).1 (ih s).2.2.1 (by omega)
        cases hr : parseNode f (Parser.reading s) with
        | timeout => exact absurd hr hc
        | fail e => exact fun h => Outcome.noConfusion h
        | done n p1 =>
          simp only
          obtain ⟨c, s1, rfl, hne, hno, -, hp1, -⟩ :=
            (parsers_framed f).2.2.2.2 _ n p1 hr s rfl
          have hlen : 1 ≤ c.length := List.length_pos.mpr (hne rfl)
          rw [eofIndex_append c s1 hno] at hf
          rw [hp1]
          exact (ih s1).2.2.2.1 (by omega) _
      · exact fun h => Outcome.noConfusion h
    exact ⟨h1, h2, h3, h4, hN (f + 1) s h1 h3⟩

/-! ## What the loops of `parsePrim` return -/

theorem parsePrim_done (fuel : Nat) (p : Parser) (n : Node) (q : Parser)
    (h : parsePrim fuel p = .done n q) :
    p.token_kind = Kind.Identifier ∧
      ∃ g annots p1 args, fuel = g + 1 ∧ annotationLoop g p.next [] = .done annots p1 ∧
        argumentLoop g p1 [] = .done args q ∧
        n = Node.Prim ⟨p.token_position, q.token_position⟩ p.token_text annots args := by
  cases fuel with
  | zero => exact Outcome.noConfusion h
  | succ g =>
    rw [parsePrim_succ] at h
    split at h
    · rename_i hk
      cases hl : annotationLoop g p.next [] with
      | timeout => simp [hl] at h
      | fail e => simp [hl] at h
      | done annots p1 =>
        simp only [hl] at h
        cases hg : argumentLoop g p1 [] with
        | timeout => simp [hg] at h
        | fail e => simp [hg] at h
        | done args p2 =>
          simp only [hg] at h
          injection h with hn hq
          subst hq
          exact ⟨hk, g, annots, p1, args, rfl, hl, hg, hn.symm⟩
    · exact Outcome.noConfusion h

/-- The annotation loop returns its accumulator untouched, in the same state, or a
longer list. -/
theorem annotationLoop_grows :
    ∀ (f : Nat) (p : Parser) (acc r : List Annotation) (q : Parser),
      annotationLoop f p acc = .done r q → (r = acc ∧ q = p) ∨ acc.length < r.length := by
  intro f
  induction f with
  | zero => intro p acc r q h; exact Outcome.noConfusion h
  | succ f ih =>
    intro p acc r q h
    rw [annotationLoop_succ] at h
    split at h
    · cases ha : parseAnnotation p with
      | error e => simp [ha] at h
      | ok a =>
        simp only [ha] at h
        right
        rcases ih _ _ _ _ h with ⟨hr, -⟩ | hlt
        · rw [hr]; simp
        · simp only [List.length_append, List.length_singleton] at hlt
          omega
    · injection h with hr hq
      exact Or.inl ⟨hr.symm, hq.symm⟩

/-- The argument loop returns its accumulator untouched, in the same state, or a list
whose last node was parsed by a call of `parseNode` that ended in the returned state. -/
theorem argumentLoop_last :
    ∀ (f : Nat) (p : Parser) (acc r : List Node) (q : Parser),
      argumentLoop f p acc = .done r q →
      (r = acc ∧ q = p) ∨
        ∃ g p1 init last, acc.length ≤ init.length ∧ r = init ++ [last] ∧
          parseNode g p1 = .done last q := by
  intro f
  induction f with
  | zero => intro p acc r q h; exact Outcome.noConfusion h
  | succ f ih =>
    intro p acc r q h
    rw [argumentLoop_succ] at h
    split at h
    · cases hc : parseNode f p with
      | timeout => simp [hc] at h
      | fail e => simp [hc] at h
      | done n p1 =>
        simp only [hc] at h
        right
        rcases ih _ _ _ _ h with ⟨hr, hq⟩ | ⟨g, p2, init, last, hlen, hr, hlast⟩
        · subst hq
          exact ⟨f, p, acc, n, le_refl _, hr, hc⟩
        · refine ⟨g, p2, init, last, ?_, hr, hlast⟩
          simp only [List.length_append, List.length_singleton] at hlen
          omega
    · injection h with hr hq
      exact Or.inl ⟨hr.symm, hq.symm⟩

theorem parseNode_fuel_succ (p : Parser) (fuel : Nat) :
    (parseNode fuel p).le (parseNode (fuel + 1) p) := by
  unfold parseNode
  cases p.token_kind with
  | Identifier => exact parsePrim_fuel_succ _ _
  | Open_brace => exact parseSequence_fuel_succ _ _
  | _ => exact Or.inr rfl

/-- A finished call of `parseNode` gives the same result with more fuel. -/
theorem parseNode_mono {f g : Nat} {p : Parser} {n : Node} {q : Parser}
    (h : parseNode f p = .done n q) (hfg : f ≤ g) : parseNode g p = .done n q := by
  have hne : (fun k => parseNode k p) f ≠ .timeout := by
    beta_reduce; rw [h]; exact fun h => Outcome.noConfusion h
  have := Outcome.stable (fun k => parseNode k p) (parseNode_fuel_succ p) hne hfg
  beta_reduce at this
  rw [this, h]

theorem argumentsFrom_mono {f g : Nat} (hfg : f ≤ g) :
    ∀ (args : List Node) (s r : List Token), argumentsFrom f args s r →
      argumentsFrom g args s r := by
  intro args
  induction args with
  | nil => intro s r h; exact h
  | cons n ns ih =>
    intro s r h
    obtain ⟨c, s1, hne, hno, hs, hp, hrest⟩ := h
    exact ⟨c, s1, hne, hno, hs, parseNode_mono hp hfg, ih s1 r hrest⟩

/-- The argument loop appends to its accumulator the nodes that successive calls of
`parseNode` return, and stops reading what is left after the last of them. -/
theorem argumentLoop_arguments :
    ∀ (f : Nat) (s : List Token) (acc r : List Node) (q : Parser),
      argumentLoop f (Parser.reading s) acc = .done r q →
      ∃ new s', r = acc ++ new ∧ argumentsFrom f new s s' ∧ q = Parser.reading s' := by
  intro f
  induction f with
  | zero => intro s acc r q h; exact Outcome.noConfusion h
  | succ f ih =>
    intro s acc r q h
    rw [argumentLoop_succ] at h
    split at h
    · cases hc : parseNode f (Parser.reading s) with
      | timeout => simp [hc] at h
      | fail e => simp [hc] at h
      | done n p1 =>
        simp only [hc] at h
        obtain ⟨c1, s1, hcs, hne, hno, -, hp1, -⟩ :=
          (parsers_framed f).2.2.2.2 _ n p1 hc s rfl
        subst hp1
        obtain ⟨new, s', hr, hargs, hq⟩ := ih s1 (acc ++ [n]) r q h
        refine ⟨n :: new, s', by rw [hr]; simp, ?_, hq⟩
        exact ⟨c1, s1, hne rfl, hno, hcs, parseNode_mono hc (Nat.le_succ f),
          argumentsFrom_mono (Nat.le_succ f) new s1 s' hargs⟩
    · injection h with hr hq
      exact ⟨[], s, by rw [← hr]; simp, rfl, hq.symm⟩

/-- The last of the nodes parsed one after the other comes from the run of tokens that
ends where the whole stops. -/
theorem argumentsFrom_snoc (g : Nat) (last : Node) (r : List Token) :
    ∀ (init : List Node) (s : List Token), argumentsFrom g (init ++ [last]) s r →
      ∃ mid c, s = mid ++ (c ++ r) ∧ argumentsFrom g init s (c ++ r) ∧ c ≠ [] ∧ noEOF c ∧
        parseNode g (Parser.reading (c ++ r)) = .done last (Parser.reading r) := by
  intro init
  induction init with
  | nil =>
    intro s h
    obtain ⟨c, s1, hne, hno, hs, hp, hrest⟩ := h
    have hr : s1 = r := hrest
    subst hr
    exact ⟨[], c, by simpa using hs, hs, hne, hno, by rw [← hs]; exact hp⟩
  | cons n ns ih =>
    intro s h
    obtain ⟨c0, s1, hne, hno, hs, hp, hrest⟩ := h
    obtain ⟨mid, c, hs1, hinit, hc, hnoc, hlast⟩ := ih s1 hrest
    exact ⟨c0 ++ mid, c, by rw [hs, hs1]; simp, ⟨c0, s1, hne, hno, hs, hp, hinit⟩, hc, hnoc,
      hlast⟩

/-- The annotation loop consumes a run of annotation tokens, one per annotation it
adds, and stops at the first token that is not an annotation. -/
theorem annotationLoop_tokens :
    ∀ (f : Nat) (s : List Token) (acc r : List Annotation) (q : Parser),
      annotationLoop f (Parser.reading s) acc = .done r q →
      ∃ annots s1, s = annots ++ s1 ∧ (∀ t ∈ annots, t.kind = Kind.Annot) ∧
        r.length = acc.length + annots.length ∧ q = Parser.reading s1 ∧
        (Parser.reading s1).token_kind ≠ Kind.Annot := by
  intro f
  induction f with
  | zero => intro s acc r q h; exact Outcome.noConfusion h
  | succ f ih =>
    intro s acc r q h
    rw [annotationLoop_succ] at h
    split at h
    · rename_i hk
      cases ha : parseAnnotation (Parser.reading s) with
      | error e => simp [ha] at h
      | ok a =>
        simp only [ha] at h
        obtain ⟨t, ts, rfl, htk, -, -, hnext⟩ :=
          exists_cons_of_reading _ s rfl (by rw [hk]; decide)
        rw [hk] at htk
        rw [hnext] at h
        obtain ⟨annots, s1, hts, hall, hlen, hq, hstop⟩ := ih ts _ r q h
        refine ⟨t :: annots, s1, by rw [hts]; rfl, ?_, ?_, hq, hstop⟩
        · intro u hu
          rcases List.mem_cons.mp hu with rfl | hu
          · exact htk
          · exact hall u hu
        · simp only [List.length_append, List.length_singleton, List.length_cons,
            List.length_nil] at hlen ⊢
          omega
    · rename_i hk
      injection h with hr hq
      exact ⟨[], s, rfl, fun _ h => absurd h (List.not_mem_nil _), by rw [← hr]; simp,
        hq.symm, hk⟩

/-! ## C11: the span of a Prim with arguments -/

/-- C11: for every Prim node built by `parsePrim` from a stream `s` that has at least
one argument, the stream is the identifier `f`, a run `annots` of annotation tokens, the
tokens `mid` of the arguments before the last (parsed one after the other from there),
the tokens `c` of the last argument, and the rest `s'`; `Pos` is the offset of the
identifier token and `End` is the offset of the first token of `s'`, the token
immediately following the last argument, which `parsePrim` leaves as the current
token. -/
theorem parsePrim_span_with_arguments (fuel : Nat) (s : List Token) (pos : Position)
    (name : GoString) (annotations : List Annotation) (args : List Node) (q : Parser)
    (h : parsePrim fuel (Parser.reading s) = .done (Node.Prim pos name annotations args) q)
    (hargs : args ≠ []) :
    ∃ (f : Token) (annots mid c s' : List Token) (init : List Node) (last : Node),
      s = f :: (annots ++ (mid ++ (c ++ s'))) ∧ f.kind = Kind.Identifier ∧
        (∀ t ∈ annots, t.kind = Kind.Annot) ∧ annotations.length = annots.length ∧
        args = init ++ [last] ∧ argumentsFrom fuel init (mid ++ (c ++ s')) (c ++ s') ∧
        c ≠ [] ∧ noEOF c ∧
        parseNode fuel (Parser.reading (c ++ s')) = .done last (Parser.reading s') ∧
        q = Parser.reading s' ∧ pos.Pos = f.position ∧
        pos.End = (Parser.reading s').token_position := by
  obtain ⟨hk, g, annots2, p1, args2, hfuel, hann, hloop, hn⟩ := parsePrim_done fuel _ _ q h
  injection hn with hpos _ hannots hargs2
  subst hargs2 hannots
  obtain ⟨f, s0, rfl, hfk, hfp, -, hnext⟩ := exists_cons_of_reading _ s rfl (by rw [hk]; decide)
  rw [hk] at hfk
  rw [hnext] at hann
  obtain ⟨annots, s1, rfl, hall, hlen, hp1, -⟩ := annotationLoop_tokens g s0 [] _ p1 hann
  subst hp1
  obtain ⟨new, s', hr, hfrom, hq⟩ := argumentLoop_arguments g s1 [] _ q hloop
  rw [List.nil_append] at hr
  subst hr
  rcases List.eq_nil_or_concat args with hnil | ⟨init, last, hcat⟩
  · exact absurd hnil hargs
  · rw [List.concat_eq_append] at hcat
    subst hcat
    have hg : g ≤ fuel := by omega
    obtain ⟨mid, c, hs1, hinit, hc, hnoc, hlast⟩ :=
      argumentsFrom_snoc fuel last s' init s1 (argumentsFrom_mono hg _ _ _ hfrom)
    subst hs1
    refine ⟨f, annots, mid, c, s', init, last, rfl, hfk, hall, by simpa using hlen, rfl, hinit,
      hc, hnoc, hlast, hq, ?_, ?_⟩
    · rw [hpos]; exact hfp.symm
    · rw [hpos, hq]

/-- C11, witness: in `foo 1 2 ;` the Prim spans from `foo` (offset 0) to `;` (offset 8),
the token that follows the last argument `2`. -/
theorem parsePrim_span_with_arguments_witness :
    parsePrim 4 (Parser.reading [⟨0, Kind.Identifier, "foo"⟩, ⟨4, Kind.Int, "1"⟩,
        ⟨6, Kind.Int, "2"⟩, ⟨8, Kind.Semi, ";"⟩]) =
      .done (Node.Prim ⟨0, 8⟩ "foo" [] [Node.Int ⟨4, 4⟩ 1, Node.Int ⟨6, 6⟩ 2])
        (Parser.reading [⟨8, Kind.Semi, ";"⟩]) ∧
    ∃ (f : Token) (annots mid c s' : List Token) (init : List Node) (last : Node),
      [⟨0, Kind.Identifier, "foo"⟩, ⟨4, Kind.Int, "1"⟩, ⟨6, Kind.Int, "2"⟩,
          ⟨8, Kind.Semi, ";"⟩] = f :: (annots ++ (mid ++ (c ++ s'))) ∧
        f.kind = Kind.Identifier ∧
        (∀ t ∈ annots, t.kind = Kind.Annot) ∧ ([] : List Annotation).length = annots.length ∧
        [Node.Int ⟨4, 4⟩ 1, Node.Int ⟨6, 6⟩ 2] = init ++ [last] ∧
        argumentsFrom 4 init (mid ++ (c ++ s')) (c ++ s') ∧
        c ≠ [] ∧ noEOF c ∧
        parseNode 4 (Parser.reading (c ++ s')) = .done last (Parser.reading s') ∧
        Parser.reading [⟨8, Kind.Semi, ";"⟩] = Parser.reading s' ∧
        (⟨0, 8⟩ : Position).Pos = f.position ∧
        (⟨0, 8⟩ : Position).End = (Parser.reading s').token_position :=
  ⟨rfl, parsePrim_span_with_arguments 4 _ ⟨0, 8⟩ "foo" [] [Node.Int ⟨4, 4⟩ 1, Node.Int ⟨6, 6⟩ 2]
    (Parser.reading [⟨8, Kind.Semi, ";"⟩]) rfl (by simp)⟩

/-! ## C12: the span of a Prim without arguments -/

/-- C12 (as amended): for every Prim node built by `parsePrim` that has no arguments
and no annotations, `Pos` is the offset of the identifier token and `End` is the offset
of the token immediately following the identifier, which `parsePrim` leaves as the
current token: the same rule as for a Prim with arguments. -/
theorem parsePrim_span_without_arguments (fuel : Nat) (p : Parser) (pos : Position)
    (name : GoString) (q : Parser)
    (h : parsePrim fuel p = .done (Node.Prim pos name [] []) q) :
    p.token_kind = Kind.Identifier ∧ pos.Pos = p.token_position ∧ q = p.next ∧
      pos.End = p.next.token_position := by
  obtain ⟨hk, g, annots, p1, args, -, hann, hloop, hn⟩ := parsePrim_done fuel p _ q h
  injection hn with hpos _ hannots hargs
  subst hannots hargs
  have hp1 : p1 = p.next := by
    rcases annotationLoop_grows g p.next [] [] p1 hann with ⟨-, hq⟩ | hlt
    · exact hq
    · simp at hlt
  have hq : q = p1 := by
    rcases argumentLoop_last g p1 [] [] q hloop with ⟨-, hq⟩ | ⟨_, _, init, last, -, hr, -⟩
    · exact hq
    · simp at hr
  subst hq
  subst hp1
  rw [hpos]
  exact ⟨hk, rfl, rfl, rfl⟩

/-- C12, witness: in `foo ;` the Prim `foo` (offset 0) ends at the offset 4 of `;`. -/
theorem parsePrim_span_without_arguments_witness :
    (Parser.reading [⟨0, Kind.Identifier, "foo"⟩, ⟨4, Kind.Semi, ";"⟩]).token_kind =
        Kind.Identifier ∧
      (⟨0, 4⟩ : Position).Pos = 0 ∧
      Parser.reading [⟨4, Kind.Semi, ";"⟩] =
        (Parser.reading [⟨0, Kind.Identifier, "foo"⟩, ⟨4, Kind.Semi, ";"⟩]).next ∧
      (⟨0, 4⟩ : Position).End =
        (Parser.reading [⟨0, Kind.Identifier, "foo"⟩, ⟨4, Kind.Semi, ";"⟩]).next.token_position :=
  parsePrim_span_without_arguments 2
    (Parser.reading [⟨0, Kind.Identifier, "foo"⟩, ⟨4, Kind.Semi, ";"⟩]) ⟨0, 4⟩ "foo"
    (Parser.reading [⟨4, Kind.Semi, ";"⟩]) rfl

/-- C12, counterexample to the claim as first stated: in `{ foo ; 1 }` the Prim `foo`
starts at offset 2 and its last letter is at offset 4, yet the node built ends at
offset 6, the offset of the `;` that follows. -/
theorem parsePrim_end_is_next_token :
    Parse 4 (Parser.Init [⟨0, Kind.Open_brace, "\x7b"⟩, ⟨2, Kind.Identifier, "foo"⟩,
        ⟨6, Kind.Semi, ";"⟩, ⟨8, Kind.Int, "1"⟩, ⟨10, Kind.Close_brace, "\x7d"⟩,
        ⟨11, Kind.EOF, ""⟩]) =
      .done (Node.Sequence ⟨0, 10⟩ [Node.Prim ⟨2, 6⟩ "foo" [] [], Node.Int ⟨8, 8⟩ 1])
        (Parser.reading [⟨11, Kind.EOF, ""⟩]) ∧
    (6 : Int) ≠ 2 + len "foo" - 1 :=
  ⟨rfl, by decide⟩

/-! ## C13: annotation parsing -/

theorem parseAnnotation_valid (t : Token) (ts : List Token) (ht : validAnnot t = true) :
    parseAnnotation (Parser.reading (t :: ts)) = .ok (annotationOf t) := by
  simp only [validAnnot, Bool.and_eq_true, beq_iff_eq, Option.isSome_iff_exists] at ht
  obtain ⟨hk, k, hkv⟩ := ht
  simp only [ parseAnnotation, Parser.expect, reading_kind, hk, if_true, reading_text,
    reading_position, annotationOf, hkv, Option.getD_some]
  unfold kindOfValue at hkv
  split at hkv
  · rename_i rest heq
    injection hkv with hkv
    simp [heq, hkv]
  · rename_i rest heq
    injection hkv with hkv
    simp [heq, hkv]
  · rename_i rest heq
    injection hkv with hkv
    simp [heq, hkv]
  · exact Option.noConfusion hkv

theorem parseAnnotation_invalid (t : Token) (ts : List Token) (hk : t.kind = Kind.Annot)
    (ht : kindOfValue t.text = none) :
    parseAnnotation (Parser.reading (t :: ts)) =
      .error (if t.text.data = [] then .indexOutOfRange else .unexpectedAnnot t.text) := by
  simp only [ parseAnnotation, Parser.expect, reading_kind, hk, if_true, reading_text]
  cases hd : t.text.data with
  | nil => simp
  | cons c cs =>
    have h1 : c ≠ ':' := by
      rintro rfl; simp [kindOfValue, hd] at ht
    have h2 : c ≠ '@' := by
      rintro rfl; simp [kindOfValue, hd] at ht
    have h3 : c ≠ '%' := by
      rintro rfl; simp [kindOfValue, hd] at ht
    simp [h1, h2, h3]

theorem validAnnot_kind (t : Token) (ht : validAnnot t = true) : t.kind = Kind.Annot := by
  simp only [validAnnot, Bool.and_eq_true, beq_iff_eq] at ht
  exact ht.1

/-- The annotation loop over `k` valid annotation tokens followed by anything else. -/
theorem annotationLoop_valid (annots : List Token) (ha : ∀ t ∈ annots, validAnnot t = true)
    (s : List Token) (hs : (Parser.reading s).token_kind ≠ Kind.Annot) :
    ∀ (fuel : Nat) (acc : List Annotation), annots.length + 1 ≤ fuel →
      annotationLoop fuel (Parser.reading (annots ++ s)) acc =
        .done (acc ++ annots.map annotationOf) (Parser.reading s) := by
  induction annots with
  | nil =>
    intro fuel acc hfuel
    obtain ⟨g, rfl⟩ : ∃ g, fuel = g + 1 := ⟨fuel - 1, by simp at hfuel; omega⟩
    simp [annotationLoop_succ, hs]
  | cons t annots ih =>
    intro fuel acc hfuel
    obtain ⟨g, rfl⟩ : ∃ g, fuel = g + 1 := ⟨fuel - 1, by simp at hfuel; omega⟩
    have ht := ha t (by simp)
    rw [List.cons_append, annotationLoop_succ, reading_kind, validAnnot_kind t ht, if_pos rfl,
      parseAnnotation_valid t _ ht]
    simp only [reading_next]
    rw [ih (fun u hu => ha u (List.mem_cons_of_mem _ hu)) g _ (by simpa using hfuel)]
    simp

/-- The annotation loop over valid annotation tokens followed by a bad one. -/
theorem annotationLoop_invalid (annots : List Token) (ha : ∀ t ∈ annots, validAnnot t = true)
    (bad : Token) (rest : List Token) (hk : bad.kind = Kind.Annot)
    (hb : kindOfValue bad.text = none) :
    ∀ (fuel : Nat) (acc : List Annotation), annots.length + 1 ≤ fuel →
      annotationLoop fuel (Parser.reading (annots ++ bad :: rest)) acc =
        .fail (if bad.text.data = [] then .indexOutOfRange else .unexpectedAnnot bad.text) := by
  induction annots with
  | nil =>
    intro fuel acc hfuel
    obtain ⟨g, rfl⟩ : ∃ g, fuel = g + 1 := ⟨fuel - 1, by simp at hfuel; omega⟩
    rw [List.nil_append, annotationLoop_succ, reading_kind, hk, if_pos rfl,
      parseAnnotation_invalid bad rest hk hb]
  | cons t annots ih =>
    intro fuel acc hfuel
    obtain ⟨g, rfl⟩ : ∃ g, fuel = g + 1 := ⟨fuel - 1, by simp at hfuel; omega⟩
    have ht := ha t (by simp)
    rw [List.cons_append, annotationLoop_succ, reading_kind, validAnnot_kind t ht, if_pos rfl,
      parseAnnotation_valid t _ ht]
    simp only [reading_next]
    exact ih (fun u hu => ha u (List.mem_cons_of_mem _ hu)) g _ (by simpa using hfuel)

/-- C13: for a primitive whose identifier `f` is immediately followed by `k ≥ 0`
annotation tokens, each beginning with `:`, `@` or `%`, and then by a token that is not
an annotation, `parsePrim` goes on to the arguments and the Prim it builds carries
exactly those `k` annotations in order, each with the whole token text as value and the
kind fixed by its first character. If instead a `k+1`-th annotation token begins with
any other character, or is empty, `parsePrim` aborts. -/
theorem parsePrim_annotations (f : Token) (annots s : List Token)
    (hf : f.kind = Kind.Identifier) (ha : ∀ t ∈ annots, validAnnot t = true)
    (hs : (Parser.reading s).token_kind ≠ Kind.Annot) (fuel : Nat)
    (hfuel : annots.length + 1 ≤ fuel) :
    parsePrim (fuel + 1) (Parser.reading (f :: (annots ++ s))) =
        (match argumentLoop fuel (Parser.reading s) [] with
        | .timeout => .timeout
        | .fail e => .fail e
        | .done args p2 =>
          .done (Node.Prim ⟨f.position, p2.token_position⟩ f.text (annots.map annotationOf)
            args) p2) ∧
      (∀ t, (annotationOf t).Value = t.text ∧
        (kindOfValue t.text = some (annotationOf t).Kind ∨ kindOfValue t.text = none)) ∧
      ∀ (bad : Token) (rest : List Token), bad.kind = Kind.Annot →
        kindOfValue bad.text = none →
        parsePrim (fuel + 1) (Parser.reading (f :: (annots ++ bad :: rest))) =
          .fail (if bad.text.data = [] then .indexOutOfRange
            else .unexpectedAnnot bad.text) := by
  refine ⟨?_, ?_, ?_⟩
  · rw [parsePrim_succ, reading_kind, hf, if_pos rfl, reading_next,
      annotationLoop_valid annots ha s hs fuel [] hfuel]
    rfl
  · intro t
    refine ⟨rfl, ?_⟩
    cases h : kindOfValue t.text with
    | none => exact Or.inr rfl
    | some k => exact Or.inl (by simp [annotationOf, h])
  · intro bad rest hk hb
    rw [parsePrim_succ, reading_kind, hf, if_pos rfl, reading_next,
      annotationLoop_invalid annots ha bad rest hk hb fuel [] hfuel]

/-- C13, witness: `foo %a 1` yields the Prim `foo` with the field annotation `%a` and
the argument `1`; `foo %a #b` aborts. -/
theorem parsePrim_annotations_witness :
    parsePrim 3 (Parser.reading [⟨0, Kind.Identifier, "foo"⟩, ⟨4, Kind.Annot, "%a"⟩,
          ⟨7, Kind.Int, "1"⟩, ⟨8, Kind.EOF, ""⟩]) =
        .done (Node.Prim ⟨0, 8⟩ "foo" [⟨⟨4, 5⟩, FieldAnnotation, "%a"⟩] [Node.Int ⟨7, 7⟩ 1])
          (Parser.reading [⟨8, Kind.EOF, ""⟩]) ∧
      parsePrim 3 (Parser.reading [⟨0, Kind.Identifier, "foo"⟩, ⟨4, Kind.Annot, "%a"⟩,
          ⟨7, Kind.Annot, "#b"⟩, ⟨9, Kind.EOF, ""⟩]) = .fail (.unexpectedAnnot "#b") := by
  have h := parsePrim_annotations ⟨0, Kind.Identifier, "foo"⟩ [⟨4, Kind.Annot, "%a"⟩]
    [⟨7, Kind.Int, "1"⟩, ⟨8, Kind.EOF, ""⟩] rfl (by decide) (by decide) 2 (by decide)
  exact ⟨h.1.trans rfl, (h.2.2 ⟨7, Kind.Annot, "#b"⟩ [⟨9, Kind.EOF, ""⟩] rfl rfl).trans rfl⟩

/-! ## Braces in the tokens of a finished call -/

theorem neverNegative_nil : neverNegative [] := by
  intro k
  simp [balance]

theorem neverNegative_singleton (t : Token) (h : t.kind ≠ Kind.Close_brace) :
    neverNegative [t] := by
  intro k
  cases k with
  | zero => simp [balance]
  | succ k =>
    rw [List.take_succ_cons, List.take_nil, balance_singleton, if_neg h]
    split <;> decide

theorem neverNegative_append (a b : List Token) (ha : neverNegative a)
    (hb : ∀ k, 0 ≤ balance a + balance (b.take k)) : neverNegative (a ++ b) := by
  intro k
  rw [List.take_append_eq_append_take, balance_append]
  by_cases hk : k ≤ a.length
  · have h0 : k - a.length = 0 := by omega
    rw [h0, List.take_zero]
    have := ha k
    simp only [balance] at this ⊢
    omega
  · rw [List.take_of_length_le (by omega)]
    exact hb _

theorem neverNegative_append_balanced (a b : List Token) (ha : neverNegative a)
    (hbal : 0 ≤ balance a) (hb : neverNegative b) : neverNegative (a ++ b) := by
  apply neverNegative_append a b ha
  intro k
  have := hb k
  omega

theorem annots_balanced (ca : List Token) (hall : ∀ t ∈ ca, t.kind = Kind.Annot) :
    noEOF ca ∧ balance ca = 0 ∧ neverNegative ca := by
  induction ca with
  | nil => exact ⟨noEOF_nil, rfl, neverNegative_nil⟩
  | cons t ca ih =>
    have ht : t.kind = Kind.Annot := hall t (by simp)
    obtain ⟨h1, h2, h3⟩ := ih (fun u hu => hall u (List.mem_cons_of_mem _ hu))
    have htb : balance [t] = 0 := by
      rw [balance_singleton, if_neg (by rw [ht]; decide), if_neg (by rw [ht]; decide)]
    have hcons : t :: ca = [t] ++ ca := rfl
    rw [hcons]
    exact ⟨noEOF_append (noEOF_singleton t (by rw [ht]; decide)) h1,
      by rw [balance_append, htb, h2]; rfl,
      neverNegative_append_balanced _ _
        (neverNegative_singleton t (by rw [ht]; decide)) (by rw [htb]) h3⟩

theorem consumed_leaf (k : Kind) (hk0 : k ≠ Kind.EOF) (hk1 : k ≠ Kind.Open_brace)
    (hk2 : k ≠ Kind.Close_brace) (p q : Parser) (hk : p.token_kind = k) (hq : q = p.next) :
    Consumed p q := by
  intro s hs
  obtain ⟨t, ts, rfl, htk, -, -, hnext⟩ := exists_cons_of_reading p s hs (by rw [hk]; exact hk0)
  rw [hk] at htk
  refine ⟨[t], ts, rfl, by rw [hq, hnext], noEOF_singleton t (by rw [htk]; exact hk0), ?_,
    neverNegative_singleton t (by rw [htk]; exact hk2)⟩
  rw [balance_singleton, htk, if_neg hk1, if_neg hk2]

theorem parsers_consumed (f : Nat) :
    (∀ p n q, parseSequence f p = .done n q → Consumed p q) ∧
      (∀ p acc r q, sequenceLoop f p acc = .done r q → Consumed p q) ∧
      (∀ p n q, parsePrim f p = .done n q → Consumed p q) ∧
      (∀ p acc r q, argumentLoop f p acc = .done r q → Consumed p q) ∧
      (∀ p n q, parseNode f p = .done n q → Consumed p q) := by
  refine parser_induction
    (C := fun _ p _ q => Consumed p q)
    (S := fun _ p _ q => Consumed p q)
    (P := fun _ p _ q => Consumed p q)
    (L := fun _ p _ _ q => Consumed p q)
    (A := fun _ p _ _ q => Consumed p q)
    ?_ ?_ ?_ ?_ ?_ ?_ ?_ ?_ ?_ ?_ ?_ ?_ f
  · intro f p n q hk h
    exact consumed_leaf Kind.Bytes (by decide) (by decide) (by decide) p q hk
      (parseBytes_done p n q h).2.1
  · intro f p n q hk h
    exact consumed_leaf Kind.String (by decide) (by decide) (by decide) p q hk
      (parseString_done p n q h).2.1
  · intro f p n q hk h
    exact consumed_leaf Kind.Int (by decide) (by decide) (by decide) p q hk
      (parseInt_done p n q h).2.1
  · intro f p n q _ _ hP
    exact hP
  · intro f p n q _ _ hS
    exact hS
  · -- a sequence: `{`, the elements, `}`
    intro f p els p1 hk _ hL hc s hs
    obtain ⟨opn, s0, rfl, hok, -, -, hnext⟩ :=
      exists_cons_of_reading p s hs (by rw [hk]; decide)
    rw [hk] at hok
    obtain ⟨c, s1, rfl, hp1, hno, hbal, hnn⟩ := hL s0 hnext
    obtain ⟨cls, s2, rfl, hck, -, -, hnext1⟩ :=
      exists_cons_of_reading p1 s1 hp1 (by rw [hc]; decide)
    rw [hc] at hck
    have hopn : balance [opn] = 1 := by rw [balance_singleton, if_pos hok]
    have hcls : balance [cls] = -1 := by
      rw [balance_singleton, if_neg (by rw [hck]; decide), if_pos hck]
    refine ⟨[opn] ++ (c ++ [cls]), s2, by simp, hnext1, ?_, ?_, ?_⟩
    · exact noEOF_append (noEOF_singleton opn (by rw [hok]; decide))
        (noEOF_append hno (noEOF_singleton cls (by rw [hck]; decide)))
    · rw [balance_append, balance_append, hopn, hcls, hbal]
      rfl
    · apply neverNegative_append _ _ (neverNegative_singleton opn (by rw [hok]; decide))
      intro k
      rw [hopn, List.take_append_eq_append_take, balance_append]
      have h1 := hnn k
      have h2 : -1 ≤ balance (List.take (k - c.length) [cls]) := by
        cases k - c.length with
        | zero => simp [balance]
        | succ j => rw [List.take_succ_cons, List.take_nil, hcls]
      omega
  · intro f p acc _ s hs
    exact ⟨[], s, rfl, hs, noEOF_nil, rfl, neverNegative_nil⟩
  · -- an element and its separator
    intro f p acc n p1 r q _ _ hC hsemi _ hL s hs
    obtain ⟨c1, s1, rfl, hp1, hno1, hbal1, hnn1⟩ := hC s hs
    obtain ⟨semi, s1', rfl, hsk, -, -, hnext1⟩ :=
      exists_cons_of_reading p1 s1 hp1 (by rw [hsemi]; decide)
    rw [hsemi] at hsk
    obtain ⟨c2, s2, rfl, hq, hno2, hbal2, hnn2⟩ := hL s1' hnext1
    have hsb : balance [semi] = 0 := by
      rw [balance_singleton, if_neg (by rw [hsk]; decide), if_neg (by rw [hsk]; decide)]
    refine ⟨c1 ++ ([semi] ++ c2), s2, by simp, hq, ?_, ?_, ?_⟩
    · exact noEOF_append hno1
        (noEOF_append (noEOF_singleton semi (by rw [hsk]; decide)) hno2)
    · rw [balance_append, balance_append, hsb, hbal1, hbal2]
      rfl
    · exact neverNegative_append_balanced _ _ hnn1 (by rw [hbal1])
        (neverNegative_append_balanced _ _
          (neverNegative_singleton semi (by rw [hsk]; decide)) (by rw [hsb]) hnn2)
  · -- the last element
    intro f p acc n p1 r q _ _ hC _ _ hL s hs
    obtain ⟨c1, s1, rfl, hp1, hno1, hbal1, hnn1⟩ := hC s hs
    obtain ⟨c2, s2, rfl, hq, hno2, hbal2, hnn2⟩ := hL s1 hp1
    exact ⟨c1 ++ c2, s2, by simp, hq, noEOF_append hno1 hno2,
      by rw [balance_append, hbal1, hbal2]; rfl,
      neverNegative_append_balanced _ _ hnn1 (by rw [hbal1]) hnn2⟩
  · -- a primitive: identifier, annotations, arguments
    intro f p annots p1 args p2 hk hann _ hA s hs
    obtain ⟨ident, s0, rfl, hik, -, -, hnext⟩ :=
      exists_cons_of_reading p s hs (by rw [hk]; decide)
    rw [hk] at hik
    rw [hnext] at hann
    obtain ⟨ca, s1, rfl, hall, -, hp1, -⟩ := annotationLoop_tokens f s0 [] annots p1 hann
    obtain ⟨cb, s2, rfl, hp2, hnob, hbalb, hnnb⟩ := hA s1 hp1
    have hib : balance [ident] = 0 := by
      rw [balance_singleton, if_neg (by rw [hik]; decide), if_neg (by rw [hik]; decide)]
    obtain ⟨hnoa, hbala, hnna⟩ := annots_balanced ca hall
    refine ⟨[ident] ++ (ca ++ cb), s2, by simp, hp2, ?_, ?_, ?_⟩
    · exact noEOF_append (noEOF_singleton ident (by rw [hik]; decide))
        (noEOF_append hnoa hnob)
    · rw [balance_append, balance_append, hib, hbala, hbalb]
      rfl
    · exact neverNegative_append_balanced _ _
        (neverNegative_singleton ident (by rw [hik]; decide)) (by rw [hib])
        (neverNegative_append_balanced _ _ hnna (by rw [hbala]) hnnb)
  · intro f p acc _ s hs
    exact ⟨[], s, rfl, hs, noEOF_nil, rfl, neverNegative_nil⟩
  · intro f p acc n p1 r q _ _ hC _ hA s hs
    obtain ⟨c1, s1, rfl, hp1, hno1, hbal1, hnn1⟩ := hC s hs
    obtain ⟨c2, s2, rfl, hq, hno2, hbal2, hnn2⟩ := hA s1 hp1
    exact ⟨c1 ++ c2, s2, by simp, hq, noEOF_append hno1 hno2,
      by rw [balance_append, hbal1, hbal2]; rfl,
      neverNegative_append_balanced _ _ hnn1 (by rw [hbal1]) hnn2⟩

theorem unclosed_prefix (c s' : List Token) (hu : unclosed (c ++ s') = true) (hne : c ≠ [])
    (hno : noEOF c) : 0 < balance c := by
  have hlen : 1 ≤ c.length := List.length_pos.mpr hne
  simp only [unclosed, List.all_eq_true, List.mem_range, decide_eq_true_eq] at hu
  have h := hu (c.length - 1) (by rw [eofIndex_append c s' hno]; omega)
  rwa [show c.length - 1 + 1 = c.length by omega, List.take_left'] at h
  rfl

theorem reading_inj (a b : List Token) (h : Parser.reading a = Parser.reading b) :
    a = b ∨ (a = [] ∧ ∃ t, b = [t] ∧ t.kind = Kind.EOF) ∨
      (b = [] ∧ ∃ t, a = [t] ∧ t.kind = Kind.EOF) := by
  cases a with
  | nil =>
    cases b with
    | nil => exact Or.inl rfl
    | cons t ts =>
      have hk : (Parser.reading (t :: ts)).token_kind = Kind.EOF := by rw [← h]; rfl
      have hs : (Parser.reading (t :: ts)).scanner = [] := by rw [← h]; rfl
      have hts : ts = [] := hs
      exact Or.inr (Or.inl ⟨rfl, t, by rw [hts], hk⟩)
  | cons t ts =>
    cases b with
    | nil =>
      have hk : (Parser.reading (t :: ts)).token_kind = Kind.EOF := by rw [h]; rfl
      have hs : (Parser.reading (t :: ts)).scanner = [] := by rw [h]; rfl
      have hts : ts = [] := hs
      exact Or.inr (Or.inr ⟨rfl, t, by rw [hts], hk⟩)
    | cons u us =>
      have h1 : t = u := congrArg Parser.current h
      have h2 : ts = us := congrArg Parser.scanner h
      rw [h1, h2]
      exact Or.inl rfl

/-- The run of tokens a finished call consumed is determined by the stream it started
from and the state it ended in. -/
theorem consumed_unique (c1 s1 c2 s2 : List Token) (h : c1 ++ s1 = c2 ++ s2)
    (hr : Parser.reading s1 = Parser.reading s2) (h1 : noEOF c1) (h2 : noEOF c2) :
    c1 = c2 ∧ s1 = s2 := by
  rcases reading_inj s1 s2 hr with heq | ⟨hs1, t, hs2, ht⟩ | ⟨hs2, t, hs1, ht⟩
  · subst heq
    exact ⟨List.append_cancel_right h, rfl⟩
  · subst hs1 hs2
    rw [List.append_nil] at h
    exact absurd ht (h1 t (by rw [h]; simp))
  · subst hs1 hs2
    rw [List.append_nil] at h
    exact absurd ht (h2 t (by rw [← h]; simp))

/-! ## C14: empty and truncated input -/

/-- C14 (as amended): `Parse` fails on every token stream whose first token is
end-of-input. For a `{` token `ob` whose sequence reaches end-of-input before its matching
`}` (`unclosed (ob :: body)`), standing after any tokens `pre`: the parse of the sequence
itself fails, so `Parse` fails when the `{` is the first token; `Parse` fails whenever it
enters the sequence, that is whenever, with some other tokens `rest` after the `{`, it
returns a node and is left reading inside `rest`; and in every case `Parse` either fails
or returns a node made of tokens `c` of `pre` alone, the same node whatever follows the
`{`: no tree holding a part of the unclosed sequence is returned. -/
theorem Parse_fails_on_truncated (pre : List Token) (ob : Token) (body : List Token)
    (fuel : Nat) (hob : ob.kind = Kind.Open_brace) (hu : unclosed (ob :: body) = true)
    (hfuel : 2 * eofIndex (pre ++ ob :: body) + 1 ≤ fuel) :
    (∀ s g, (Parser.reading s).token_kind = Kind.EOF →
        Parse g (Parser.Init s) = .fail (.unexpectedToken Kind.EOF)) ∧
      (∀ g, 2 * eofIndex (ob :: body) + 1 ≤ g →
        ∃ e, Parse g (Parser.Init (ob :: body)) = .fail e ∧
          parseNode g (Parser.reading (ob :: body)) = .fail e) ∧
      ((∃ g rest y s' n, rest = y ++ s' ∧
          Parse g (Parser.Init (pre ++ ob :: rest)) = .done n (Parser.reading s')) →
        ∃ e, Parse fuel (Parser.Init (pre ++ ob :: body)) = .fail e) ∧
      ((∃ e, Parse fuel (Parser.Init (pre ++ ob :: body)) = .fail e) ∨
        ∃ n c x, c ≠ [] ∧ pre = c ++ x ∧
          ∀ rest, Parse fuel (Parser.Init (pre ++ ob :: rest)) =
            .done n (Parser.reading (x ++ ob :: rest))) := by
  have hP : ∀ g s, Parse g (Parser.Init s) = parseNode g (Parser.reading s) := fun _ _ => rfl
  have hA : (∃ e, Parse fuel (Parser.Init (pre ++ ob :: body)) = .fail e) ∨
      ∃ n c x, c ≠ [] ∧ pre = c ++ x ∧
        ∀ rest, Parse fuel (Parser.Init (pre ++ ob :: rest)) =
          .done n (Parser.reading (x ++ ob :: rest)) := by
    cases hr : parseNode fuel (Parser.reading (pre ++ ob :: body)) with
    | timeout => exact absurd hr ((parsers_terminate fuel _).2.2.2.2 hfuel)
    | fail e => exact Or.inl ⟨e, by rw [hP, hr]⟩
    | done n q =>
      right
      obtain ⟨c, s', hcs, hne, hno, hbal, hq, hframe⟩ :=
        (parsers_framed fuel).2.2.2.2 _ n q hr _ rfl
      obtain ⟨c2, s2, hcs2, hq2, hno2, -, hnn⟩ := (parsers_consumed fuel).2.2.2.2 _ n q hr _ rfl
      obtain ⟨hc, -⟩ :=
        consumed_unique c s' c2 s2 (hcs.symm.trans hcs2) (hq.symm.trans hq2) hno hno2
      subst hc
      have hfin : ∀ x, pre = c ++ x → s' = x ++ ob :: body →
          ∃ n c x, c ≠ [] ∧ pre = c ++ x ∧
            ∀ rest, Parse fuel (Parser.Init (pre ++ ob :: rest)) =
              .done n (Parser.reading (x ++ ob :: rest)) := by
        intro x hpre hs'
        refine ⟨n, c, x, hne rfl, hpre, fun rest => ?_⟩
        rw [hP, hpre, List.append_assoc]
        apply hframe
        rw [hs']
        cases x with
        | nil => exact sameHead_cons _ _ _
        | cons t x => exact sameHead_cons _ _ _
      rcases List.append_eq_append_iff.mp hcs with ⟨a, hc, hb⟩ | ⟨x, hpre, hs'⟩
      · cases a with
        | nil =>
          rw [List.append_nil] at hc
          exact hfin [] (by rw [hc, List.append_nil]) (by rw [List.nil_append] at hb; exact hb.symm)
        | cons o z =>
          exfalso
          rw [List.cons_append] at hb
          injection hb with ho hbody
          subst ho
          have hnoz : noEOF (ob :: z) := fun t ht => hno t (by rw [hc]; simp [ht])
          have hu2 : unclosed ((ob :: z) ++ s') = true := by
            rw [List.cons_append, ← hbody]; exact hu
          have hpos := unclosed_prefix (ob :: z) s' hu2 (by simp) hnoz
          have hpre := hnn pre.length
          rw [hc, List.take_left' rfl] at hpre
          rw [hc, balance_append] at hbal
          omega
      · exact hfin x hpre hs'
  refine ⟨?_, ?_, ?_, hA⟩
  · intro s g hk
    rw [hP]
    simp [parseNode, hk]
  · intro g hg
    rw [hP]
    cases hr : parseNode g (Parser.reading (ob :: body)) with
    | timeout => exact absurd hr ((parsers_terminate g _).2.2.2.2 hg)
    | fail e => exact ⟨e, rfl, rfl⟩
    | done n q =>
      obtain ⟨c, s', hcs, hne, hno, hbal, -, -⟩ := (parsers_framed g).2.2.2.2 _ n q hr _ rfl
      rw [hcs] at hu
      have := unclosed_prefix c s' hu (hne rfl) hno
      omega
  · rintro ⟨g, rest, y, s', n', hrest, hdone⟩
    rcases hA with hfail | ⟨n, c, x, -, -, hall⟩
    · exact hfail
    · exfalso
      have h1 := hall rest
      have h2 := Parse_settled _ hdone (fun h => Outcome.noConfusion h)
        (by rw [h1]; exact fun h => Outcome.noConfusion h)
      rw [h1] at h2
      injection h2 with _ hq
      rcases reading_inj _ _ hq with heq | ⟨hnil, -⟩ | ⟨-, t, ht, htk⟩
      · have hlen := congrArg List.length hrest
        rw [← heq] at hlen
        simp only [List.length_append, List.length_cons, List.length_nil] at hlen
        omega
      · cases x <;> simp at hnil
      · cases x with
        | nil =>
          rw [List.nil_append] at ht
          injection ht with ht1 _
          rw [← ht1, hob] at htk
          exact absurd htk (by decide)
        | cons u x =>
          have hlen := congrArg List.length ht
          simp only [List.cons_append, List.length_cons, List.length_append,
            List.length_nil] at hlen
          omega

/-- C14, witness: the empty input, `{ 1`, `{ 1 ;`, `{ foo`, and `foo { 1`, where the
unclosed sequence is an argument (`foo { }` shows that `Parse` enters it). -/
theorem Parse_fails_on_truncated_witness :
    Parse 0 (Parser.Init []) = .fail (.unexpectedToken Kind.EOF) ∧
      (∃ e, Parse 5 (Parser.Init [⟨0, Kind.Open_brace, "\x7b"⟩, ⟨2, Kind.Int, "1"⟩,
          ⟨3, Kind.EOF, ""⟩]) = .fail e ∧
        parseNode 5 (Parser.reading [⟨0, Kind.Open_brace, "\x7b"⟩, ⟨2, Kind.Int, "1"⟩,
          ⟨3, Kind.EOF, ""⟩]) = .fail e) ∧
      (∃ e, Parse 7 (Parser.Init [⟨0, Kind.Open_brace, "\x7b"⟩, ⟨2, Kind.Int, "1"⟩,
          ⟨4, Kind.Semi, ";"⟩, ⟨5, Kind.EOF, ""⟩]) = .fail e ∧
        parseNode 7 (Parser.reading [⟨0, Kind.Open_brace, "\x7b"⟩, ⟨2, Kind.Int, "1"⟩,
          ⟨4, Kind.Semi, ";"⟩, ⟨5, Kind.EOF, ""⟩]) = .fail e) ∧
      (∃ e, Parse 5 (Parser.Init [⟨0, Kind.Open_brace, "\x7b"⟩, ⟨2, Kind.Identifier, "foo"⟩,
          ⟨5, Kind.EOF, ""⟩]) = .fail e ∧
        parseNode 5 (Parser.reading [⟨0, Kind.Open_brace, "\x7b"⟩,
          ⟨2, Kind.Identifier, "foo"⟩, ⟨5, Kind.EOF, ""⟩]) = .fail e) ∧
      ∃ e, Parse 7 (Parser.Init ([⟨0, Kind.Identifier, "foo"⟩] ++
          ⟨4, Kind.Open_brace, "\x7b"⟩ :: [⟨6, Kind.Int, "1"⟩, ⟨7, Kind.EOF, ""⟩])) = .fail e :=
  ⟨(Parse_fails_on_truncated [] ⟨0, Kind.Open_brace, "\x7b"⟩ [⟨2, Kind.Int, "1"⟩,
      ⟨3, Kind.EOF, ""⟩] 5 rfl (by decide) (by decide)).1 [] 0 rfl,
    (Parse_fails_on_truncated [] ⟨0, Kind.Open_brace, "\x7b"⟩ [⟨2, Kind.Int, "1"⟩,
      ⟨3, Kind.EOF, ""⟩] 5 rfl (by decide) (by decide)).2.1 5 (by decide),
    (Parse_fails_on_truncated [] ⟨0, Kind.Open_brace, "\x7b"⟩ [⟨2, Kind.Int, "1"⟩,
      ⟨4, Kind.Semi, ";"⟩, ⟨5, Kind.EOF, ""⟩] 7 rfl (by decide) (by decide)).2.1 7 (by decide),
    (Parse_fails_on_truncated [] ⟨0, Kind.Open_brace, "\x7b"⟩ [⟨2, Kind.Identifier, "foo"⟩,
      ⟨5, Kind.EOF, ""⟩] 5 rfl (by decide) (by decide)).2.1 5 (by decide),
    (Parse_fails_on_truncated [⟨0, Kind.Identifier, "foo"⟩] ⟨4, Kind.Open_brace, "\x7b"⟩
      [⟨6, Kind.Int, "1"⟩, ⟨7, Kind.EOF, ""⟩] 7 rfl (by decide) (by decide)).2.2.1
      ⟨4, [⟨6, Kind.Close_brace, "\x7d"⟩, ⟨7, Kind.EOF, ""⟩], [⟨6, Kind.Close_brace, "\x7d"⟩],
        [⟨7, Kind.EOF, ""⟩],
        Node.Prim ⟨0, 7⟩ "foo" [] [Node.Sequence ⟨4, 6⟩ []], rfl, rfl⟩⟩

/-- C14, counterexample to the claim as first stated: in `1 { 2` the sequence opened by
`{` reaches end-of-input before its matching `}`, yet `Parse` returns `Int(1)`: it stops
before the `{` and never reads it. -/
theorem Parse_stops_before_unclosed :
    unclosed [⟨2, Kind.Open_brace, "\x7b"⟩, ⟨4, Kind.Int, "2"⟩, ⟨5, Kind.EOF, ""⟩] = true ∧
      Parse 7 (Parser.Init [⟨0, Kind.Int, "1"⟩, ⟨2, Kind.Open_brace, "\x7b"⟩,
          ⟨4, Kind.Int, "2"⟩, ⟨5, Kind.EOF, ""⟩]) =
        .done (Node.Int ⟨0, 0⟩ 1)
          (Parser.reading [⟨2, Kind.Open_brace, "\x7b"⟩, ⟨4, Kind.Int, "2"⟩,
            ⟨5, Kind.EOF, ""⟩]) :=
  ⟨by decide, rfl⟩

/-! ## C15: positions -/

theorem len_nonneg (t : GoString) : 0 ≤ len t := by
  unfold len
  exact Int.ofNat_nonneg _

theorem len_pos_of_data (t : GoString) (c : Char) (cs : List Char) (h : t.data = c :: cs) :
    1 ≤ len t := by
  obtain ⟨d⟩ := t
  simp only at h
  subst h
  simp only [len, String.utf8ByteSize, String.utf8ByteSize.go]
  have := Char.utf8Size_pos c
  omega

theorem ParseInt_data (t : GoString) (v : ℤ) (h : ParseInt t = some v) :
    ∃ c cs, t.data = c :: cs := by
  cases hd : t.data with
  | nil =>
    unfold ParseInt at h
    rw [hd] at h
    simp [parseMagnitude] at h
  | cons c cs => exact ⟨c, cs, rfl⟩

theorem isHex_data (t : GoString) (h : isHex t = true) : ∃ c cs, t.data = c :: cs := by
  obtain ⟨ds, rfl, -, -⟩ := (isHex_iff t).mp h
  exact ⟨_, _, rfl⟩

theorem parseAnnotation_span (p : Parser) (a : Annotation) (h : parseAnnotation p = .ok a) :
    spanOk a.Position = true := by
  unfold parseAnnotation at h
  split at h
  · exact Except.noConfusion h
  · rename_i pos _
    split at h
    · exact Except.noConfusion h
    · rename_i c cs hdata
      have hlen := len_pos_of_data _ c cs hdata
      have key : a.Position = ⟨pos, pos + len p.token_text - 1⟩ := by
        simp only at h
        split at h
        · injection h with h; rw [← h]
        · split at h
          · injection h with h; rw [← h]
          · split at h
            · injection h with h; rw [← h]
            · exact Except.noConfusion h
      rw [key]
      simp only [spanOk, decide_eq_true_eq]
      omega

theorem annotationLoop_spans :
    ∀ (f : Nat) (p : Parser) (acc r : List Annotation) (q : Parser),
      (∀ a ∈ acc, spanOk a.Position = true) → annotationLoop f p acc = .done r q →
      ∀ a ∈ r, spanOk a.Position = true := by
  intro f
  induction f with
  | zero => intro p acc r q _ h; exact Outcome.noConfusion h
  | succ f ih =>
    intro p acc r q hacc h
    rw [annotationLoop_succ] at h
    split at h
    · cases ha : parseAnnotation p with
      | error e => simp [ha] at h
      | ok a =>
        simp only [ha] at h
        refine ih p.next (acc ++ [a]) r q ?_ h
        intro b hb
        rcases List.mem_append.mp hb with hb | hb
        · exact hacc b hb
        · rw [List.mem_singleton] at hb
          rw [hb]
          exact parseAnnotation_span p a ha
    · injection h with h1 h2
      subst h1
      exact hacc

theorem spansOkAll_append (xs : List Node) (n : Node) :
    spansOkAll (xs ++ [n]) = (spansOkAll xs && spansOk n) := by
  induction xs with
  | nil => simp [spansOkAll]
  | cons x xs ih => simp [spansOkAll, ih, Bool.and_assoc]

/-- What remains of an increasing, terminated stream after tokens that are not
end-of-input is increasing, terminated, and lies after them. -/
theorem stream_after (c s1 : List Token) (hinc : increasing (c ++ s1)) (heof : hasEOF (c ++ s1))
    (hno : noEOF c) :
    increasing s1 ∧ hasEOF s1 ∧ ∀ t ∈ c, ∀ u ∈ s1, t.position < u.position := by
  unfold increasing at hinc
  rw [List.pairwise_append] at hinc
  refine ⟨hinc.2.1, ?_, hinc.2.2⟩
  obtain ⟨t, ht, hk⟩ := heof
  rcases List.mem_append.mp ht with h | h
  · exact absurd hk (hno t h)
  · exact ⟨t, h, hk⟩

theorem hasEOF_head (s : List Token) (h : hasEOF s) :
    ∃ t ts, s = t :: ts ∧ (Parser.reading s).token_position = t.position := by
  cases s with
  | nil => obtain ⟨t, ht, -⟩ := h; exact absurd ht (List.not_mem_nil t)
  | cons t ts => exact ⟨t, ts, rfl, rfl⟩

theorem parsers_spans (f : Nat) :
    (∀ p n q, parseSequence f p = .done n q →
        ∀ s, p = Parser.reading s → increasing s → hasEOF s → spansOk n = true) ∧
      (∀ p acc r q, sequenceLoop f p acc = .done r q →
        ∀ s, p = Parser.reading s → increasing s → hasEOF s → spansOkAll acc = true →
          spansOkAll r = true) ∧
      (∀ p n q, parsePrim f p = .done n q →
        ∀ s, p = Parser.reading s → increasing s → hasEOF s → spansOk n = true) ∧
      (∀ p acc r q, argumentLoop f p acc = .done r q →
        ∀ s, p = Parser.reading s → increasing s → hasEOF s → spansOkAll acc = true →
          spansOkAll r = true) ∧
      (∀ p n q, parseNode f p = .done n q →
        ∀ s, p = Parser.reading s → increasing s → hasEOF s → spansOk n = true) := by
  refine parser_induction
    (C := fun _ p n _ =>
      ∀ s, p = Parser.reading s → increasing s → hasEOF s → spansOk n = true)
    (S := fun _ p n _ =>
      ∀ s, p = Parser.reading s → increasing s → hasEOF s → spansOk n = true)
    (P := fun _ p n _ =>
      ∀ s, p = Parser.reading s → increasing s → hasEOF s → spansOk n = true)
    (L := fun _ p acc r _ =>
      ∀ s, p = Parser.reading s → increasing s → hasEOF s → spansOkAll acc = true →
        spansOkAll r = true)
    (A := fun _ p acc r _ =>
      ∀ s, p = Parser.reading s → increasing s → hasEOF s → spansOkAll acc = true →
        spansOkAll r = true)
    ?_ ?_ ?_ ?_ ?_ ?_ ?_ ?_ ?_ ?_ ?_ ?_ f
  · intro f p n q _ h s _ _ _
    obtain ⟨-, -, hn, hhex⟩ := parseBytes_done p n q h
    obtain ⟨c, cs, hd⟩ := isHex_data _ hhex
    have := len_pos_of_data _ c cs hd
    rw [hn]
    simp only [spansOk, spanOk, decide_eq_true_eq]
    omega
  · intro f p n q _ h s _ _ _
    obtain ⟨-, -, hn⟩ := parseString_done p n q h
    have := len_nonneg p.token_text
    rw [hn]
    simp only [spansOk, spanOk, decide_eq_true_eq]
    omega
  · intro f p n q _ h s _ _ _
    obtain ⟨-, -, v, hv, hn⟩ := parseInt_done p n q h
    obtain ⟨c, cs, hd⟩ := ParseInt_data _ v hv
    have := len_pos_of_data _ c cs hd
    rw [hn]
    simp only [spansOk, spanOk, decide_eq_true_eq]
    omega
  · intro f p n q _ _ hP
    exact hP
  · intro f p n q _ _ hS
    exact hS
  · -- sIntro
    intro f p els p1 hk hloop hSL hc s hs hinc heof
    obtain ⟨opn, s0, rfl, hok, hop, -, hnext⟩ :=
      exists_cons_of_reading p s hs (by rw [hk]; decide)
    rw [hk] at hok
    obtain ⟨hinc0, heof0, hlt0⟩ := stream_after [opn] s0 hinc heof
      (noEOF_singleton opn (by rw [hok]; decide))
    have hels := hSL s0 hnext hinc0 heof0 rfl
    obtain ⟨c, s1, rfl, -, hno, -, hp1, -⟩ := (parsers_framed f).2.1 _ _ _ _ hloop s0 hnext
    obtain ⟨cls, s2, rfl, -, hcp, -, -⟩ :=
      exists_cons_of_reading p1 s1 hp1 (by rw [hc]; decide)
    have hlt := hlt0 opn (by simp) cls (by simp)
    simp only [spansOk, spanOk, hels, Bool.and_true, decide_eq_true_eq, ← hop, ← hcp]
    omega
  · intro f p acc _ s _ _ _ hacc
    exact hacc
  · -- slSemi
    intro f p acc n p1 r q _ hchild hC hsemi _ hSL s hs hinc heof hacc
    have hn := hC s hs hinc heof
    obtain ⟨c1, s1, rfl, -, hno1, -, hp1, -⟩ := (parsers_framed f).2.2.2.2 _ _ _ hchild s hs
    obtain ⟨hinc1, heof1, -⟩ := stream_after c1 s1 hinc heof hno1
    obtain ⟨semi, s1', rfl, hsk, -, -, hnext1⟩ :=
      exists_cons_of_reading p1 s1 hp1 (by rw [hsemi]; decide)
    rw [hsemi] at hsk
    obtain ⟨hinc2, heof2, -⟩ := stream_after [semi] s1' hinc1 heof1
      (noEOF_singleton semi (by rw [hsk]; decide))
    exact hSL s1' hnext1 hinc2 heof2 (by rw [spansOkAll_append, hacc, hn]; rfl)
  · -- slClose
    intro f p acc n p1 r q _ hchild hC _ _ hSL s hs hinc heof hacc
    have hn := hC s hs hinc heof
    obtain ⟨c1, s1, rfl, -, hno1, -, hp1, -⟩ := (parsers_framed f).2.2.2.2 _ _ _ hchild s hs
    obtain ⟨hinc1, heof1, -⟩ := stream_after c1 s1 hinc heof hno1
    exact hSL s1 hp1 hinc1 heof1 (by rw [spansOkAll_append, hacc, hn]; rfl)
  · -- pIntro
    intro f p annots p1 args p2 hk hann hloop hAL s hs hinc heof
    obtain ⟨ident, s0, rfl, hik, hip, -, hnext⟩ :=
      exists_cons_of_reading p s hs (by rw [hk]; decide)
    rw [hk] at hik
    obtain ⟨hinc0, heof0, hlt0⟩ := stream_after [ident] s0 hinc heof
      (noEOF_singleton ident (by rw [hik]; decide))
    obtain ⟨ca, s1, rfl, -, hnoa, -, hp1, -⟩ :=
      annotationLoop_framed f p.next [] annots p1 hann s0 hnext
    obtain ⟨hinc1, heof1, -⟩ := stream_after ca s1 hinc0 heof0 hnoa
    have hargs := hAL s1 hp1 hinc1 heof1 rfl
    obtain ⟨cb, s2, rfl, -, hnob, -, hp2, -⟩ := (parsers_framed f).2.2.2.1 _ _ _ _ hloop s1 hp1
    obtain ⟨-, heof2, -⟩ := stream_after cb s2 hinc1 heof1 hnob
    obtain ⟨t, ts, rfl, htp⟩ := hasEOF_head s2 heof2
    have hlt := hlt0 ident (by simp) t (by simp)
    have hannots := annotationLoop_spans f p.next [] annots p1
      (fun a ha => absurd ha (List.not_mem_nil a)) hann
    have hpos2 : p2.token_position = t.position := by rw [hp2]; exact htp
    simp only [spansOk, spanOk, hargs, Bool.and_true, Bool.and_eq_true, decide_eq_true_eq,
      List.all_eq_true, ← hip, hpos2]
    exact ⟨by omega, fun a ha => by simpa [spanOk] using hannots a ha⟩
  · intro f p acc _ s _ _ _ hacc
    exact hacc
  · -- alStep
    intro f p acc n p1 r q _ hchild hC _ hAL s hs hinc heof hacc
    have hn := hC s hs hinc heof
    obtain ⟨c1, s1, rfl, -, hno1, -, hp1, -⟩ := (parsers_framed f).2.2.2.2 _ _ _ hchild s hs
    obtain ⟨hinc1, heof1, -⟩ := stream_after c1 s1 hinc heof hno1
    exact hAL s1 hp1 hinc1 heof1 (by rw [spansOkAll_append, hacc, hn]; rfl)

/-- C15: for every token stream whose offsets are strictly increasing and which is
terminated by an end-of-input token, every node and every annotation of the tree
returned by `Parse` satisfies `Pos ≤ End`. -/
theorem Parse_spans (s : List Token) (hinc : increasing s) (heof : hasEOF s) (fuel : Nat)
    (n : Node) (q : Parser) (h : Parse fuel (Parser.Init s) = .done n q) :
    spansOk n = true :=
  (parsers_spans fuel).2.2.2.2 _ n q h s rfl hinc heof

/-- C15, witness: the tree parsed from `{ foo %a 1 ; "x" }`. -/
theorem Parse_spans_witness :
    spansOk (Node.Sequence ⟨0, 18⟩
      [Node.Prim ⟨2, 11⟩ "foo" [⟨⟨6, 7⟩, FieldAnnotation, "%a"⟩] [Node.Int ⟨9, 9⟩ 1],
        Node.String ⟨13, 15⟩ "x"]) = true :=
  Parse_spans
    [⟨0, Kind.Open_brace, "\x7b"⟩, ⟨2, Kind.Identifier, "foo"⟩, ⟨6, Kind.Annot, "%a"⟩,
      ⟨9, Kind.Int, "1"⟩, ⟨11, Kind.Semi, ";"⟩, ⟨13, Kind.String, "x"⟩,
      ⟨18, Kind.Close_brace, "\x7d"⟩, ⟨19, Kind.EOF, ""⟩]
    (by unfold increasing; decide) ⟨⟨19, Kind.EOF, ""⟩, by simp, rfl⟩ 5 _
    (Parser.reading [⟨19, Kind.EOF, ""⟩]) rfl

/-! ## The scanner is not asked for tokens after end-of-input -/

theorem cut_kind (p : Parser) : p.cut.token_kind = p.token_kind := rfl

theorem cut_position (p : Parser) : p.cut.token_position = p.token_position := rfl

theorem cut_text (p : Parser) : p.cut.token_text = p.token_text := rfl

theorem cut_expect (p : Parser) (k : Kind) : p.cut.expect k = p.expect k := rfl

/-- Moving on from a token that is not end-of-input commutes with the cut. -/
theorem cut_next (p : Parser) (hk : p.token_kind ≠ Kind.EOF) : p.cut.next = p.next.cut := by
  obtain ⟨pos, kind, text, scanner⟩ := p
  simp only at hk
  cases scanner with
  | nil => simp [Parser.cut, Parser.next, Scanner.Scan, hk, eofIndex]
  | cons t ts =>
    by_cases ht : t.kind = Kind.EOF
    · simp [Parser.cut, Parser.next, Scanner.Scan, hk, eofIndex, ht]
    · simp [Parser.cut, Parser.next, Scanner.Scan, hk, eofIndex, ht]

theorem cut_reading (s : List Token) :
    (Parser.reading s).cut = Parser.reading (s.take (eofIndex s + 1)) := by
  cases s with
  | nil => rfl
  | cons t ts =>
    by_cases ht : t.kind = Kind.EOF
    · simp [Parser.cut, Parser.reading, Parser.Init, Parser.next, Scanner.Scan, eofIndex, ht]
    · simp [Parser.cut, Parser.reading, Parser.Init, Parser.next, Scanner.Scan, eofIndex, ht]

theorem parseBytes_cut (p : Parser) : parseBytes p.cut = (parseBytes p).mapState Parser.cut := by
  unfold parseBytes
  rw [cut_expect]
  cases he : p.expect Kind.Bytes with
  | error e => rfl
  | ok pos =>
    have hk : p.token_kind ≠ Kind.EOF := by
      rw [((expect_ok_iff p _ pos).mp he).1]; decide
    simp only [cut_text, cut_next p hk]
    split <;> rfl

theorem parseString_cut (p : Parser) :
    parseString p.cut = (parseString p).mapState Parser.cut := by
  unfold parseString
  rw [cut_expect]
  cases he : p.expect Kind.String with
  | error e => rfl
  | ok pos =>
    have hk : p.token_kind ≠ Kind.EOF := by
      rw [((expect_ok_iff p _ pos).mp he).1]; decide
    simp only [cut_text, cut_next p hk]
    rfl

theorem parseInt_cut (p : Parser) : parseInt p.cut = (parseInt p).mapState Parser.cut := by
  unfold parseInt
  rw [cut_expect]
  cases he : p.expect Kind.Int with
  | error e => rfl
  | ok pos =>
    have hk : p.token_kind ≠ Kind.EOF := by
      rw [((expect_ok_iff p _ pos).mp he).1]; decide
    simp only [cut_text, cut_next p hk]
    split <;> rfl

theorem parseAnnotation_cut (p : Parser) : parseAnnotation p.cut = parseAnnotation p := rfl

theorem annotationLoop_cut :
    ∀ (f : Nat) (p : Parser) (acc : List Annotation),
      annotationLoop f p.cut acc = (annotationLoop f p acc).mapState Parser.cut := by
  intro f
  induction f with
  | zero => intro p acc; rfl
  | succ f ih =>
    intro p acc
    rw [annotationLoop_succ, annotationLoop_succ, cut_kind, parseAnnotation_cut]
    split
    · rename_i hk
      cases parseAnnotation p with
      | error e => rfl
      | ok a =>
        simp only
        rw [cut_next p (by rw [hk]; decide)]
        exact ih _ _
    · rfl

theorem parsers_cut (f : Nat) :
    (∀ p, parseSequence f p.cut = (parseSequence f p).mapState Parser.cut) ∧
      (∀ p acc, sequenceLoop f p.cut acc = (sequenceLoop f p acc).mapState Parser.cut) ∧
      (∀ p, parsePrim f p.cut = (parsePrim f p).mapState Parser.cut) ∧
      (∀ p acc, argumentLoop f p.cut acc = (argumentLoop f p acc).mapState Parser.cut) ∧
      (∀ p, parseNode f p.cut = (parseNode f p).mapState Parser.cut) := by
  have hN : ∀ f, (∀ p, parseSequence f p.cut = (parseSequence f p).mapState Parser.cut) →
      (∀ p, parsePrim f p.cut = (parsePrim f p).mapState Parser.cut) →
      ∀ p, parseNode f p.cut = (parseNode f p).mapState Parser.cut := by
    intro f hS hP p
    unfold parseNode
    rw [cut_kind]
    cases hk : p.token_kind <;> simp only
    case Bytes => exact parseBytes_cut p
    case String => exact parseString_cut p
    case Int => exact parseInt_cut p
    case Identifier => exact hP p
    case Open_brace => exact hS p
    all_goals rfl
  induction f with
  | zero =>
    exact ⟨fun _ => rfl, fun _ _ => rfl, fun _ => rfl, fun _ _ => rfl,
      hN 0 (fun _ => rfl) (fun _ => rfl)⟩
  | succ f ih =>
    obtain ⟨ihS, ihSL, ihP, ihAL, ihN⟩ := ih
    have h1 : ∀ p, parseSequence (f + 1) p.cut =
        (parseSequence (f + 1) p).mapState Parser.cut := by
      intro p
      rw [parseSequence_succ, parseSequence_succ, cut_kind]
      split
      · rename_i hk
        rw [cut_next p (by rw [hk]; decide), ihSL]
        cases sequenceLoop f p.next [] with
        | timeout => rfl
        | fail e => rfl
        | done els p1 =>
          simp only [Outcome.mapState, cut_kind, cut_position]
          split
          · rename_i hc
            rw [cut_next p1 (by rw [hc]; decide)]
          · rfl
      · rfl
    have h2 : ∀ p acc, sequenceLoop (f + 1) p.cut acc =
        (sequenceLoop (f + 1) p acc).mapState Parser.cut := by
      intro p acc
      rw [sequenceLoop_succ, sequenceLoop_succ, cut_kind]
      split
      · rfl
      · rw [ihN]
        cases parseNode f p with
        | timeout => rfl
        | fail e => rfl
        | done n p1 =>
          simp only [Outcome.mapState, cut_kind, cut_expect]
          split
          · by_cases hs : p1.token_kind = Kind.Semi
            · rw [expect_of_kind p1 _ hs]
              simp only
              rw [cut_next p1 (by rw [hs]; decide)]
              exact ihSL _ _
            · rw [expect_of_ne p1 _ hs]
          · exact ihSL _ _
    have h3 : ∀ p, parsePrim (f + 1) p.cut = (parsePrim (f + 1) p).mapState Parser.cut := by
      intro p
      rw [parsePrim_succ, parsePrim_succ, cut_kind]
      split
      · rename_i hk
        rw [cut_next p (by rw [hk]; decide), annotationLoop_cut]
        cases annotationLoop f p.next [] with
        | timeout => rfl
        | fail e => rfl
        | done annots p1 =>
          simp only [Outcome.mapState]
          rw [ihAL]
          cases argumentLoop f p1 [] with
          | timeout => rfl
          | fail e => rfl
          | done args p2 => rfl
      · rfl
    have h4 : ∀ p acc, argumentLoop (f + 1) p.cut acc =
        (argumentLoop (f + 1) p acc).mapState Parser.cut := by
      intro p acc
      rw [argumentLoop_succ, argumentLoop_succ, cut_kind]
      split
      · rw [ihN]
        cases parseNode f p with
        | timeout => rfl
        | fail e => rfl
        | done n p1 =>
          simp only [Outcome.mapState]
          exact ihAL _ _
      · rfl
    exact ⟨h1, h2, h3, h4, hN (f + 1) h1 h3⟩

/-! ## C16: parsing is bounded by the input length -/

theorem eofIndex_le_length (s : List Token) : eofIndex s ≤ s.length := by
  induction s with
  | nil => exact le_refl _
  | cons t ts ih =>
    simp only [eofIndex, List.length_cons]
    split <;> omega

/-- C16: on every token stream `s`, with fuel `2 * length s + 1` or more, `Parse`
terminates with a node or an error; when it returns a node it has moved past a
non-empty run `c` of tokens, none of them end-of-input, and reads what follows; each
call of `parseNode`, the body of an iteration of the loops of `parseSequence` and
`parsePrim`, that returns a node has likewise consumed at least one token; and the
outcome of `Parse` is the same when everything after the first end-of-input token is
removed from the stream: the scanner is never asked for a token after end-of-input. -/
theorem Parse_bounded (s : List Token) (fuel : Nat) (hfuel : 2 * s.length + 1 ≤ fuel) :
    Parse fuel (Parser.Init s) ≠ .timeout ∧
      (∀ n q, Parse fuel (Parser.Init s) = .done n q →
        ∃ c s', c ≠ [] ∧ noEOF c ∧ s = c ++ s' ∧ q = Parser.reading s') ∧
      (∀ g p n q, parseNode g p = .done n q →
        ∃ c s', c ≠ [] ∧ noEOF c ∧ p = Parser.reading (c ++ s') ∧ q = Parser.reading s') ∧
      Parse fuel (Parser.Init (s.take (eofIndex s + 1))) =
        (Parse fuel (Parser.Init s)).mapState Parser.cut := by
  have hP : ∀ t, Parse fuel (Parser.Init t) = parseNode fuel (Parser.reading t) := fun _ => rfl
  have hE := eofIndex_le_length s
  refine ⟨?_, ?_, ?_, ?_⟩
  · rw [hP]
    exact (parsers_terminate fuel s).2.2.2.2 (by omega)
  · intro n q h
    rw [hP] at h
    obtain ⟨c, s', hcs, hne, hno, -, hq, -⟩ := (parsers_framed fuel).2.2.2.2 _ n q h s rfl
    exact ⟨c, s', hne rfl, hno, hcs, hq⟩
  · intro g p n q h
    obtain ⟨c, s', hcs, hne, hno, -, hq, -⟩ :=
      (parsers_framed g).2.2.2.2 p n q h (p.current :: p.scanner) rfl
    refine ⟨c, s', hne rfl, hno, ?_, hq⟩
    rw [← hcs]
    rfl
  · rw [hP, hP, ← cut_reading]
    exact (parsers_cut fuel).2.2.2.2 _

/-- C16, witness: `{ foo 1 ; 2 }` followed by end-of-input and by stray tokens. -/
theorem Parse_bounded_witness :
    Parse 19 (Parser.Init [⟨0, Kind.Open_brace, "\x7b"⟩, ⟨2, Kind.Identifier, "foo"⟩,
        ⟨6, Kind.Int, "1"⟩, ⟨8, Kind.Semi, ";"⟩, ⟨10, Kind.Int, "2"⟩,
        ⟨12, Kind.Close_brace, "\x7d"⟩, ⟨13, Kind.EOF, ""⟩, ⟨14, Kind.Int, "3"⟩,
        ⟨16, Kind.Semi, ";"⟩]) ≠ .timeout ∧
      Parse 19 (Parser.Init [⟨0, Kind.Open_brace, "\x7b"⟩, ⟨2, Kind.Identifier, "foo"⟩,
        ⟨6, Kind.Int, "1"⟩, ⟨8, Kind.Semi, ";"⟩, ⟨10, Kind.Int, "2"⟩,
        ⟨12, Kind.Close_brace, "\x7d"⟩, ⟨13, Kind.EOF, ""⟩]) =
      (Parse 19 (Parser.Init [⟨0, Kind.Open_brace, "\x7b"⟩, ⟨2, Kind.Identifier, "foo"⟩,
        ⟨6, Kind.Int, "1"⟩, ⟨8, Kind.Semi, ";"⟩, ⟨10, Kind.Int, "2"⟩,
        ⟨12, Kind.Close_brace, "\x7d"⟩, ⟨13, Kind.EOF, ""⟩, ⟨14, Kind.Int, "3"⟩,
        ⟨16, Kind.Semi, ";"⟩])).mapState Parser.cut := by
  have h := Parse_bounded [⟨0, Kind.Open_brace, "\x7b"⟩, ⟨2, Kind.Identifier, "foo"⟩,
    ⟨6, Kind.Int, "1"⟩, ⟨8, Kind.Semi, ";"⟩, ⟨10, Kind.Int, "2"⟩,
    ⟨12, Kind.Close_brace, "\x7d"⟩, ⟨13, Kind.EOF, ""⟩, ⟨14, Kind.Int, "3"⟩,
    ⟨16, Kind.Semi, ";"⟩] 19 (by decide)
  exact ⟨h.1, h.2.2.2⟩

/-! ## C19: greedy nesting -/

theorem greedyAll_append (xs : List Node) (n : Node) :
    greedyAll (xs ++ [n]) = (greedyAll xs && greedy n) := by
  induction xs with
  | nil => simp [greedyAll]
  | cons x xs ih => simp [greedyAll, ih, Bool.and_assoc]

theorem argumentLoop_at_stop (f : Nat) (p : Parser) (acc r : List Node) (q : Parser)
    (hk : startsNode p.token_kind = false) (h : argumentLoop f p acc = .done r q) :
    r = acc ∧ q = p := by
  cases f with
  | zero => exact Outcome.noConfusion h
  | succ f =>
    rw [argumentLoop_succ, hk] at h
    simp only [Bool.false_eq_true, if_false] at h
    injection h with h1 h2
    exact ⟨h1.symm, h2.symm⟩

theorem parsers_greedy (f : Nat) :
    (∀ p n q, parseSequence f p = .done n q → greedy n = true ∧ isPrim n = false) ∧
      (∀ p acc r q, sequenceLoop f p acc = .done r q →
        greedyAll acc = true → greedyAll r = true) ∧
      (∀ p n q, parsePrim f p = .done n q →
        greedy n = true ∧ startsNode q.token_kind = false) ∧
      (∀ p acc r q, argumentLoop f p acc = .done r q →
        greedyAll acc = true → acc.all (fun a => !isPrim a) = true →
        greedyAll r = true ∧ r.dropLast.all (fun a => !isPrim a) = true ∧
          startsNode q.token_kind = false) ∧
      (∀ p n q, parseNode f p = .done n q →
        greedy n = true ∧ (isPrim n = true → startsNode q.token_kind = false)) := by
  refine parser_induction
    (C := fun _ _ n q =>
      greedy n = true ∧ (isPrim n = true → startsNode q.token_kind = false))
    (S := fun _ _ n _ => greedy n = true ∧ isPrim n = false)
    (P := fun _ _ n q => greedy n = true ∧ startsNode q.token_kind = false)
    (L := fun _ _ acc r _ => greedyAll acc = true → greedyAll r = true)
    (A := fun _ _ acc r q =>
      greedyAll acc = true → acc.all (fun a => !isPrim a) = true →
        greedyAll r = true ∧ r.dropLast.all (fun a => !isPrim a) = true ∧
          startsNode q.token_kind = false)
    ?_ ?_ ?_ ?_ ?_ ?_ ?_ ?_ ?_ ?_ ?_ ?_ f
  · intro f p n q _ h
    obtain ⟨-, -, hn, -⟩ := parseBytes_done p n q h
    rw [hn]
    exact ⟨rfl, fun h => absurd h (by simp [isPrim])⟩
  · intro f p n q _ h
    obtain ⟨-, -, hn⟩ := parseString_done p n q h
    rw [hn]
    exact ⟨rfl, fun h => absurd h (by simp [isPrim])⟩
  · intro f p n q _ h
    obtain ⟨-, -, v, -, hn⟩ := parseInt_done p n q h
    rw [hn]
    exact ⟨rfl, fun h => absurd h (by simp [isPrim])⟩
  · intro f p n q _ _ hP
    exact ⟨hP.1, fun _ => hP.2⟩
  · intro f p n q _ _ hS
    exact ⟨hS.1, fun h => absurd h (by simp [hS.2])⟩
  · intro f p els p1 _ _ hSL _
    exact ⟨by simpa [greedy] using hSL rfl, rfl⟩
  · intro f p acc _ hacc
    exact hacc
  · intro f p acc n p1 r q _ _ hC _ _ hSL hacc
    exact hSL (by rw [greedyAll_append, hacc, hC.1]; rfl)
  · intro f p acc n p1 r q _ _ hC _ _ hSL hacc
    exact hSL (by rw [greedyAll_append, hacc, hC.1]; rfl)
  · intro f p annots p1 args p2 _ _ _ hAL
    obtain ⟨h1, h2, h3⟩ := hAL rfl rfl
    exact ⟨by simp only [greedy, h1, h2]; rfl, h3⟩
  · intro f p acc hk hacc hnp
    refine ⟨hacc, ?_, hk⟩
    rw [List.all_eq_true] at hnp ⊢
    exact fun a ha => hnp a (List.dropLast_subset acc ha)
  · intro f p acc n p1 r q _ _ hC hloop hAL hacc hnp
    have hacc2 : greedyAll (acc ++ [n]) = true := by rw [greedyAll_append, hacc, hC.1]; rfl
    cases hn : isPrim n with
    | true =>
      have hstop := hC.2 hn
      obtain ⟨hr, hq⟩ := argumentLoop_at_stop f p1 _ r q hstop hloop
      rw [hr, hq]
      exact ⟨hacc2, by rw [List.dropLast_concat]; exact hnp, hstop⟩
    | false =>
      refine hAL hacc2 ?_
      rw [List.all_append, hnp]
      simp [hn]

/-- C19: in every tree returned by `Parse`, each Prim has at most one argument that is
itself a Prim, and that argument is its last one: every argument before the last is a
Bytes, Int, String or Sequence node. -/
theorem Parse_greedy (fuel : Nat) (p : Parser) (n : Node) (q : Parser)
    (h : Parse fuel p = .done n q) : greedy n = true :=
  ((parsers_greedy fuel).2.2.2.2 _ n q h).1

/-- C19, witness: `foo bar 1 2` parses to `foo [bar [1, 2]]`, which is greedy;
`foo [bar, 1, 2]` is not. -/
theorem Parse_greedy_witness :
    greedy (Node.Prim ⟨0, 12⟩ "foo" []
        [Node.Prim ⟨4, 12⟩ "bar" [] [Node.Int ⟨8, 8⟩ 1, Node.Int ⟨10, 10⟩ 2]]) = true ∧
      greedy (Node.Prim ⟨0, 12⟩ "foo" []
        [Node.Prim ⟨4, 8⟩ "bar" [] [], Node.Int ⟨8, 8⟩ 1, Node.Int ⟨10, 10⟩ 2]) = false :=
  ⟨Parse_greedy 6
      (Parser.Init [⟨0, Kind.Identifier, "foo"⟩, ⟨4, Kind.Identifier, "bar"⟩,
        ⟨8, Kind.Int, "1"⟩, ⟨10, Kind.Int, "2"⟩, ⟨12, Kind.EOF, ""⟩])
      _ (Parser.reading [⟨12, Kind.EOF, ""⟩]) rfl,
    rfl⟩

/-! ## C20: nothing is required after the top-level node -/

end Micheline

namespace Action

open Micheline (GoString Slice)

/-! ## C17: `ApplyActions` reports every action in order -/

theorem buildResult_eq {σ : Type} (action : IAction σ) (w : σ) :
    buildResult (if (action.Run w).2.1 = true then ActionStatus.Success
      else ActionStatus.Failure) (action.Run w).1 action (action.Run w).2.2 =
      expectedEntry action w := by
  unfold buildResult expectedEntry
  cases (action.Run w).1 <;> rfl

theorem applyLoop_eq {σ : Type} (actions : List (IAction σ)) :
    ∀ (w : σ) (responses : List ActionResult),
      applyLoop w actions responses =
        (responses ++ expectedEntries w actions, stateAfter w actions) := by
  induction actions with
  | nil => intro w responses; simp [applyLoop, expectedEntries, stateAfter]
  | cons a rest ih =>
    intro w responses
    have hb := buildResult_eq a w
    rw [applyLoop]
    cases hr : a.Run w with
    | mk result rest2 =>
      cases rest2 with
      | mk ok w1 =>
        rw [hr] at hb
        simp only at hb
        cases ok with
        | true =>
          simp only [if_true] at hb ⊢
          rw [ih, hb]
          simp [expectedEntries, stateAfter, hr]
        | false =>
          simp only [Bool.false_eq_true, if_false] at hb ⊢
          rw [ih, hb]
          simp [expectedEntries, stateAfter, hr]

theorem expectedEntries_length {σ : Type} (actions : List (IAction σ)) :
    ∀ w : σ, (expectedEntries w actions).length = actions.length := by
  induction actions with
  | nil => intro w; rfl
  | cons a rest ih => intro w; simp [expectedEntries, ih]

theorem expectedEntries_get {σ : Type} (actions : List (IAction σ)) :
    ∀ (w : σ) (i : Nat) (hi : i < actions.length),
      (expectedEntries w actions)[i]? =
        some (expectedEntry (actions.get ⟨i, hi⟩) (stateAfter w (actions.take i))) := by
  induction actions with
  | nil => intro w i hi; exact absurd hi (Nat.not_lt_zero i)
  | cons a rest ih =>
    intro w i hi
    cases i with
    | zero => simp [expectedEntries, stateAfter]
    | succ i =>
      simp only [expectedEntries, List.getElem?_cons_succ, List.take_succ_cons, stateAfter,
        List.get_cons_succ]
      exact ih _ i (by simpa using hi)

/-- C17: for every list of actions run from a state `w`, the result list has the same
length, and its `i`-th entry, for the `i`-th action run in the state the earlier
actions left, has Status `Success` if `Run` returned `ok = true` and `Failure`
otherwise, Action equal to the output of `Marshal()`, and Result equal to the result of
`Run` unless that is a string or an error, in which case it is the map
`{"details": <its text>}`; whether earlier actions failed plays no part. -/
theorem ApplyActions_entries {σ : Type} (w : σ) (actions : List (IAction σ)) (i : Nat)
    (hi : i < actions.length) :
    (ApplyActions w actions).length = actions.length ∧
      (ApplyActions w actions)[i]? =
        some
          { Status :=
              if ((actions.get ⟨i, hi⟩).Run (stateAfter w (actions.take i))).2.1 = true then
                ActionStatus.Success
              else ActionStatus.Failure
            Action := (actions.get ⟨i, hi⟩).Marshal
              ((actions.get ⟨i, hi⟩).Run (stateAfter w (actions.take i))).2.2
            Result :=
              match ((actions.get ⟨i, hi⟩).Run (stateAfter w (actions.take i))).1 with
              | Value.str s => Value.map [("details", Value.str s)]
              | Value.err message => Value.map [("details", Value.str message)]
              | v => v } := by
  have h : ApplyActions w actions = expectedEntries w actions := by
    simp [ApplyActions, applyLoop_eq]
  rw [h]
  exact ⟨expectedEntries_length actions w, expectedEntries_get actions w i hi⟩

/-- C17, witness: the actions of the test, `alice` returning `({}, true)` and `bob`
returning `("ERROR", false)`, give `[Success/{}, Failure/{"details":"ERROR"}]`. -/
theorem ApplyActions_entries_witness :
    ((ApplyActions ()
        [(⟨fun w => (Value.map [], true, w), fun _ => "alice"⟩ : IAction Unit),
          ⟨fun w => (Value.str "ERROR", false, w), fun _ => "bob"⟩]).length = 2 ∧
      (ApplyActions ()
        [(⟨fun w => (Value.map [], true, w), fun _ => "alice"⟩ : IAction Unit),
          ⟨fun w => (Value.str "ERROR", false, w), fun _ => "bob"⟩])[0]? =
        some ⟨ActionStatus.Success, "alice", Value.map []⟩) ∧
      (ApplyActions ()
        [(⟨fun w => (Value.map [], true, w), fun _ => "alice"⟩ : IAction Unit),
          ⟨fun w => (Value.str "ERROR", false, w), fun _ => "bob"⟩]).length = 2 ∧
      (ApplyActions ()
        [(⟨fun w => (Value.map [], true, w), fun _ => "alice"⟩ : IAction Unit),
          ⟨fun w => (Value.str "ERROR", false, w), fun _ => "bob"⟩])[1]? =
        some ⟨ActionStatus.Failure, "bob", Value.map [("details", Value.str "ERROR")]⟩ :=
  ⟨ApplyActions_entries ()
      [(⟨fun w => (Value.map [], true, w), fun _ => "alice"⟩ : IAction Unit),
        ⟨fun w => (Value.str "ERROR", false, w), fun _ => "bob"⟩] 0 (by decide),
    ApplyActions_entries ()
      [(⟨fun w => (Value.map [], true, w), fun _ => "alice"⟩ : IAction Unit),
        ⟨fun w => (Value.str "ERROR", false, w), fun _ => "bob"⟩] 1 (by decide)⟩

/-! ## C18: `GetActions` is all-or-nothing -/

theorem kindOfString_eq_none (names : KindNames) (kind : GoString)
    (h : kind ∉ knownKinds names) : kindOfString names kind = none := by
  simp only [knownKinds, List.mem_cons, List.mem_singleton, List.not_mem_nil, or_false,
    not_or] at h
  obtain ⟨h1, h2, h3, h4, h5, h6⟩ := h
  simp [kindOfString, h1, h2, h3, h4, h5, h6]

theorem kindOfString_isSome (names : KindNames) (kind : GoString)
    (h : kind ∈ knownKinds names) : ∃ k, kindOfString names kind = some k := by
  cases hk : kindOfString names kind with
  | some k => exact ⟨k, rfl⟩
  | none =>
    exfalso
    simp only [knownKinds, List.mem_cons, List.mem_singleton, List.not_mem_nil, or_false] at h
    unfold kindOfString at hk
    repeat' split at hk
    all_goals first
      | exact Option.noConfusion hk
      | (rcases h with h | h | h | h | h | h <;> contradiction)

theorem getLoop_known (names : KindNames) (unmarshal : ActionKind → RawAction → Option GoString)
    (pre : List RawAction) (hk : ∀ r ∈ pre, r.kind ∈ knownKinds names)
    (hu : ∀ r ∈ pre, ∀ k, kindOfString names r.kind = some k → unmarshal k r = none) :
    ∀ (tail : List RawAction) (acc : List BuiltAction),
      getLoop names unmarshal (pre ++ tail) acc =
        getLoop names unmarshal tail (acc ++ builtFrom names pre) := by
  induction pre with
  | nil => intro tail acc; simp [builtFrom]
  | cons r pre ih =>
    intro tail acc
    obtain ⟨k, hkr⟩ := kindOfString_isSome names r.kind (hk r (by simp))
    have hur := hu r (by simp) k hkr
    rw [List.cons_append, getLoop]
    simp only [hkr, hur]
    rw [ih (fun x hx => hk x (List.mem_cons_of_mem _ hx))
      (fun x hx => hu x (List.mem_cons_of_mem _ hx))]
    simp [builtFrom, hkr]

theorem builtFrom_spec (names : KindNames) (pre : List RawAction)
    (hk : ∀ r ∈ pre, r.kind ∈ knownKinds names) :
    (builtFrom names pre).length = pre.length ∧
      (builtFrom names pre).map (fun a => a.raw) = pre ∧
      ∀ a ∈ builtFrom names pre, kindOfString names a.raw.kind = some a.kind := by
  induction pre with
  | nil => simp [builtFrom]
  | cons r pre ih =>
    obtain ⟨k, hkr⟩ := kindOfString_isSome names r.kind (hk r (by simp))
    obtain ⟨h1, h2, h3⟩ := ih (fun x hx => hk x (List.mem_cons_of_mem _ hx))
    have hb : builtFrom names (r :: pre) = { kind := k, raw := r } :: builtFrom names pre := by
      simp [builtFrom, hkr]
    rw [hb]
    refine ⟨by simp [h1], by simp [h2], ?_⟩
    intro a ha
    rcases List.mem_cons.mp ha with rfl | ha
    · exact hkr
    · exact h3 a ha

/-- C18: for raw actions `pre` whose kinds are all among the six known kinds and which
all unmarshal, `GetActions` returns exactly one action per raw entry, in order, and no
error; and when such entries are followed by an entry whose kind is not one of the six
known kinds, `GetActions` returns no actions at all (`nil`, not the decoded prefix)
together with the error `Unexpected action kind (<kind>).`. -/
theorem GetActions_all_or_nothing (names : KindNames)
    (unmarshal : ActionKind → RawAction → Option GoString) (pre : List RawAction)
    (hk : ∀ r ∈ pre, r.kind ∈ knownKinds names)
    (hu : ∀ r ∈ pre, ∀ k, kindOfString names r.kind = some k → unmarshal k r = none) :
    (∃ actions, GetActions names unmarshal pre = (Slice.items actions, none) ∧
        actions.length = pre.length ∧ actions.map (fun a => a.raw) = pre ∧
        ∀ a ∈ actions, kindOfString names a.raw.kind = some a.kind) ∧
      ∀ (bad : RawAction) (rest : List RawAction), bad.kind ∉ knownKinds names →
        GetActions names unmarshal (pre ++ bad :: rest) =
          (Slice.nil,
            some (GetError.errorf ("Unexpected action kind (" ++ bad.kind ++ ")."))) := by
  constructor
  · refine ⟨builtFrom names pre, ?_, builtFrom_spec names pre hk⟩
    have h := getLoop_known names unmarshal pre hk hu [] []
    rw [List.append_nil, List.nil_append] at h
    rw [GetActions, h]
    rfl
  · intro bad rest hbad
    rw [GetActions, getLoop_known names unmarshal pre hk hu, getLoop]
    simp only [kindOfString_eq_none names bad.kind hbad]

theorem GetActions_all_or_nothing_witness :
    (∃ actions,
        GetActions ⟨"k1", "k2", "k3", "k4", "create_implicit_account", "k6"⟩ (fun _ _ => none)
            [⟨"alice", "create_implicit_account"⟩] = (Slice.items actions, none) ∧
          actions.length = 1 ∧
          actions.map (fun a => a.raw) = [⟨"alice", "create_implicit_account"⟩]) ∧
      GetActions ⟨"k1", "k2", "k3", "k4", "create_implicit_account", "k6"⟩ (fun _ _ => none)
          [⟨"alice", "create_implicit_account"⟩, ⟨"bob", "THIS_ACTION_DOES_NOT_EXIST"⟩,
            ⟨"carol", "create_implicit_account"⟩] =
        (Slice.nil,
          some (GetError.errorf "Unexpected action kind (THIS_ACTION_DOES_NOT_EXIST).")) := by
  have h := GetActions_all_or_nothing ⟨"k1", "k2", "k3", "k4", "create_implicit_account", "k6"⟩
    (fun _ _ => none) [⟨"alice", "create_implicit_account"⟩]
    (by intro r hr; rw [List.mem_singleton] at hr; subst hr; simp [knownKinds])
    (fun _ _ _ _ => rfl)
  obtain ⟨⟨actions, h1, h2, h3, _⟩, hbad⟩ := h
  exact ⟨⟨actions, h1, h2, h3⟩,
    hbad ⟨"bob", "THIS_ACTION_DOES_NOT_EXIST"⟩ [⟨"carol", "create_implicit_account"⟩]
      (by simp [knownKinds])⟩

end Action
